import Mathlib

/-!
joobpay-go-updater: a verification development.

Shallow embedding of `pkg/updater` (checker.go, downloader.go, applier.go,
script.go, updater.go) and `internal/utils` (hash.go, zip.go).

Go strings are byte sequences; they are embedded as lists of byte values.
Library code the package calls (`golang.org/x/mod/semver`, `strings`,
`path/filepath`, `os`) is embedded next to the functions that use it.
-/

namespace Joobpay

/-! ## Go strings -/

/-- A Go string: its bytes, in order. -/
abbrev Bytes := List Nat

/-- UTF-8 encoding of one character of a source literal. -/
def utf8Char (c : Char) : Bytes :=
  let n := c.toNat
  if n < 0x80 then [n]
  else if n < 0x800 then [0xC0 + n / 64, 0x80 + n % 64]
  else if n < 0x10000 then [0xE0 + n / 4096, 0x80 + n / 64 % 64, 0x80 + n % 64]
  else [0xF0 + n / 262144, 0x80 + n / 4096 % 64, 0x80 + n / 64 % 64, 0x80 + n % 64]

/-- The bytes of a Go string literal. -/
def str (s : String) : Bytes := s.toList.flatMap utf8Char

/-- Go's `x < y` on strings: bytewise lexicographic order. -/
def strLt : Bytes → Bytes → Bool
  | [], [] => false
  | [], _ :: _ => true
  | _ :: _, [] => false
  | a :: as, b :: bs => if a < b then true else if b < a then false else strLt as bs

deriving instance DecidableEq for Except

/-! ## golang.org/x/mod/semver -/

namespace semver

/-- The `'0' <= c && c <= '9'` test used throughout the package. -/
def isDigit (c : Nat) : Bool := 48 ≤ c && c ≤ 57

/-- `semver.isIdentChar`: `[0-9A-Za-z-]`. -/
def isIdentChar (c : Nat) : Bool :=
  (65 ≤ c && c ≤ 90) || (97 ≤ c && c ≤ 122) || (48 ≤ c && c ≤ 57) || c == 45

/-- `semver.isBadNum`: all digits, more than one, leading zero. -/
def isBadNum (v : Bytes) : Bool :=
  let i := (v.takeWhile isDigit).length
  i == v.length && 1 < i && v.head? == some 48

/-- `semver.isNum`: all digits. -/
def isNum (v : Bytes) : Bool :=
  (v.takeWhile isDigit).length == v.length

/-- `semver.parseInt`: a leading decimal number without leading zeros, and the rest. -/
def parseInt (v : Bytes) : Option (Bytes × Bytes) :=
  match v with
  | [] => none
  | c :: cs =>
    if c < 48 || 57 < c then none
    else
      let t := c :: cs.takeWhile isDigit
      let rest := cs.dropWhile isDigit
      if c == 48 && t.length != 1 then none else some (t, rest)

/-- The scanning loop of `semver.parsePrerelease`, started after the hyphen.
`cur` is `v[start:i]`, the identifier read so far; the result is the text
consumed and the rest, which is empty or starts with `+`. -/
def prereleaseLoop (cur : Bytes) : Bytes → Option (Bytes × Bytes)
  | [] => if cur = [] || isBadNum cur then none else some ([], [])
  | c :: cs =>
    if c == 43 then
      if cur = [] || isBadNum cur then none else some ([], c :: cs)
    else if !isIdentChar c && c != 46 then none
    else if c == 46 then
      if cur = [] || isBadNum cur then none
      else (prereleaseLoop [] cs).map (fun r => (c :: r.1, r.2))
    else (prereleaseLoop (cur ++ [c]) cs).map (fun r => (c :: r.1, r.2))

/-- `semver.parsePrerelease`: the prerelease with its hyphen, and the rest. -/
def parsePrerelease (v : Bytes) : Option (Bytes × Bytes) :=
  match v with
  | [] => none
  | c :: cs =>
    if c != 45 then none
    else (prereleaseLoop [] cs).map (fun r => (c :: r.1, r.2))

/-- The scanning loop of `semver.parseBuild`, started after the plus sign. -/
def buildLoop (cur : Bytes) : Bytes → Option (Bytes × Bytes)
  | [] => if cur = [] then none else some ([], [])
  | c :: cs =>
    if !isIdentChar c && c != 46 then none
    else if c == 46 then
      if cur = [] then none
      else (buildLoop [] cs).map (fun r => (c :: r.1, r.2))
    else (buildLoop (cur ++ [c]) cs).map (fun r => (c :: r.1, r.2))

/-- `semver.parseBuild`: the build metadata with its plus sign, and the rest. -/
def parseBuild (v : Bytes) : Option (Bytes × Bytes) :=
  match v with
  | [] => none
  | c :: cs =>
    if c != 43 then none
    else (buildLoop [] cs).map (fun r => (c :: r.1, r.2))

/-- `semver.parsed`. -/
structure Parsed where
  major : Bytes
  minor : Bytes
  patch : Bytes
  short : Bytes
  prerelease : Bytes
  build : Bytes
deriving DecidableEq, Repr

/-- The tail of `semver.parse`, after the patch number has been read. -/
def parseTail (major minor patch v : Bytes) : Option Parsed :=
  let pre : Option (Bytes × Bytes) :=
    if v.head? = some 45 then parsePrerelease v else some ([], v)
  match pre with
  | none => none
  | some (prerelease, v) =>
    let bld : Option (Bytes × Bytes) :=
      if v.head? = some 43 then parseBuild v else some ([], v)
    match bld with
    | none => none
    | some (build, v) =>
      if v ≠ [] then none
      else some ⟨major, minor, patch, [], prerelease, build⟩

/-- `semver.parse`. -/
def parse (v : Bytes) : Option Parsed :=
  match v with
  | [] => none
  | c :: v =>
    if c != 118 then none
    else
      match parseInt v with
      | none => none
      | some (major, v) =>
        match v with
        | [] => some ⟨major, [48], [48], str ".0.0", [], []⟩
        | d :: v =>
          if d != 46 then none
          else
            match parseInt v with
            | none => none
            | some (minor, v) =>
              match v with
              | [] => some ⟨major, minor, [48], str ".0", [], []⟩
              | d :: v =>
                if d != 46 then none
                else
                  match parseInt v with
                  | none => none
                  | some (patch, v) => parseTail major minor patch v

/-- `semver.IsValid`. -/
def IsValid (v : Bytes) : Bool := (parse v).isSome

/-- `semver.compareInt`: decimal strings without leading zeros, by length then bytes. -/
def compareInt (x y : Bytes) : Int :=
  if x = y then 0
  else if x.length < y.length then -1
  else if x.length > y.length then 1
  else if strLt x y then -1 else 1

/-- `semver.nextIdent`: the text up to the next dot, and the rest. -/
def nextIdent (x : Bytes) : Bytes × Bytes :=
  (x.takeWhile (fun c => c != 46), x.dropWhile (fun c => c != 46))

/-- The `for x != "" && y != ""` loop of `semver.comparePrerelease` together with
the statement after it. Every iteration removes at least one byte of `x`, so
`fuel` bounds the iterations; with no fuel left the loop has ended. -/
def comparePrereleaseLoop : Nat → Bytes → Bytes → Int
  | 0, x, _ => if x = [] then -1 else 1
  | fuel + 1, x, y =>
    if x ≠ [] ∧ y ≠ [] then
      let x := x.tail
      let y := y.tail
      let dx := (nextIdent x).1
      let x := (nextIdent x).2
      let dy := (nextIdent y).1
      let y := (nextIdent y).2
      if dx ≠ dy then
        let ix := isNum dx
        let iy := isNum dy
        if ix != iy then
          if ix then -1 else 1
        else if ix && dx.length < dy.length then -1
        else if ix && dx.length > dy.length then 1
        else if strLt dx dy then -1 else 1
      else comparePrereleaseLoop fuel x y
    else if x = [] then -1 else 1

/-- `semver.comparePrerelease`. -/
def comparePrerelease (x y : Bytes) : Int :=
  if x = y then 0
  else if x = [] then 1
  else if y = [] then -1
  else comparePrereleaseLoop x.length x y

/-- `semver.Compare`. -/
def Compare (v w : Bytes) : Int :=
  match parse v, parse w with
  | none, none => 0
  | none, some _ => -1
  | some _, none => 1
  | some pv, some pw =>
    if compareInt pv.major pw.major ≠ 0 then compareInt pv.major pw.major
    else if compareInt pv.minor pw.minor ≠ 0 then compareInt pv.minor pw.minor
    else if compareInt pv.patch pw.patch ≠ 0 then compareInt pv.patch pw.patch
    else comparePrerelease pv.prerelease pw.prerelease

end semver

/-! ## checker.go: isNewerVersion -/

/-- The two `fmt.Errorf` results of `isNewerVersion`, each with the string it prints. -/
inductive VersionError where
  /-- `versión actual inválida: %s` -/
  | invalidCurrent (currentVersion : Bytes)
  /-- `versión nueva inválida: %s` -/
  | invalidNew (newVersion : Bytes)
deriving DecidableEq, Repr

/-- The `if s != "" && s[0] != 'v' { s = "v" + s }` step of `isNewerVersion`. -/
def addV (s : Bytes) : Bytes :=
  match s with
  | [] => []
  | c :: cs => if c != 118 then 118 :: c :: cs else c :: cs

/-- `isNewerVersion(currentVersion, newVersion)`. -/
def isNewerVersion (currentVersion newVersion : Bytes) : Except VersionError Bool :=
  let current := addV currentVersion
  let new := addV newVersion
  if !semver.IsValid current then .error (.invalidCurrent currentVersion)
  else if !semver.IsValid new then .error (.invalidNew newVersion)
  else
    let comparison := semver.Compare new current
    .ok (decide (comparison > 0))

/-! ## Semantic Versioning 2.0.0, section 11: precedence

The reading of "semantic-version precedence" that `isNewerVersion` is compared
with: versions as numbers and pre-release identifiers, ordered as the
specification words it. -/

namespace SemVerSpec

/-- The number a decimal string denotes. -/
def decimal (s : Bytes) : Nat := s.foldl (fun acc c => acc * 10 + (c - 48)) 0

/-- A pre-release identifier: digits only (compared as a number) or not. -/
inductive PreId where
  | numeric (n : Nat)
  | alnum (s : Bytes)
deriving DecidableEq, Repr

/-- Precedence of two identifiers: numbers numerically, others in ASCII order,
a number below any non-number. -/
def PreId.lt : PreId → PreId → Bool
  | .numeric a, .numeric b => decide (a < b)
  | .numeric _, .alnum _ => true
  | .alnum _, .numeric _ => false
  | .alnum a, .alnum b => strLt a b

/-- Precedence of two identifier lists: the first difference decides; when one
list is a proper prefix of the other, the shorter one is lower. -/
def preLt : List PreId → List PreId → Bool
  | [], [] => false
  | [], _ :: _ => true
  | _ :: _, [] => false
  | a :: as, b :: bs => a.lt b || (decide (a = b) && preLt as bs)

/-- Precedence of the pre-release parts of two versions that agree on major,
minor and patch: a version with a pre-release is lower than one without. -/
def prePrecLt (a b : List PreId) : Bool :=
  match a, b with
  | [], _ => false
  | _ :: _, [] => true
  | a :: as, b :: bs => preLt (a :: as) (b :: bs)

/-- A version as the specification sees it. `pre = []` is a normal version. -/
structure Version where
  major : Nat
  minor : Nat
  patch : Nat
  pre : List PreId
deriving DecidableEq, Repr

/-- Strict precedence `v < w`: major, then minor, then patch, then pre-release,
where a pre-release version is lower than the normal version. -/
def precLt (v w : Version) : Bool :=
  if v.major ≠ w.major then decide (v.major < w.major)
  else if v.minor ≠ w.minor then decide (v.minor < w.minor)
  else if v.patch ≠ w.patch then decide (v.patch < w.patch)
  else prePrecLt v.pre w.pre

/-- The dot-separated fields of a string. -/
def splitOnDot : Bytes → List Bytes
  | [] => [[]]
  | c :: cs =>
    if c = 46 then [] :: splitOnDot cs
    else
      match splitOnDot cs with
      | [] => [[c]]
      | h :: t => (c :: h) :: t

/-- One field of a pre-release as an identifier. -/
def toPreId (s : Bytes) : PreId :=
  if s.all semver.isDigit then .numeric (decimal s) else .alnum s

/-- The identifiers of a pre-release string as `semver.parse` stores it: empty,
or a hyphen followed by dot-separated fields. -/
def preIds (prerelease : Bytes) : List PreId :=
  match prerelease with
  | [] => []
  | _ :: body => (splitOnDot body).map toPreId

/-- What a parsed version string denotes. Build metadata has no part in precedence. -/
def toVersion (p : semver.Parsed) : Version :=
  ⟨decimal p.major, decimal p.minor, decimal p.patch, preIds p.prerelease⟩

/-- A decimal number as `semver.parseInt` accepts it: digits, no leading zero. -/
def Canon (s : Bytes) : Prop :=
  s ≠ [] ∧ s.all semver.isDigit = true ∧ (s.head? = some 48 → s.length = 1)

/-- Three-way comparison of two numbers, as `semver.Compare` reports it. -/
def cmpNat (a b : Nat) : Int := if a = b then 0 else if a < b then -1 else 1

/-- A field of a pre-release as `semver.parsePrerelease` accepts it. -/
def WFId (i : Bytes) : Prop := i ≠ [] ∧ semver.isBadNum i = false

/-- A pre-release body as `semver.parsePrerelease` accepts it. -/
def WFPre (body : Bytes) : Prop := ∀ i ∈ splitOnDot body, WFId i

/-- The shape of everything `semver.parse` returns. -/
def WFParsed (p : semver.Parsed) : Prop :=
  Canon p.major ∧ Canon p.minor ∧ Canon p.patch
    ∧ (p.prerelease = [] ∨ ∃ b, p.prerelease = 45 :: b ∧ WFPre b)

/-- Fields joined with dots, the inverse of `splitOnDot`. -/
def joinDots : List Bytes → Bytes
  | [] => []
  | [x] => x
  | x :: y :: r => x ++ 46 :: joinDots (y :: r)

end SemVerSpec

/-! ## path/filepath (Unix) -/

namespace filepath

/-- The elements of a path: the text between separators. -/
def elems : Bytes → List Bytes
  | [] => [[]]
  | c :: cs =>
    if c = 47 then [] :: elems cs
    else
      match elems cs with
      | [] => [[c]]
      | h :: t => (c :: h) :: t

/-- Elements joined with the separator: `strings.Join(elems, "/")`. -/
def joinSlash : List Bytes → Bytes
  | [] => []
  | [x] => x
  | x :: y :: r => x ++ 47 :: joinSlash (y :: r)

/-- One step of the loop of `filepath.Clean`: `out` holds the elements written
so far. Empty and `.` elements are dropped; `..` removes the last element
written, unless there is none to remove, in which case it is kept when the path
is not rooted. -/
def cleanStep (rooted : Bool) (out : List Bytes) (c : Bytes) : List Bytes :=
  if c = [] ∨ c = [46] then out
  else if c = [46, 46] then
    match out.getLast? with
    | some l => if l = [46, 46] then out ++ [c] else out.dropLast
    | none => if rooted then out else out ++ [c]
  else out ++ [c]

/-- The elements `filepath.Clean` keeps. -/
def cleanElems (p : Bytes) : List Bytes :=
  (elems p).foldl (cleanStep (decide (p.head? = some 47))) []

/-- `filepath.Clean`. -/
def Clean (p : Bytes) : Bytes :=
  if p = [] then [46]
  else if p.head? = some 47 then 47 :: joinSlash (cleanElems p)
  else if cleanElems p = [] then [46]
  else joinSlash (cleanElems p)

/-- `filepath.Join` of two elements: empty elements are ignored, the rest is
joined with a separator and cleaned; all empty gives the empty string. -/
def Join (a b : Bytes) : Bytes :=
  if a ≠ [] then Clean (a ++ 47 :: b)
  else if b ≠ [] then Clean b
  else []

/-- `filepath.Dir`: the path up to its last separator, cleaned. -/
def Dir (p : Bytes) : Bytes :=
  Clean ((p.reverse.dropWhile (fun c => c != 47)).reverse)

end filepath

/-! ## os: a file system

A tree of directories and regular files, addressed by absolute element lists.
A name is resolved component by component, each one looked up in a directory
that exists. There are no links and no permission bits: the calls fail as the
tree makes them fail, and where the program drops the error of a removal, the
refusal of the system for a reason outside the tree is an input of the call. -/

namespace os

/-- The error numbers the modelled calls return. -/
inductive Errno where
  | ENOENT
  | ENOTDIR
  | EISDIR
  | ENOTEMPTY
  | EINVAL
  | EEXIST
  | EACCES
deriving DecidableEq, Repr

/-- `os.IsNotExist(err)` for an error of a modelled call. -/
def IsNotExist (e : Errno) : Bool := e = .ENOENT

/-- What a name can denote. -/
inductive Node where
  | file (content : Bytes)
  | dir
deriving DecidableEq, Repr

/-- `info.IsDir()`. -/
def Node.isDir : Node → Bool
  | .dir => true
  | .file _ => false

/-- An absolute location: the elements from the root. -/
abbrev Key := List Bytes

/-- The state of the file system. The root is always a directory. -/
structure FS where
  cwd : Key
  nodes : List (Key × Node)
deriving DecidableEq, Repr

/-- The node at a location. -/
def FS.lookup (fs : FS) (k : Key) : Option Node :=
  if k = [] then some .dir
  else (fs.nodes.find? (fun e => decide (e.1 = k))).map (fun e => e.2)

/-- The state with the location `k` vacated. -/
def FS.erase (fs : FS) (k : Key) : FS :=
  { fs with nodes := fs.nodes.filter (fun e => decide (e.1 ≠ k)) }

/-- The state with `n` at the location `k`. -/
def FS.set (fs : FS) (k : Key) (n : Node) : FS :=
  { fs with nodes := (k, n) :: fs.nodes.filter (fun e => decide (e.1 ≠ k)) }

/-- The components of a name: what stands between its separators. -/
def components (p : Bytes) : List Bytes :=
  (filepath.elems p).filter (fun c => decide (c ≠ []))

/-- A name that ends in a separator: it can only denote a directory. -/
def dirOnly (p : Bytes) : Bool := p.getLast? = some 47

/-- One component of a name, applied to the location reached so far. -/
def walkStep (k : Key) (c : Bytes) : Key :=
  if c = [] ∨ c = [46] then k
  else if c = [46, 46] then k.dropLast
  else k ++ [c]

/-- The locations strictly above `k`, the root first. -/
def ancestors (k : Key) : List Key := k.inits.dropLast

/-- Every location of the list is a directory. -/
def checkDirs (fs : FS) : List Key → Except Errno Unit
  | [] => .ok ()
  | k :: ks =>
    match fs.lookup k with
    | some .dir => checkDirs fs ks
    | some (.file _) => .error .ENOTDIR
    | none => .error .ENOENT

/-- Path resolution from the location `k`: every component is looked up in a
directory that exists; what the last one leads to need not exist. -/
def walk (fs : FS) : Key → List Bytes → Except Errno Key
  | k, [] => .ok k
  | k, c :: cs =>
    match fs.lookup k with
    | some .dir => walk fs (walkStep k c) cs
    | some (.file _) => .error .ENOTDIR
    | none => .error .ENOENT

/-- Where the resolution of a name starts: the root for an absolute name, the
working directory otherwise. -/
def startOf (fs : FS) (p : Bytes) : Key := if p.head? = some 47 then [] else fs.cwd

/-- The location a name leads to. The empty name leads nowhere; the working
directory is reached through directories (in a tree, what lies above a
directory is a directory). -/
def namei (fs : FS) (p : Bytes) : Except Errno Key :=
  if p = [] then .error .ENOENT
  else
    match checkDirs fs (ancestors (startOf fs p)) with
    | .error e => .error e
    | .ok _ => walk fs (startOf fs p) (components p)

/-- `os.Stat` (and `os.Lstat`: there are no links). -/
def Stat (fs : FS) (p : Bytes) : Except Errno Node :=
  match namei fs p with
  | .error e => .error e
  | .ok k =>
    match fs.lookup k with
    | none => .error .ENOENT
    | some (.file c) => if dirOnly p then .error .ENOTDIR else .ok (.file c)
    | some .dir => .ok .dir

/-- `os.Mkdir`. -/
def Mkdir (fs : FS) (p : Bytes) : Except Errno FS :=
  match namei fs p with
  | .error e => .error e
  | .ok k =>
    match fs.lookup k with
    | some _ => .error .EEXIST
    | none => .ok (fs.set k .dir)

/-- The parent that `os.MkdirAll` recurses into: the name without its trailing
separators, its last element and the separator before that. -/
def parentName (p : Bytes) : Bytes :=
  (((p.reverse.dropWhile (fun c => decide (c = 47))).dropWhile
    (fun c => decide (c ≠ 47))).drop 1).reverse

/-- The end of `os.MkdirAll`, once the parent is there: `Mkdir`, and when that
fails a second look at the name. -/
def mkdirLast (fs : FS) (p : Bytes) : FS × Except Errno Unit :=
  match Mkdir fs p with
  | .ok fs => (fs, .ok ())
  | .error err =>
    match Stat fs p with
    | .ok .dir => (fs, .ok ())
    | _ => (fs, .error err)

/-- The recursion of `os.MkdirAll`; `depth` bounds the recursion into parents,
each of which is shorter than its name. The directories made before a failure
stay. -/
def mkdirAll (fs : FS) : Nat → Bytes → FS × Except Errno Unit
  | 0, p =>
    match Stat fs p with
    | .ok .dir => (fs, .ok ())
    | .ok (.file _) => (fs, .error .ENOTDIR)
    | .error _ => mkdirLast fs p
  | depth + 1, p =>
    match Stat fs p with
    | .ok .dir => (fs, .ok ())
    | .ok (.file _) => (fs, .error .ENOTDIR)
    | .error _ =>
      if parentName p = [] then mkdirLast fs p
      else
        match mkdirAll fs depth (parentName p) with
        | (fs, .error err) => (fs, .error err)
        | (fs, .ok _) => mkdirLast fs p

/-- `os.MkdirAll`: the directory and every missing parent. -/
def MkdirAll (fs : FS) (p : Bytes) : FS × Except Errno Unit := mkdirAll fs p.length p

/-- `os.Create` and `os.OpenFile(p, O_WRONLY|O_CREATE|O_TRUNC, _)`: an empty
regular file at `p`; the location is returned as the handle to write to. -/
def Create (fs : FS) (p : Bytes) : Except Errno (FS × Key) :=
  match namei fs p with
  | .error e => .error e
  | .ok k =>
    match fs.lookup k with
    | some .dir => .error .EISDIR
    | some (.file _) => if dirOnly p then .error .ENOTDIR else .ok (fs.set k (.file []), k)
    | none => if dirOnly p then .error .EISDIR else .ok (fs.set k (.file []), k)

/-- Writing `data` through the handle of a file just created. -/
def writeTo (fs : FS) (k : Key) (data : Bytes) : FS := fs.set k (.file data)

/-- `os.Open` followed by reading to the end. -/
def ReadFile (fs : FS) (p : Bytes) : Except Errno Bytes :=
  match namei fs p with
  | .error e => .error e
  | .ok k =>
    match fs.lookup k with
    | none => .error .ENOENT
    | some .dir => .error .EISDIR
    | some (.file c) => if dirOnly p then .error .ENOTDIR else .ok c

/-- Whether anything lies strictly below `k`. -/
def FS.hasChildren (fs : FS) (k : Key) : Bool :=
  fs.nodes.any (fun e => decide (k <+: e.1 ∧ e.1 ≠ k))

/-- `os.Remove`: a file or an empty directory. `refused` says that the system
refuses to take the entry out of its directory for a reason outside the tree
(the permissions of the directory, the owner of the entry in a sticky
directory). -/
def Remove (fs : FS) (p : Bytes) (refused : Bool) : Except Errno FS :=
  match namei fs p with
  | .error e => .error e
  | .ok k =>
    match fs.lookup k with
    | none => .error .ENOENT
    | some (.file _) =>
      if dirOnly p then .error .ENOTDIR
      else if refused then .error .EACCES
      else .ok (fs.erase k)
    | some .dir =>
      if k = [] then .error .EINVAL
      else if fs.hasChildren k then .error .ENOTEMPTY
      else if refused then .error .EACCES
      else .ok (fs.erase k)

/-- The `endsWithDot` test of `os.RemoveAll`. -/
def endsWithDot (p : Bytes) : Bool :=
  p = [46] || [47, 46].isSuffixOf p

/-- `os.RemoveAll`: the location and everything below it; nothing for the empty
name or a name that leads to nothing. -/
def RemoveAll (fs : FS) (p : Bytes) : Except Errno FS :=
  if p = [] then .ok fs
  else if endsWithDot p then .error .EINVAL
  else
    match namei fs p with
    | .error .ENOENT => .ok fs
    | .error e => .error e
    | .ok k => .ok { fs with nodes := fs.nodes.filter (fun e => !decide (k <+: e.1)) }

/-- `os.DirEntry`. -/
structure DirEntry where
  name : Bytes
  isDir : Bool
deriving DecidableEq, Repr

/-- An entry put in its place in a listing sorted by name; a name already
listed stays as it is. -/
def insertEntry (e : DirEntry) : List DirEntry → List DirEntry
  | [] => [e]
  | x :: xs =>
    if e.name = x.name then x :: xs
    else if strLt e.name x.name then e :: x :: xs
    else x :: insertEntry e xs

/-- The entries directly below `k`, sorted by name. -/
def FS.children (fs : FS) (k : Key) : List DirEntry :=
  fs.nodes.foldl
    (fun acc e =>
      match e.1.getLast? with
      | some name => if e.1.dropLast = k then insertEntry ⟨name, e.2.isDir⟩ acc else acc
      | none => acc)
    []

/-- `os.ReadDir`: the entries of a directory, sorted by file name. -/
def ReadDir (fs : FS) (p : Bytes) : Except Errno (List DirEntry) :=
  match namei fs p with
  | .error e => .error e
  | .ok k =>
    match fs.lookup k with
    | none => .error .ENOENT
    | some (.file _) => .error .ENOTDIR
    | some .dir => .ok (fs.children k)

/-- `os.WriteFile`. -/
def WriteFile (fs : FS) (p : Bytes) (data : Bytes) : Except Errno FS :=
  match Create fs p with
  | .error e => .error e
  | .ok (fs, k) => .ok (writeTo fs k data)

end os
/-! ## strings, fmt, encoding/hex -/

namespace strings

/-- The scan of `strings.ReplaceAll` for a non-empty `old`: occurrences are
replaced from the left and do not overlap. `skip` counts the bytes of the
occurrence just replaced that are still to be passed over. -/
def replaceAux (old new : Bytes) : Nat → Bytes → Bytes
  | _, [] => []
  | skip + 1, _ :: cs => replaceAux old new skip cs
  | 0, c :: cs =>
    if old.isPrefixOf (c :: cs) then new ++ replaceAux old new (old.length - 1) cs
    else c :: replaceAux old new 0 cs

/-- `strings.ReplaceAll(s, old, new)` for a non-empty `old`, the only use in this package. -/
def ReplaceAll (s old new : Bytes) : Bytes := replaceAux old new 0 s

/-- `strings.Contains(s, substr)`. -/
def Contains : Bytes → Bytes → Bool
  | [], sub => sub.isEmpty
  | c :: cs, sub => sub.isPrefixOf (c :: cs) || Contains cs sub

end strings

namespace fmt

/-- The digits of `n`, most significant first, in front of `acc`. `fuel` bounds
the number of digits. -/
def digitsAux : Nat → Nat → Bytes → Bytes
  | 0, _, acc => acc
  | fuel + 1, n, acc =>
    if n < 10 then (48 + n) :: acc
    else digitsAux fuel (n / 10) ((48 + n % 10) :: acc)

/-- The decimal form of a natural number. -/
def natDecimal (n : Nat) : Bytes := digitsAux (n + 1) n []

/-- `fmt.Sprintf("%d", n)`. -/
def formatInt (n : Int) : Bytes :=
  if n < 0 then 45 :: natDecimal n.natAbs else natDecimal n.natAbs

end fmt

namespace hex

/-- One digit of `0123456789abcdef`. -/
def digit (n : Nat) : Nat := if n < 10 then 48 + n else 87 + n

/-- `hex.EncodeToString`. -/
def EncodeToString (b : Bytes) : Bytes := b.flatMap (fun x => [digit (x / 16), digit (x % 16)])

end hex

/-! ## updater.go -/

/-- `Config`. -/
structure Config where
  CurrentVersion : Bytes
  SourceURL : Bytes
  ZipFileName : Bytes
  DownloadPath : Bytes
  StartAutomatically : Bool
  AfterUpdateCommand : Bytes
  BeforeUpdateCommand : Bytes
  /-- Modelled from the spec: applier.go reads `u.config.AppPath`, a field the
  `Config` declaration of updater.go does not have; it is "the currently
  installed bundle ... at the configured application path" of section 4.4. -/
  AppPath : Bytes
deriving DecidableEq, Repr

/-- `Manifest`. -/
structure Manifest where
  Version : Bytes
  Checksum : Bytes
deriving DecidableEq, Repr

/-- `Updater`; `manifest` is `none` for the nil pointer. -/
structure Updater where
  config : Config
  manifest : Option Manifest
deriving DecidableEq, Repr

/-- What one `http.Get` yields: no response, or a status with a body stream
that delivers `body` and then ends (`complete`) or fails. -/
inductive HttpResult where
  | failed
  | response (status : Nat) (body : Bytes) (complete : Bool)
deriving DecidableEq, Repr

/-- One `*zip.File` of an opened archive: its name, whether its mode says
directory, and the bytes its reader delivers before it ends (`complete`) or fails. -/
structure ZipEntry where
  name : Bytes
  isDir : Bool
  data : Bytes
  complete : Bool
deriving DecidableEq, Repr

/-- What the package takes from outside the program. -/
structure Env where
  /-- `runtime.GOARCH` -/
  goarch : Bytes
  /-- `http.Get`, by URL -/
  httpGet : Bytes → HttpResult
  /-- `json.Unmarshal` into a `Manifest`; `none` for a body it rejects -/
  jsonUnmarshal : Bytes → Option Manifest
  /-- `sha256` of a byte sequence -/
  sha256 : Bytes → Bytes
  /-- `zip.OpenReader` on the bytes of a file; `none` for what is not an archive -/
  zipReader : Bytes → Option (List ZipEntry)
  /-- `os.Getpid()` -/
  pid : Int
  /-- `time.Now().Unix()` -/
  now : Int
  /-- whether `cmd.Start()` succeeds -/
  startOk : Bool
  /-- whether `cmd.Process.Release()` succeeds -/
  releaseOk : Bool
  /-- `os.UserHomeDir()`; `none` for an error -/
  userHomeDir : Option Bytes
  /-- whether the system refuses to remove the entry of this name for a reason
  outside the tree of files (the permissions of its directory) -/
  removeRefused : Bytes → Bool

/-- `New`. -/
def New (env : Env) (config : Config) : Updater :=
  let config :=
    if (str "~/").isPrefixOf config.DownloadPath then
      match env.userHomeDir with
      | some home => { config with DownloadPath := filepath.Join home (config.DownloadPath.drop 2) }
      | none => config
    else config
  let config :=
    if !(str "/").isSuffixOf config.SourceURL then
      { config with SourceURL := config.SourceURL ++ str "/" }
    else config
  { config := config, manifest := none }

/-- `GetConfig`. -/
def Updater.GetConfig (u : Updater) : Config := u.config

/-- `GetManifest`. -/
def Updater.GetManifest (u : Updater) : Option Manifest := u.manifest

/-- `GetZipPath`. -/
def Updater.GetZipPath (u : Updater) : Bytes :=
  filepath.Join u.config.DownloadPath u.config.ZipFileName

/-- `ensureDownloadPath`; the error is `error creando directorio de descarga: %w`. -/
def Updater.ensureDownloadPath (u : Updater) (fs : os.FS) : os.FS × Except os.Errno Unit :=
  os.MkdirAll fs u.config.DownloadPath

/-! ## checker.go: CheckForUpdate -/

/-- The errors of `CheckForUpdate`. -/
inductive CheckError where
  /-- `error descargando manifiesto: %w` -/
  | transport
  /-- `error HTTP %d descargando manifiesto` -/
  | httpStatus (code : Nat)
  /-- `error leyendo manifiesto: %w` -/
  | read
  /-- `error parseando manifiesto: %w` -/
  | parse
deriving DecidableEq, Repr

/-- `CheckForUpdate`: the session afterwards and `(hasUpdate, newVersion)` or the error. -/
def Updater.CheckForUpdate (env : Env) (u : Updater) :
    Updater × Except CheckError (Bool × Bytes) :=
  let arch := env.goarch
  let manifestURL := u.config.SourceURL ++ str "darwin-" ++ arch ++ str ".json"
  match env.httpGet manifestURL with
  | .failed => (u, .error .transport)
  | .response status body complete =>
    if status ≠ 200 then (u, .error (.httpStatus status))
    else if !complete then (u, .error .read)
    else
      match env.jsonUnmarshal body with
      | none => (u, .error .parse)
      | some manifest =>
        let u := { u with manifest := some manifest }
        let hasUpdate :=
          match isNewerVersion u.config.CurrentVersion manifest.Version with
          | .ok hasUpdate => hasUpdate
          | .error _ => decide (manifest.Version ≠ u.config.CurrentVersion)
        if hasUpdate then (u, .ok (true, manifest.Version))
        else (u, .ok (false, []))

/-! ## hash.go -/

/-- `CalculateSHA256`; the error is that of opening or reading the file. -/
def CalculateSHA256 (env : Env) (fs : os.FS) (filePath : Bytes) : Except os.Errno Bytes :=
  match os.ReadFile fs filePath with
  | .error e => .error e
  | .ok content => .ok (hex.EncodeToString (env.sha256 content))

/-- `VerifyChecksum`. -/
def VerifyChecksum (env : Env) (fs : os.FS) (filePath expectedChecksum : Bytes) :
    Except os.Errno Bool :=
  match CalculateSHA256 env fs filePath with
  | .error e => .error e
  | .ok actualChecksum => .ok (decide (actualChecksum = expectedChecksum))

/-! ## downloader.go -/

/-- The errors of `downloadFile`. -/
inductive FileError where
  /-- `error creando archivo de destino: %w` -/
  | create (e : os.Errno)
  /-- `error en petición HTTP: %w` -/
  | transport
  /-- `error HTTP %d descargando archivo` -/
  | httpStatus (code : Nat)
  /-- `error escribiendo archivo: %w` -/
  | copy
deriving DecidableEq, Repr

/-- The errors of `DownloadUpdate`. -/
inductive DownloadError where
  /-- `error verificando actualización: %w` -/
  | check (e : CheckError)
  /-- `no hay actualización disponible` -/
  | noUpdate
  /-- `error creando directorio de descarga: %w` -/
  | downloadPath (e : os.Errno)
  /-- `error descargando actualización: %w` -/
  | download (e : FileError)
  /-- `error validando checksum: %w` -/
  | checksum (e : os.Errno)
  /-- `checksum mismatch: el archivo descargado está corrupto o fue manipulado` -/
  | mismatch
  /-- the run-time panic of `u.manifest.Checksum` on a nil manifest -/
  | nilManifest
deriving DecidableEq, Repr

/-- `downloadFile`: the destination is created first, then the request is made
and the body copied into the file. -/
def downloadFile (env : Env) (fs : os.FS) (url destPath : Bytes) :
    os.FS × Except FileError Unit :=
  match os.Create fs destPath with
  | .error e => (fs, .error (.create e))
  | .ok (fs, out) =>
    match env.httpGet url with
    | .failed => (fs, .error .transport)
    | .response status body complete =>
      if status ≠ 200 then (fs, .error (.httpStatus status))
      else
        let fs := os.writeTo fs out body
        if !complete then (fs, .error .copy)
        else (fs, .ok ())

/-- A call of `os.Remove` whose result is dropped. -/
def removeIgnoringError (env : Env) (fs : os.FS) (p : Bytes) : os.FS :=
  match os.Remove fs p (env.removeRefused p) with
  | .ok fs => fs
  | .error _ => fs

/-- `DownloadUpdate`. -/
def Updater.DownloadUpdate (env : Env) (u : Updater) (fs : os.FS) :
    Updater × os.FS × Except DownloadError Unit :=
  let checked : Updater × Except DownloadError Unit :=
    if u.manifest = none then
      match u.CheckForUpdate env with
      | (u, .error err) => (u, .error (.check err))
      | (u, .ok (hasUpdate, _)) =>
        if !hasUpdate then (u, .error .noUpdate) else (u, .ok ())
    else (u, .ok ())
  match checked with
  | (u, .error err) => (u, fs, .error err)
  | (u, .ok _) =>
    match u.ensureDownloadPath fs with
    | (fs, .error err) => (u, fs, .error (.downloadPath err))
    | (fs, .ok _) =>
      let zipPath := filepath.Join u.config.DownloadPath u.config.ZipFileName
      let downloadURL := u.config.SourceURL ++ u.config.ZipFileName
      match downloadFile env fs downloadURL zipPath with
      | (fs, .error err) => (u, fs, .error (.download err))
      | (fs, .ok _) =>
        match u.manifest with
        | none => (u, fs, .error .nilManifest)
        | some manifest =>
          match VerifyChecksum env fs zipPath manifest.Checksum with
          | .error err => (u, removeIgnoringError env fs zipPath, .error (.checksum err))
          | .ok valid =>
            if !valid then (u, removeIgnoringError env fs zipPath, .error .mismatch)
            else (u, fs, .ok ())

/-- `IsDownloaded`. -/
def Updater.IsDownloaded (u : Updater) (fs : os.FS) : Bool :=
  let zipPath := u.GetZipPath
  if zipPath = [] then false
  else
    match os.Stat fs zipPath with
    | .ok _ => true
    | .error _ => false

/-- `CleanDownload`; the error is `error eliminando archivo de actualización: %w`. -/
def Updater.CleanDownload (env : Env) (u : Updater) (fs : os.FS) :
    os.FS × Except os.Errno Unit :=
  let zipPath := u.GetZipPath
  if zipPath = [] then (fs, .ok ())
  else
    match os.Remove fs zipPath (env.removeRefused zipPath) with
    | .ok fs => (fs, .ok ())
    | .error err => if !os.IsNotExist err then (fs, .error err) else (fs, .ok ())

/-! ## zip.go: UnzipFile -/

/-- The errors of `UnzipFile` and `extractZipFile`. -/
inductive UnzipError where
  /-- `error abriendo zip: %w` -/
  | openZip
  /-- `error creando directorio destino: %w` -/
  | destDir (e : os.Errno)
  /-- `ruta inválida en zip: %s` -/
  | invalidPath (name : Bytes)
  /-- `error creando directorio: %w` -/
  | mkdir (e : os.Errno)
  /-- `error creando directorios padre: %w` -/
  | parentDirs (e : os.Errno)
  /-- `error creando archivo: %w` -/
  | createFile (e : os.Errno)
  /-- `error abriendo archivo en zip: %w` and `error extrayendo archivo: %w` -/
  | copy
deriving DecidableEq, Repr

/-- `extractZipFile`. -/
def extractZipFile (fs : os.FS) (file : ZipEntry) (destPath : Bytes) :
    os.FS × Except UnzipError Unit :=
  let filePath := filepath.Join destPath file.name
  if !(filepath.Clean destPath ++ [47]).isPrefixOf filePath then
    (fs, .error (.invalidPath file.name))
  else if file.isDir then
    match os.MkdirAll fs filePath with
    | (fs, .error err) => (fs, .error (.mkdir err))
    | (fs, .ok _) => (fs, .ok ())
  else
    match os.MkdirAll fs (filepath.Dir filePath) with
    | (fs, .error err) => (fs, .error (.parentDirs err))
    | (fs, .ok _) =>
      match os.Create fs filePath with
      | .error err => (fs, .error (.createFile err))
      | .ok (fs, destFile) =>
        let fs := os.writeTo fs destFile file.data
        if !file.complete then (fs, .error .copy)
        else (fs, .ok ())

/-- The `for _, file := range reader.File` loop of `UnzipFile`. -/
def extractAll (fs : os.FS) (destPath : Bytes) : List ZipEntry → os.FS × Except UnzipError Unit
  | [] => (fs, .ok ())
  | file :: rest =>
    match extractZipFile fs file destPath with
    | (fs, .error err) => (fs, .error err)
    | (fs, .ok _) => extractAll fs destPath rest

/-- `UnzipFile`. -/
def UnzipFile (env : Env) (fs : os.FS) (zipPath destPath : Bytes) :
    os.FS × Except UnzipError Unit :=
  match os.ReadFile fs zipPath with
  | .error _ => (fs, .error .openZip)
  | .ok content =>
    match env.zipReader content with
    | none => (fs, .error .openZip)
    | some files =>
      match os.MkdirAll fs destPath with
      | (fs, .error err) => (fs, .error (.destDir err))
      | (fs, .ok _) => extractAll fs destPath files

/-! ## script.go -/

/-- The lines of `updateScriptTemplate`, each followed by a newline in the template. -/
def updateScriptLines : List String :=
  [ "#!/bin/bash",
    "set -e",
    "",
    "# Variables inyectadas",
    "PID=\"\x7b\x7bPID\x7d\x7d\"",
    "NEW_APP_PATH=\"\x7b\x7bNEW_APP_PATH\x7d\x7d\"",
    "CURRENT_APP_PATH=\"\x7b\x7bCURRENT_APP_PATH\x7d\x7d\"",
    "OLD_APP_BACKUP=\"\x7b\x7bOLD_APP_BACKUP\x7d\x7d\"",
    "ZIP_PATH=\"\x7b\x7bZIP_PATH\x7d\x7d\"",
    "",
    "# Función de logging",
    "log() \x7b",
    "    echo \"[$(date \x27+%Y-%m-%d %H:%M:%S\x27)] $1\"",
    "\x7d",
    "",
    "# Función de rollback",
    "rollback() \x7b",
    "    log \"ERROR: Realizando rollback...\"",
    "    if [ -d \"$OLD_APP_BACKUP\" ]; then",
    "        mv \"$OLD_APP_BACKUP\" \"$CURRENT_APP_PATH\" 2>/dev/null || true",
    "        log \"Rollback completado\"",
    "    fi",
    "    exit 1",
    "\x7d",
    "",
    "# Capturar errores y hacer rollback",
    "trap rollback ERR",
    "",
    "log \"=== Iniciando actualización ===\"",
    "log \"PID a esperar: $PID\"",
    "log \"Nueva app: $NEW_APP_PATH\"",
    "log \"App actual: $CURRENT_APP_PATH\"",
    "",
    "# 1. Esperar a que el proceso antiguo termine",
    "log \"Esperando a que el proceso $PID termine...\"",
    "while kill -0 \"$PID\" 2>/dev/null; do",
    "    sleep 0.5",
    "done",
    "log \"Proceso $PID terminado\"",
    "",
    "# Pequeña pausa adicional para asegurar que los recursos se liberaron",
    "sleep 1",
    "",
    "# 2. Sanitización - Limpiar atributos de cuarentena (Gatekeeper)",
    "log \"Limpiando atributos de cuarentena...\"",
    "xattr -d -r com.apple.quarantine \"$NEW_APP_PATH\" 2>/dev/null || true",
    "log \"Atributos de cuarentena limpiados\"",
    "",
    "# 3. Verificar que la nueva app existe",
    "if [ ! -d \"$NEW_APP_PATH\" ]; then",
    "    log \"ERROR: La nueva app no existe en $NEW_APP_PATH\"",
    "    exit 1",
    "fi",
    "",
    "# 4. Swap Atómico",
    "log \"Realizando swap atómico...\"",
    "",
    "# Mover app actual a backup",
    "if [ -d \"$CURRENT_APP_PATH\" ]; then",
    "    log \"Moviendo app actual a backup...\"",
    "    mv \"$CURRENT_APP_PATH\" \"$OLD_APP_BACKUP\"",
    "fi",
    "",
    "# Mover nueva app al destino",
    "log \"Instalando nueva app...\"",
    "mv \"$NEW_APP_PATH\" \"$CURRENT_APP_PATH\"",
    "",
    "log \"Swap completado exitosamente\"",
    "",
    "# 5. Limpieza",
    "log \"Limpiando archivos temporales...\"",
    "",
    "# Eliminar backup",
    "if [ -d \"$OLD_APP_BACKUP\" ]; then",
    "    rm -rf \"$OLD_APP_BACKUP\"",
    "    log \"Backup eliminado\"",
    "fi",
    "",
    "# Eliminar ZIP descargado",
    "if [ -f \"$ZIP_PATH\" ]; then",
    "    rm -f \"$ZIP_PATH\"",
    "    log \"ZIP eliminado\"",
    "fi",
    "",
    "# 6. Reiniciar la aplicación",
    "log \"Iniciando nueva versión de la aplicación...\"",
    "sleep 1",
    "open -n \"$CURRENT_APP_PATH\"",
    "",
    "log \"=== Actualización completada exitosamente ===\"" ]

/-- `updateScriptTemplate`. -/
def updateScriptTemplate : Bytes := updateScriptLines.flatMap (fun l => str l ++ [10])

/-! ## applier.go -/

/-- The errors of `executeDetached`. -/
inductive ExecError where
  /-- `error creando archivo de log: %w` -/
  | createLog (e : os.Errno)
  /-- `error iniciando script: %w` -/
  | start
  /-- `error liberando proceso: %w` -/
  | release
deriving DecidableEq, Repr

/-- The errors of `ApplyUpdate` and the functions it calls. -/
inductive ApplyError where
  /-- `directorio de descarga no existe: %s` -/
  | downloadPathMissing (path : Bytes)
  /-- `no hay actualización descargada` -/
  | noDownload
  /-- `archivo de actualización no existe: %s` -/
  | zipMissing (path : Bytes)
  /-- `aplicación actual no existe: %s` -/
  | appMissing (path : Bytes)
  /-- `error descomprimiendo actualización: %w` -/
  | unzip (e : UnzipError)
  /-- `error leyendo directorio: %w` -/
  | readDir (e : os.Errno)
  /-- `no se encontró bundle .app en: %s` -/
  | bundleNotFound (searchPath : Bytes)
  /-- `error escribiendo script de actualización: %w` -/
  | writeScript (e : os.Errno)
  /-- `error ejecutando script de actualización: %w` -/
  | exec (e : ExecError)
deriving DecidableEq, Repr

/-- A process started by `cmd.Start()`: `/bin/bash` on a script, in a session of
its own, with its output going to a log file. -/
structure Process where
  script : Bytes
  log : Bytes
deriving DecidableEq, Repr

/-- What `ApplyUpdate` acts on: the file system and the processes started. -/
structure World where
  fs : os.FS
  started : List Process
deriving DecidableEq, Repr

/-- The test `_, err := os.Stat(p); os.IsNotExist(err)`. -/
def statIsNotExist (fs : os.FS) (p : Bytes) : Bool :=
  match os.Stat fs p with
  | .ok _ => false
  | .error err => os.IsNotExist err

/-- A call of `os.RemoveAll` whose result is dropped. -/
def removeAllIgnoringError (fs : os.FS) (p : Bytes) : os.FS :=
  match os.RemoveAll fs p with
  | .ok fs => fs
  | .error _ => fs

/-- `validateForApply`. -/
def Updater.validateForApply (u : Updater) (fs : os.FS) : Except ApplyError Unit :=
  if statIsNotExist fs u.config.DownloadPath then
    .error (.downloadPathMissing u.config.DownloadPath)
  else
    let zipPath := u.GetZipPath
    if zipPath = [] then .error .noDownload
    else if statIsNotExist fs zipPath then .error (.zipMissing zipPath)
    else if statIsNotExist fs u.config.AppPath then .error (.appMissing u.config.AppPath)
    else .ok ()

/-- The loop of `findAppBundle`: the value of `appPath` after it. -/
def findAppLoop (searchPath : Bytes) : List os.DirEntry → Bytes
  | [] => []
  | entry :: rest =>
    if entry.isDir && (str ".app").isSuffixOf entry.name then
      filepath.Join searchPath entry.name
    else findAppLoop searchPath rest

/-- `findAppBundle`. -/
def findAppBundle (fs : os.FS) (searchPath : Bytes) : Except ApplyError Bytes :=
  match os.ReadDir fs searchPath with
  | .error err => .error (.readDir err)
  | .ok entries =>
    let appPath := findAppLoop searchPath entries
    if appPath = [] then .error (.bundleNotFound searchPath)
    else .ok appPath

/-- `generateUpdateScript`. -/
def generateUpdateScript (pid : Int) (newAppPath currentAppPath backupPath zipPath : Bytes) :
    Bytes :=
  let script := updateScriptTemplate
  let script := strings.ReplaceAll script (str "\x7b\x7bPID\x7d\x7d") (fmt.formatInt pid)
  let script := strings.ReplaceAll script (str "\x7b\x7bNEW_APP_PATH\x7d\x7d") newAppPath
  let script := strings.ReplaceAll script (str "\x7b\x7bCURRENT_APP_PATH\x7d\x7d") currentAppPath
  let script := strings.ReplaceAll script (str "\x7b\x7bOLD_APP_BACKUP\x7d\x7d") backupPath
  let script := strings.ReplaceAll script (str "\x7b\x7bZIP_PATH\x7d\x7d") zipPath
  script

/-- `executeDetached`. -/
def executeDetached (env : Env) (w : World) (scriptPath : Bytes) :
    World × Except ExecError Unit :=
  let logPath := filepath.Join (filepath.Dir scriptPath) (str "update.log")
  match os.Create w.fs logPath with
  | .error err => (w, .error (.createLog err))
  | .ok (fs, _) =>
    let w := { w with fs := fs }
    if !env.startOk then (w, .error .start)
    else
      let w := { w with started := w.started ++ [⟨scriptPath, logPath⟩] }
      if !env.releaseOk then (w, .error .release)
      else (w, .ok ())

/-- `ApplyUpdate`. -/
def Updater.ApplyUpdate (env : Env) (u : Updater) (w : World) :
    World × Except ApplyError Unit :=
  match u.validateForApply w.fs with
  | .error err => (w, .error err)
  | .ok _ =>
    let extractPath := filepath.Join u.config.DownloadPath (str "extracted")
    let fs := removeAllIgnoringError w.fs extractPath
    let zipPath := u.GetZipPath
    match UnzipFile env fs zipPath extractPath with
    | (fs, .error err) => ({ w with fs := fs }, .error (.unzip err))
    | (fs, .ok _) =>
      match findAppBundle fs extractPath with
      | .error err => ({ w with fs := fs }, .error err)
      | .ok newAppPath =>
        let pid := env.pid
        let currentAppPath := u.config.AppPath
        let backupPath :=
          filepath.Join u.config.DownloadPath (str "backup-" ++ fmt.formatInt env.now ++ str ".app")
        let script := generateUpdateScript pid newAppPath currentAppPath backupPath zipPath
        let scriptPath := filepath.Join u.config.DownloadPath (str "update-script.sh")
        match os.WriteFile fs scriptPath script with
        | .error err => ({ w with fs := fs }, .error (.writeScript err))
        | .ok fs =>
          match executeDetached env { w with fs := fs } scriptPath with
          | (w, .error err) => (w, .error (.exec err))
          | (w, .ok _) => (w, .ok ())

/-! ## Sample surroundings -/

/-- Surroundings in which every request is answered with `reply`, every body
parses to `manifest`, every file is the archive `files`, and processes start. -/
def sampleEnv (reply : HttpResult) (manifest : Option Manifest)
    (files : Option (List ZipEntry)) : Env where
  goarch := str "arm64"
  httpGet := fun _ => reply
  jsonUnmarshal := fun _ => manifest
  sha256 := fun b => [b.length % 256]
  zipReader := fun _ => files
  pid := 4242
  now := 1700000000
  startOk := true
  releaseOk := true
  userHomeDir := some (str "/Users/ana")
  removeRefused := fun _ => false

/-- The archive without entries: an end-of-central-directory record alone. -/
def emptyArchive : Bytes := [80, 75, 5, 6, 0, 0, 0, 0, 0, 0, 0, 0, 0, 0, 0, 0, 0, 0, 0, 0, 0, 0]

/-- An archive with the single stored file `readme.txt` of content `hi`: its
local header and data, its central directory record and the end record. -/
def readmeArchive : Bytes :=
  [80, 75, 3, 4, 20, 0, 0, 0, 0, 0, 0, 0, 33, 88, 172, 42, 147, 216, 2, 0, 0, 0, 2, 0, 0, 0, 10,
   0, 0, 0, 114, 101, 97, 100, 109, 101, 46, 116, 120, 116, 104, 105] ++
  [80, 75, 1, 2, 20, 3, 20, 0, 0, 0, 0, 0, 0, 0, 33, 88, 172, 42, 147, 216, 2, 0, 0, 0, 2, 0, 0,
   0, 10, 0, 0, 0, 0, 0, 0, 0, 0, 0, 0, 0, 164, 1, 0, 0, 0, 0, 114, 101, 97, 100, 109, 101, 46,
   116, 120, 116] ++
  [80, 75, 5, 6, 0, 0, 0, 0, 1, 0, 1, 0, 56, 0, 0, 0, 42, 0, 0, 0, 0, 0]

/-- Surroundings as in `sampleEnv` whose `zip.OpenReader` knows the two sample
archives and rejects every other file. -/
def archiveEnv : Env :=
  { sampleEnv .failed none none with
    zipReader := fun content =>
      if content = emptyArchive then some []
      else if content = readmeArchive then some [⟨str "readme.txt", false, str "hi", true⟩]
      else none }

/-- Surroundings in which the archive is served as the three bytes 1, 2, 3 and
the system refuses to remove `/dl/app.zip`. -/
def refusingEnv : Env :=
  { sampleEnv (.response 200 [1, 2, 3] true) none none with
    removeRefused := fun p => decide (p = str "/dl/app.zip") }

/-- A configuration with the given installed version and application path. -/
def sampleConfig (currentVersion appPath : Bytes) : Config where
  CurrentVersion := currentVersion
  SourceURL := str "https://updates.example.com/app/"
  ZipFileName := str "app.zip"
  DownloadPath := str "/dl"
  StartAutomatically := false
  AfterUpdateCommand := []
  BeforeUpdateCommand := []
  AppPath := appPath

/-- A file system with a staging directory `/dl` holding the empty archive as
`app.zip`, and a regular file `/f`. -/
def sampleFS : os.FS where
  cwd := []
  nodes := [([str "dl"], .dir), ([str "dl", str "app.zip"], .file emptyArchive),
    ([str "f"], .file [])]

/-- A session whose manifest announces version 1.1.0 with the digest `03`. -/
def sampleSession : Updater :=
  ⟨sampleConfig (str "1.0.0") (str "/Applications/My.app"), some ⟨str "1.1.0", str "03"⟩⟩

/-- The sample file system after three bytes have been written to `/dl/app.zip`. -/
def sampleDownloaded : os.FS :=
  os.writeTo (sampleFS.set [str "dl", str "app.zip"] (.file [])) [str "dl", str "app.zip"]
    [1, 2, 3]

/-- The six stretches of `updateScriptTemplate` around the five quoted
placeholders: the text up to `PID=`, the four line breaks with the next
variable name, and everything after the last assignment. -/
def fixedText : Nat → Bytes
  | 0 => (updateScriptLines.take 4).flatMap (fun l => str l ++ [10]) ++ str "PID="
  | 1 => str "\nNEW_APP_PATH="
  | 2 => str "\nCURRENT_APP_PATH="
  | 3 => str "\nOLD_APP_BACKUP="
  | 4 => str "\nZIP_PATH="
  | _ => 10 :: (updateScriptLines.drop 9).flatMap (fun l => str l ++ [10])

/-- The template text with `v1` ... `v5` between the double quotes of the five
assignments, in the places of the five placeholders. -/
def fillTemplate (v1 v2 v3 v4 v5 : Bytes) : Bytes :=
  fixedText 0 ++ 34 :: (v1 ++ 34 :: (fixedText 1 ++ 34 :: (v2 ++ 34 :: (fixedText 2 ++ 34 ::
    (v3 ++ 34 :: (fixedText 3 ++ 34 :: (v4 ++ 34 :: (fixedText 4 ++ 34 ::
    (v5 ++ 34 :: fixedText 5)))))))))

/-- The five placeholders, in the order `generateUpdateScript` replaces them. -/
def placeholders : List Bytes :=
  [str "\x7b\x7bPID\x7d\x7d", str "\x7b\x7bNEW_APP_PATH\x7d\x7d",
    str "\x7b\x7bCURRENT_APP_PATH\x7d\x7d", str "\x7b\x7bOLD_APP_BACKUP\x7d\x7d",
    str "\x7b\x7bZIP_PATH\x7d\x7d"]

/-! ## Cleaned paths -/

namespace filepath

/-- An element that names something: not empty, not `.` or `..`, no separator in it. -/
def NormalElem (c : Bytes) : Prop := c ≠ [] ∧ c ≠ [46] ∧ c ≠ [46, 46] ∧ 47 ∉ c

/-- The elements of a cleaned path: some `..` (none when rooted), then names. -/
def Shape (rooted : Bool) (l : List Bytes) : Prop :=
  ∃ n M, l = List.replicate n [46, 46] ++ M ∧ (∀ x ∈ M, NormalElem x) ∧ (rooted = true → n = 0)

/-- The text of a cleaned path with the elements `N`. -/
def render (rooted : Bool) (N : List Bytes) : Bytes :=
  if rooted then 47 :: joinSlash N
  else if N = [] then [46]
  else joinSlash N

end filepath

namespace os

/-- The state `fs2` differs from `fs` at most at the locations in `P`. -/
def OnlyAt (P : Key → Prop) (fs fs2 : FS) : Prop :=
  fs2.cwd = fs.cwd ∧ ∀ k, ¬ P k → fs2.lookup k = fs.lookup k

/-- The locations on the way to something at or below `kE`. -/
def Toward (kE : Key) (k : Key) : Prop := ∃ F, kE <+: F ∧ k <+: F

end os

/-- A file system with the staging directory `/dl` holding `readmeArchive` as
`app.zip`, and the installed bundle `/Applications/My.app` with one file in it. -/
def sampleInstalled : os.FS where
  cwd := []
  nodes := [([str "dl"], .dir), ([str "dl", str "app.zip"], .file readmeArchive),
    ([str "Applications"], .dir), ([str "Applications", str "My.app"], .dir),
    ([str "Applications", str "My.app", str "run"], .file [1])]

/-- A file system in which the installed bundle lies inside the extraction
directory: `/dl/extracted/Old.app`, with one file in it. -/
def sampleInside : os.FS where
  cwd := []
  nodes := [([str "dl"], .dir), ([str "dl", str "app.zip"], .file readmeArchive),
    ([str "dl", str "extracted"], .dir), ([str "dl", str "extracted", str "Old.app"], .dir),
    ([str "dl", str "extracted", str "Old.app", str "run"], .file [1])]

/-! ## rename(2) and the commands of the swap procedure -/

namespace os

/-- An entry at or below `ks` goes the same way below `kd`. -/
def rekey (ks kd : Key) (e : Key × Node) : Key × Node :=
  if ks <+: e.1 then (kd ++ e.1.drop ks.length, e.2) else e

/-- The state after the tree at `ks` has been moved to `kd`: what was at or
below `kd` is gone, and every location at or below `ks` is now the same way
below `kd`. -/
def FS.move (fs : FS) (ks kd : Key) : FS :=
  { fs with nodes := (fs.nodes.filter (fun e => !decide (kd <+: e.1))).map (rekey ks kd) }

/-- A name whose last component is `.` or `..`. -/
def lastDot (p : Bytes) : Bool :=
  match (components p).getLast? with
  | some c => c = [46] || c = [46, 46]
  | none => false

/-- `rename(2)`: atomic; a directory may only replace an empty directory, a
file only a file, nothing can be moved below itself, and `.` and `..` cannot
be renamed. -/
def Rename (fs : FS) (src dst : Bytes) : Except Errno FS :=
  match namei fs src with
  | .error e => .error e
  | .ok ks =>
    match fs.lookup ks with
    | none => .error .ENOENT
    | some node =>
      match namei fs dst with
      | .error e => .error e
      | .ok kd =>
        if lastDot src || lastDot dst then .error .EINVAL
        else if ks = [] then .error .EINVAL
        else if ks = kd then .ok fs
        else if ks <+: kd then .error .EINVAL
        else
          match fs.lookup kd, node with
          | some .dir, .file _ => .error .EISDIR
          | some (.file _), .dir => .error .ENOTDIR
          | some .dir, .dir =>
            if fs.hasChildren kd then .error .ENOTEMPTY else .ok (fs.move ks kd)
          | _, _ => .ok (fs.move ks kd)

end os

namespace filepath

/-- The last element of a path, as `basename(3)` gives it: trailing
separators do not count; `.` for the empty path, `/` for separators only. -/
def Base (p : Bytes) : Bytes :=
  match ((elems p).filter (fun c => decide (c ≠ []))).getLast? with
  | some b => b
  | none => if p = [] then [46] else [47]

end filepath

/-! ## script.go: the swap procedure

The shell script of `updateScriptTemplate`, as the sequence of its commands
over a file-system state. The four paths stand for the values of the script's
variables: the rendered values are taken to be free of the characters that
are special between double quotes. The script runs under `set -e` with
`trap rollback ERR`, without `set -E`: a simple command of the main body that
fails runs `rollback`; a command that fails inside the function `log` ends
the shell at once with that status, and so does a command that fails inside
`rollback`. A command that fails leaves the files as they were. -/

namespace script

/-- The commands that can fail for a reason outside the modelled state. -/
inductive Site where
  /-- the `n`-th `log` line of the main body, counted from the top -/
  | log (n : Nat)
  /-- `sleep 0.5` in the `i`-th round of the wait loop -/
  | sleepPoll (i : Nat)
  /-- `sleep 1` after the wait loop -/
  | sleepSettle
  /-- `mv "$CURRENT_APP_PATH" "$OLD_APP_BACKUP"` -/
  | mvBackup
  /-- `mv "$NEW_APP_PATH" "$CURRENT_APP_PATH"` -/
  | mvInstall
  /-- `rm -rf "$OLD_APP_BACKUP"` -/
  | rmBackup
  /-- `rm -f "$ZIP_PATH"` -/
  | rmZip
  /-- `sleep 1` before the relaunch -/
  | sleepRelaunch
  /-- `open -n "$CURRENT_APP_PATH"` -/
  | openApp
  /-- the first `log` line of `rollback` -/
  | rollbackLog
  /-- the `mv` of `rollback` -/
  | rollbackMv
deriving DecidableEq, Repr

/-- The values of the four path variables of the script. -/
structure Paths where
  newAppPath : Bytes
  currentAppPath : Bytes
  oldAppBackup : Bytes
  zipPath : Bytes
deriving DecidableEq, Repr

/-- What the surroundings decide: which commands fail, and for how many rounds
`kill -0 "$PID"` still finds the process. -/
structure Run where
  fails : Site → Bool
  polls : Nat

/-- `[ -d p ]`. -/
def isDir (fs : os.FS) (p : Bytes) : Bool :=
  match os.Stat fs p with
  | .ok .dir => true
  | _ => false

/-- `[ -f p ]`. -/
def isFile (fs : os.FS) (p : Bytes) : Bool :=
  match os.Stat fs p with
  | .ok (.file _) => true
  | _ => false

/-- `mv src dst`: into `dst` when that is a directory, onto `dst` otherwise. -/
def mv (fs : os.FS) (src dst : Bytes) : Except os.Errno os.FS :=
  if isDir fs dst then os.Rename fs src (filepath.Join dst (filepath.Base src))
  else os.Rename fs src dst

/-- `rm -f p` for a regular file. -/
def rmFile (fs : os.FS) (p : Bytes) : Except os.Errno os.FS :=
  match os.Stat fs p with
  | .ok .dir => .error .EISDIR
  | .ok (.file _) => os.Remove fs p false
  | .error _ => .ok fs

/-- How a command of the main body ends. -/
inductive Outcome where
  /-- status zero: the script goes on -/
  | next (fs : os.FS)
  /-- a simple command of the main body failed: the `ERR` trap runs -/
  | fail (fs : os.FS)
  /-- the shell ends without the trap: `exit`, or a failure inside `log` -/
  | exit (fs : os.FS) (status : Nat)
deriving DecidableEq, Repr

/-- A `log` line of the main body. -/
def logLine (r : Run) (n : Nat) (fs : os.FS) : Outcome :=
  if r.fails (.log n) then .exit fs 1 else .next fs

/-- A command of the main body that does not touch the files. -/
def plain (r : Run) (s : Site) (fs : os.FS) : Outcome :=
  if r.fails s then .fail fs else .next fs

/-- A command of the main body that changes the files. -/
def fileCmd (r : Run) (s : Site) (fs : os.FS) (result : Except os.Errno os.FS) : Outcome :=
  if r.fails s then .fail fs
  else
    match result with
    | .ok fs2 => .next fs2
    | .error _ => .fail fs

/-- `while kill -0 "$PID" 2>/dev/null; do sleep 0.5; done`, from round `i`
with `n` rounds to go. -/
def waitLoop (r : Run) (fs : os.FS) : Nat → Nat → Outcome
  | _, 0 => .next fs
  | i, n + 1 => if r.fails (.sleepPoll i) then .fail fs else waitLoop r fs (i + 1) n

/-- `if [ ! -d "$NEW_APP_PATH" ]; then log ...; exit 1; fi` -/
def checkNew (p : Paths) (fs : os.FS) : Outcome :=
  if !isDir fs p.newAppPath then .exit fs 1 else .next fs

/-- `if [ -d "$CURRENT_APP_PATH" ]; then log ...; mv ...; fi` -/
def backupStep (r : Run) (p : Paths) (fs : os.FS) : Outcome :=
  if isDir fs p.currentAppPath then
    match logLine r 11 fs with
    | .next fs => fileCmd r .mvBackup fs (mv fs p.currentAppPath p.oldAppBackup)
    | other => other
  else .next fs

/-- `mv "$NEW_APP_PATH" "$CURRENT_APP_PATH"` -/
def installStep (r : Run) (p : Paths) (fs : os.FS) : Outcome :=
  fileCmd r .mvInstall fs (mv fs p.newAppPath p.currentAppPath)

/-- `if [ -d "$OLD_APP_BACKUP" ]; then rm -rf ...; log ...; fi` -/
def cleanBackup (r : Run) (p : Paths) (fs : os.FS) : Outcome :=
  if isDir fs p.oldAppBackup then
    match fileCmd r .rmBackup fs (os.RemoveAll fs p.oldAppBackup) with
    | .next fs => logLine r 15 fs
    | other => other
  else .next fs

/-- `if [ -f "$ZIP_PATH" ]; then rm -f ...; log ...; fi` -/
def cleanZip (r : Run) (p : Paths) (fs : os.FS) : Outcome :=
  if isFile fs p.zipPath then
    match fileCmd r .rmZip fs (rmFile fs p.zipPath) with
    | .next fs => logLine r 16 fs
    | other => other
  else .next fs

/-- `open -n "$CURRENT_APP_PATH"`: fails when there is nothing to open. -/
def openStep (r : Run) (p : Paths) (fs : os.FS) : Outcome :=
  if r.fails .openApp then .fail fs
  else
    match os.Stat fs p.currentAppPath with
    | .ok _ => .next fs
    | .error _ => .fail fs

/-- The function `rollback`: the state it leaves and the status of the shell. -/
def rollback (r : Run) (p : Paths) (fs : os.FS) : os.FS × Nat :=
  if r.fails .rollbackLog then (fs, 1)
  else if isDir fs p.oldAppBackup then
    let fs :=
      if r.fails .rollbackMv then fs
      else
        match mv fs p.oldAppBackup p.currentAppPath with
        | .ok fs2 => fs2
        | .error _ => fs
    (fs, 1)
  else (fs, 1)

/-- The commands of the main body up to the swap. -/
def beforeSwap (r : Run) (p : Paths) : List (os.FS → Outcome) :=
  [logLine r 1, logLine r 2, logLine r 3, logLine r 4, logLine r 5,
    fun fs => waitLoop r fs 0 r.polls, logLine r 6, plain r .sleepSettle,
    logLine r 7, Outcome.next, logLine r 8, checkNew p, logLine r 10]

/-- The commands of the main body after the two renames. -/
def afterSwap (r : Run) (p : Paths) : List (os.FS → Outcome) :=
  [logLine r 13, logLine r 14, cleanBackup r p, cleanZip r p, logLine r 17,
    plain r .sleepRelaunch, openStep r p, logLine r 18]

/-- The main body of the script. -/
def mainBody (r : Run) (p : Paths) : List (os.FS → Outcome) :=
  beforeSwap r p ++ [backupStep r p, logLine r 12, installStep r p] ++ afterSwap r p

/-- Running commands in order under `set -e` and the `ERR` trap. -/
def runSteps (r : Run) (p : Paths) : List (os.FS → Outcome) → os.FS → os.FS × Nat
  | [], fs => (fs, 0)
  | step :: rest, fs =>
    match step fs with
    | .next fs => runSteps r p rest fs
    | .fail fs => rollback r p fs
    | .exit fs status => (fs, status)

/-- The swap procedure: the state it leaves and its exit status. -/
def swapProcedure (r : Run) (p : Paths) (fs : os.FS) : os.FS × Nat :=
  runSteps r p (mainBody r p) fs

/-- A file system with the installed bundle, the extracted new bundle and the
archive in the staging directory. -/
def sampleSwapFS : os.FS where
  cwd := []
  nodes := [([str "dl"], .dir), ([str "dl", str "app.zip"], .file [80, 75, 5, 6]),
    ([str "dl", str "extracted"], .dir), ([str "dl", str "extracted", str "My.app"], .dir),
    ([str "dl", str "extracted", str "My.app", str "run"], .file [2]),
    ([str "Applications"], .dir), ([str "Applications", str "My.app"], .dir),
    ([str "Applications", str "My.app", str "run"], .file [1])]

/-- The paths `ApplyUpdate` hands to the script in the sample. -/
def samplePaths : Paths where
  newAppPath := str "/dl/extracted/My.app"
  currentAppPath := str "/Applications/My.app"
  oldAppBackup := str "/dl/backup-1700000000.app"
  zipPath := str "/dl/app.zip"

/-- The surroundings in which the command `s` alone is made to fail. -/
def sampleRun (s : Site) (polls : Nat) : Run where
  fails := fun t => decide (t = s)
  polls := polls

/-- The surroundings in which no command is made to fail. -/
def quietRun (polls : Nat) : Run where
  fails := fun _ => false
  polls := polls

/-- The sample paths with a name for the installed bundle that leads through
the bundle itself. -/
def throughPaths : Paths :=
  { samplePaths with currentAppPath := str "/Applications/My.app/../My.app" }

end script
/-! ## Byte order -/

theorem strLt_irrefl (a : Bytes) : strLt a a = false := by
  induction a with
  | nil => rfl
  | cons x xs ih => simp [strLt, ih]

theorem strLt_asymm : ∀ (a b : Bytes), strLt a b = true → strLt b a = false
  | [], [] => by simp [strLt]
  | [], _ :: _ => by simp [strLt]
  | _ :: _, [] => by simp [strLt]
  | x :: xs, y :: ys => by
    intro h
    simp only [strLt] at h ⊢
    by_cases h1 : x < y
    · have h2 : ¬ y < x := by omega
      simp [h2, h1]
    · by_cases h2 : y < x
      · simp [h1, h2] at h
      · simp only [h1, h2, if_false] at h ⊢
        exact strLt_asymm xs ys h

theorem strLt_total : ∀ (a b : Bytes), a ≠ b → strLt a b = false → strLt b a = true
  | [], [] => by simp
  | [], _ :: _ => by simp [strLt]
  | _ :: _, [] => by simp [strLt]
  | x :: xs, y :: ys => by
    intro hne h
    simp only [strLt] at h ⊢
    by_cases h1 : x < y
    · simp [h1] at h
    · by_cases h2 : y < x
      · simp [h2]
      · simp only [h1, h2, if_false] at h ⊢
        have hxy : x = y := by omega
        subst hxy
        exact strLt_total xs ys (fun e => hne (by rw [e])) h

/-! ## Decimal strings -/

namespace SemVerSpec

/-- Accumulating form of `decimal`. -/
theorem foldl_decimal (s : Bytes) (acc : Nat) :
    s.foldl (fun acc c => acc * 10 + (c - 48)) acc
      = acc * 10 ^ s.length + decimal s := by
  induction s generalizing acc with
  | nil => simp [decimal]
  | cons c cs ih =>
    simp only [List.foldl_cons, decimal, List.length_cons]
    rw [ih, ih (0 * 10 + (c - 48))]
    ring

theorem decimal_cons (c : Nat) (cs : Bytes) :
    decimal (c :: cs) = (c - 48) * 10 ^ cs.length + decimal cs := by
  show List.foldl _ _ _ = _
  rw [List.foldl_cons, foldl_decimal]
  simp

theorem decimal_lt (s : Bytes) (h : s.all semver.isDigit = true) :
    decimal s < 10 ^ s.length := by
  induction s with
  | nil => simp [decimal]
  | cons c cs ih =>
    simp only [List.all_cons, Bool.and_eq_true] at h
    have hc : c - 48 ≤ 9 := by
      have := h.1
      simp [semver.isDigit] at this
      omega
    have := ih h.2
    rw [decimal_cons, List.length_cons, pow_succ]
    have h2 : (c - 48) * 10 ^ cs.length ≤ 9 * 10 ^ cs.length :=
      Nat.mul_le_mul_right _ hc
    omega

theorem digit_sub {c : Nat} (h : semver.isDigit c = true) : 48 ≤ c ∧ c ≤ 57 := by
  simpa [semver.isDigit] using h

/-- On digit strings of one length, byte order is numeric order. -/
theorem strLt_eq_decimal_lt : ∀ (x y : Bytes), x.length = y.length →
    x.all semver.isDigit = true → y.all semver.isDigit = true →
    (strLt x y = true ↔ decimal x < decimal y)
  | [], [], _, _, _ => by simp [strLt, decimal]
  | [], _ :: _, h, _, _ => by simp at h
  | _ :: _, [], h, _, _ => by simp at h
  | a :: as, b :: bs, hl, hx, hy => by
    simp only [List.all_cons, Bool.and_eq_true] at hx hy
    simp only [List.length_cons, Nat.add_right_cancel_iff] at hl
    have ha := digit_sub hx.1
    have hb := digit_sub hy.1
    have la := decimal_lt as hx.2
    have lb := decimal_lt bs hy.2
    have ih := strLt_eq_decimal_lt as bs hl hx.2 hy.2
    rw [decimal_cons, decimal_cons, hl]
    rw [hl] at la
    generalize 10 ^ bs.length = P at la lb ⊢
    simp only [strLt]
    by_cases h1 : a < b
    · simp only [h1, if_true, true_iff]
      have : (a - 48 + 1) * P ≤ (b - 48) * P := Nat.mul_le_mul_right _ (by omega)
      rw [Nat.add_mul, Nat.one_mul] at this
      omega
    · by_cases h2 : b < a
      · simp only [h1, h2, if_false, if_true, Bool.false_eq_true, false_iff]
        have : (b - 48 + 1) * P ≤ (a - 48) * P := Nat.mul_le_mul_right _ (by omega)
        rw [Nat.add_mul, Nat.one_mul] at this
        omega
      · have hab : a = b := by omega
        subst hab
        simp only [h1, if_false, ih]
        omega

/-- On digit strings of one length, the number determines the string. -/
theorem decimal_inj_of_length (x y : Bytes) (hl : x.length = y.length)
    (hx : x.all semver.isDigit = true) (hy : y.all semver.isDigit = true)
    (h : decimal x = decimal y) : x = y := by
  by_contra hne
  have h1 : ¬ decimal x < decimal y := by omega
  have h2 : ¬ decimal y < decimal x := by omega
  rw [← strLt_eq_decimal_lt x y hl hx hy] at h1
  rw [← strLt_eq_decimal_lt y x hl.symm hy hx] at h2
  have := strLt_total x y hne (by simpa using h1)
  exact h2 this

/-- A canonical number with more digits is larger. -/
theorem decimal_lt_of_length_lt (x y : Bytes) (hx : Canon x) (hy : Canon y)
    (hl : x.length < y.length) : decimal x < decimal y := by
  have lx := decimal_lt x hx.2.1
  obtain ⟨hy0, hyd, hyz⟩ := hy
  match y, hy0, hyd, hyz, hl with
  | b :: bs, _, hyd, hyz, hl =>
    simp only [List.all_cons, Bool.and_eq_true] at hyd
    have hb := digit_sub hyd.1
    have hb1 : 49 ≤ b := by
      by_contra hcon
      have hb48 : b = 48 := by omega
      have := hyz (by simp [hb48])
      simp only [List.length_cons] at this hl
      have hx1 : x.length ≠ 0 := by
        intro h0
        exact hx.1 (List.length_eq_zero.mp h0)
      omega
    rw [decimal_cons]
    simp only [List.length_cons] at hl
    have hpow : 10 ^ x.length ≤ 10 ^ bs.length :=
      Nat.pow_le_pow_right (by decide) (by omega)
    have : 1 * 10 ^ bs.length ≤ (b - 48) * 10 ^ bs.length :=
      Nat.mul_le_mul_right _ (by omega)
    omega

/-- `compareInt` compares the numbers its arguments denote. -/
theorem compareInt_eq_cmpNat (x y : Bytes) (hx : Canon x) (hy : Canon y) :
    semver.compareInt x y = cmpNat (decimal x) (decimal y) := by
  unfold semver.compareInt cmpNat
  by_cases hxy : x = y
  · simp [hxy]
  · simp only [hxy, if_false]
    by_cases h1 : x.length < y.length
    · have := decimal_lt_of_length_lt x y hx hy h1
      have hne : decimal x ≠ decimal y := by omega
      simp [h1, hne, this]
    · by_cases h2 : x.length > y.length
      · have := decimal_lt_of_length_lt y x hy hx h2
        have hne : decimal x ≠ decimal y := by omega
        have hnl : ¬ decimal x < decimal y := by omega
        simp [h1, h2, hne, hnl]
      · have hl : x.length = y.length := by omega
        have hne : decimal x ≠ decimal y :=
          fun h => hxy (decimal_inj_of_length x y hl hx.2.1 hy.2.1 h)
        simp only [h1, h2, if_false, hne]
        by_cases h3 : strLt x y = true
        · have := (strLt_eq_decimal_lt x y hl hx.2.1 hy.2.1).mp h3
          simp [h3, this]
        · have hn : ¬ decimal x < decimal y := fun h =>
            h3 ((strLt_eq_decimal_lt x y hl hx.2.1 hy.2.1).mpr h)
          simp [h3, hn]

/-! ## Pre-release identifiers -/

theorem length_takeWhile_eq_iff (p : Nat → Bool) (v : Bytes) :
    (v.takeWhile p).length = v.length ↔ v.all p = true := by
  induction v with
  | nil => simp
  | cons c cs ih =>
    by_cases hc : p c = true
    · simp [List.takeWhile_cons, hc, ih]
    · simp only [List.takeWhile_cons, hc, List.length_nil, List.length_cons, List.all_cons]
      simp

theorem isNum_eq_all (v : Bytes) : semver.isNum v = v.all semver.isDigit := by
  unfold semver.isNum
  rw [Bool.eq_iff_iff, beq_iff_eq, length_takeWhile_eq_iff]

theorem canon_of_wfId (i : Bytes) (h : WFId i) (hd : i.all semver.isDigit = true) :
    Canon i := by
  refine ⟨h.1, hd, fun h0 => ?_⟩
  have hb := h.2
  unfold semver.isBadNum at hb
  have hl := (length_takeWhile_eq_iff semver.isDigit i).mpr hd
  simp only [hl, beq_self_eq_true, Bool.true_and, h0, Bool.and_true, decide_eq_false_iff_not] at hb
  have : i.length ≠ 0 := fun e => h.1 (List.length_eq_zero.mp e)
  omega

theorem PreId.lt_irrefl (a : PreId) : a.lt a = false := by
  cases a with
  | numeric n => simp [PreId.lt]
  | alnum s => simp [PreId.lt, strLt_irrefl]

/-- The comparison `comparePrerelease` makes on two differing fields. -/
theorem field_compare (dx dy : Bytes) (hx : WFId dx) (hy : WFId dy) (hne : dx ≠ dy) :
    toPreId dx ≠ toPreId dy
    ∧ (toPreId dx).lt (toPreId dy) = !(toPreId dy).lt (toPreId dx)
    ∧ (if (semver.isNum dx != semver.isNum dy) = true then
          (if semver.isNum dx = true then (-1 : Int) else 1)
        else if (semver.isNum dx && decide (dx.length < dy.length)) = true then -1
        else if (semver.isNum dx && decide (dx.length > dy.length)) = true then 1
        else if strLt dx dy = true then -1 else 1)
      = (if (toPreId dx).lt (toPreId dy) = true then -1 else 1) := by
  rw [isNum_eq_all, isNum_eq_all]
  unfold toPreId
  by_cases h1 : dx.all semver.isDigit = true
  · by_cases h2 : dy.all semver.isDigit = true
    · have cx := canon_of_wfId dx hx h1
      have cy := canon_of_wfId dy hy h2
      have key := compareInt_eq_cmpNat dx dy cx cy
      unfold semver.compareInt cmpNat at key
      simp only [hne, if_false] at key
      simp only [h1, h2, if_true, PreId.lt, bne_self_eq_false, Bool.false_eq_true, if_false,
        Bool.true_and, decide_eq_true_eq]
      by_cases e : decimal dx = decimal dy
      · exfalso
        simp only [e, if_true] at key
        split at key
        · omega
        · split at key
          · omega
          · split at key <;> omega
      · simp only [e, if_false] at key
        refine ⟨fun h => e (PreId.numeric.inj h), ?_, ?_⟩
        · by_cases l : decimal dx < decimal dy
          · have : ¬ decimal dy < decimal dx := by omega
            simp [l, this]
          · have : decimal dy < decimal dx := by omega
            simp [l, this]
        · simpa using key
    · simp only [Bool.not_eq_true] at h2
      simp [h1, h2, PreId.lt]
  · simp only [Bool.not_eq_true] at h1
    by_cases h2 : dy.all semver.isDigit = true
    · simp [h1, h2, PreId.lt]
    · simp only [Bool.not_eq_true] at h2
      simp only [h1, h2, PreId.lt, bne_self_eq_false, Bool.false_eq_true, if_false,
        Bool.false_and]
      refine ⟨fun h => hne (PreId.alnum.inj h), ?_, trivial⟩
      by_cases l : strLt dx dy = true
      · simp [l, strLt_asymm dx dy l]
      · simp only [Bool.not_eq_true] at l
        simp [l, strLt_total dx dy hne l]

/-! ## The comparison loop -/

theorem splitOnDot_ne_nil (b : Bytes) : splitOnDot b ≠ [] := by
  cases b with
  | nil => simp [splitOnDot]
  | cons c cs =>
    unfold splitOnDot
    split
    · simp
    · split <;> simp

/-- `nextIdent` takes the first field; what it leaves is empty or a dot and the
remaining fields. -/
theorem splitOnDot_nextIdent (b : Bytes) :
    splitOnDot b = (semver.nextIdent b).1 ::
      (match (semver.nextIdent b).2 with
       | [] => []
       | _ :: b' => splitOnDot b') := by
  induction b with
  | nil => simp [splitOnDot, semver.nextIdent]
  | cons c cs ih =>
    unfold semver.nextIdent at ih ⊢
    by_cases hc : c = 46
    · subst hc
      simp [splitOnDot, List.takeWhile_cons, List.dropWhile_cons]
    · have hb : (c != 46) = true := by simpa using hc
      simp only [splitOnDot, hc, if_false, List.takeWhile_cons, hb, if_true,
        List.dropWhile_cons]
      rw [ih]

theorem nextIdent_length (b : Bytes) : (semver.nextIdent b).2.length ≤ b.length := by
  unfold semver.nextIdent
  exact (List.dropWhile_sublist _).length_le

theorem loop_nil_left (fuel : Nat) (y : Bytes) :
    semver.comparePrereleaseLoop fuel [] y = -1 := by
  cases fuel <;> simp [semver.comparePrereleaseLoop]

theorem loop_nil_right (fuel : Nat) (c : Nat) (x : Bytes) :
    semver.comparePrereleaseLoop fuel (c :: x) [] = 1 := by
  cases fuel <;> simp [semver.comparePrereleaseLoop]

/-- With fuel for every byte of `x`, the loop of `comparePrerelease` decides the
precedence of the two identifier lists. -/
theorem loop_eq_preLt : ∀ (fuel : Nat) (bx bz : Bytes) (sx sz : Nat),
    bx.length + 1 ≤ fuel → WFPre bx → WFPre bz → splitOnDot bx ≠ splitOnDot bz →
    semver.comparePrereleaseLoop fuel (sx :: bx) (sz :: bz)
        = (if preLt ((splitOnDot bx).map toPreId) ((splitOnDot bz).map toPreId) = true
            then -1 else 1)
      ∧ preLt ((splitOnDot bx).map toPreId) ((splitOnDot bz).map toPreId)
        = !preLt ((splitOnDot bz).map toPreId) ((splitOnDot bx).map toPreId)
  | 0, _, _, _, _, h, _, _, _ => by omega
  | fuel + 1, bx, bz, sx, sz, hf, wx, wz, hne => by
    have ex := splitOnDot_nextIdent bx
    have ez := splitOnDot_nextIdent bz
    have lx := nextIdent_length bx
    have hdx : WFId (semver.nextIdent bx).1 := wx _ (by rw [ex]; simp)
    have hdz : WFId (semver.nextIdent bz).1 := wz _ (by rw [ez]; simp)
    simp only [semver.comparePrereleaseLoop, List.tail_cons, ne_eq, not_false_eq_true,
      and_self, if_true, reduceCtorEq]
    by_cases hd : (semver.nextIdent bx).1 = (semver.nextIdent bz).1
    · simp only [hd, not_true_eq_false, if_false]
      rw [ex, ez] at hne ⊢
      simp only [List.map_cons, preLt, hd, PreId.lt_irrefl, decide_True, Bool.true_and,
        Bool.false_or]
      simp only [hd, List.cons.injEq, true_and] at hne
      -- the remaining fields
      rcases hrx : (semver.nextIdent bx).2 with _ | ⟨d, bx'⟩
      · rcases hrz : (semver.nextIdent bz).2 with _ | ⟨e, bz'⟩
        · simp [hrx, hrz] at hne
        · obtain ⟨h, t, ht⟩ := List.exists_cons_of_ne_nil (splitOnDot_ne_nil bz')
          simp [loop_nil_left, ht, preLt]
      · rcases hrz : (semver.nextIdent bz).2 with _ | ⟨e, bz'⟩
        · obtain ⟨h, t, ht⟩ := List.exists_cons_of_ne_nil (splitOnDot_ne_nil bx')
          simp [loop_nil_right, ht, preLt]
        · simp only [hrx, hrz, ne_eq, List.cons.injEq, true_and] at hne
          have wx' : WFPre bx' := fun i hi => wx i (by rw [ex, hrx]; simp [hi])
          have wz' : WFPre bz' := fun i hi => wz i (by rw [ez, hrz]; simp [hi])
          rw [hrx] at lx
          simp only [List.length_cons] at lx
          exact loop_eq_preLt fuel bx' bz' d e (by omega) wx' wz' hne
    · obtain ⟨f1, f2, f3⟩ := field_compare _ _ hdx hdz hd
      simp only [hd, not_false_eq_true, if_true]
      rw [ex, ez]
      simp only [List.map_cons, preLt, f1, decide_False, Bool.false_and, Bool.or_false,
        Ne.symm f1]
      refine ⟨?_, f2⟩
      rw [← f3]

/-! ## What `semver.parse` accepts -/

theorem parseInt_canon (v t rest : Bytes) (h : semver.parseInt v = some (t, rest)) :
    Canon t := by
  cases v with
  | nil => simp [semver.parseInt] at h
  | cons c cs =>
    simp only [semver.parseInt] at h
    split at h
    · simp at h
    · rename_i hc
      split at h
      · simp at h
      · rename_i hz
        simp only [Option.some.injEq, Prod.mk.injEq] at h
        obtain ⟨rfl, _⟩ := h
        simp only [Bool.or_eq_true, decide_eq_true_eq, not_or, not_lt] at hc
        refine ⟨by simp, ?_, ?_⟩
        · simp only [List.all_cons, Bool.and_eq_true]
          refine ⟨by simp [semver.isDigit]; omega, ?_⟩
          rw [List.all_eq_true]
          intro x hx
          exact (List.mem_takeWhile_imp hx)
        · intro h0
          simp only [List.head?_cons, Option.some.injEq] at h0
          simpa [h0] using hz

theorem splitOnDot_of_no_dot (cur : Bytes) (h : 46 ∉ cur) : splitOnDot cur = [cur] := by
  induction cur with
  | nil => rfl
  | cons c cs ih =>
    simp only [List.mem_cons, not_or] at h
    have hc : c ≠ 46 := fun e => h.1 e.symm
    simp [splitOnDot, hc, ih h.2]

theorem splitOnDot_append_dot (cur t : Bytes) (h : 46 ∉ cur) :
    splitOnDot (cur ++ 46 :: t) = cur :: splitOnDot t := by
  induction cur with
  | nil => simp [splitOnDot]
  | cons c cs ih =>
    simp only [List.mem_cons, not_or] at h
    have hc : c ≠ 46 := fun e => h.1 e.symm
    simp [splitOnDot, hc, ih h.2]

theorem prereleaseLoop_wf : ∀ (cs cur t rest : Bytes), 46 ∉ cur →
    semver.prereleaseLoop cur cs = some (t, rest) → WFPre (cur ++ t)
  | [], cur, t, rest, hcur, h => by
    simp only [semver.prereleaseLoop] at h
    split at h
    · simp at h
    · rename_i hc
      simp only [Option.some.injEq, Prod.mk.injEq] at h
      obtain ⟨rfl, _⟩ := h
      simp only [Bool.or_eq_true, decide_eq_true_eq, not_or, Bool.not_eq_true] at hc
      intro i hi
      rw [List.append_nil, splitOnDot_of_no_dot cur hcur] at hi
      simp only [List.mem_singleton] at hi
      subst hi
      exact hc
  | c :: cs, cur, t, rest, hcur, h => by
    simp only [semver.prereleaseLoop] at h
    split at h
    · split at h
      · simp at h
      · rename_i hc
        simp only [Option.some.injEq, Prod.mk.injEq] at h
        obtain ⟨rfl, _⟩ := h
        simp only [Bool.or_eq_true, decide_eq_true_eq, not_or, Bool.not_eq_true] at hc
        intro i hi
        rw [List.append_nil, splitOnDot_of_no_dot cur hcur] at hi
        simp only [List.mem_singleton] at hi
        subst hi
        exact hc
    · split at h
      · simp at h
      · split at h
        · rename_i hdot
          have hdot' : c = 46 := by simpa using hdot
          subst hdot'
          split at h
          · simp at h
          · rename_i hc
            simp only [Bool.or_eq_true, decide_eq_true_eq, not_or, Bool.not_eq_true] at hc
            rcases hr : semver.prereleaseLoop [] cs with _ | ⟨t', rest'⟩
            · simp [hr] at h
            · simp only [hr, Option.map_some', Option.some.injEq, Prod.mk.injEq] at h
              obtain ⟨rfl, _⟩ := h
              have ih := prereleaseLoop_wf cs [] t' rest' (by simp) hr
              intro i hi
              rw [splitOnDot_append_dot cur t' hcur] at hi
              simp only [List.mem_cons] at hi
              rcases hi with rfl | hi
              · exact hc
              · exact ih i (by simpa using hi)
        · rename_i hdot
          have hdot' : c ≠ 46 := by simpa using hdot
          rcases hr : semver.prereleaseLoop (cur ++ [c]) cs with _ | ⟨t', rest'⟩
          · simp [hr] at h
          · simp only [hr, Option.map_some', Option.some.injEq, Prod.mk.injEq] at h
            obtain ⟨rfl, _⟩ := h
            have ih := prereleaseLoop_wf cs (cur ++ [c]) t' rest'
              (by simp [hcur]; exact fun e => hdot' e.symm) hr
            simpa using ih

theorem parsePrerelease_wf (v t rest : Bytes)
    (h : semver.parsePrerelease v = some (t, rest)) :
    ∃ b, t = 45 :: b ∧ WFPre b := by
  cases v with
  | nil => simp [semver.parsePrerelease] at h
  | cons c cs =>
    simp only [semver.parsePrerelease] at h
    split at h
    · simp at h
    · rename_i hc
      have hc' : c = 45 := by simpa using hc
      rcases hr : semver.prereleaseLoop [] cs with _ | ⟨t', rest'⟩
      · simp [hr] at h
      · simp only [hr, Option.map_some', Option.some.injEq, Prod.mk.injEq] at h
        obtain ⟨rfl, _⟩ := h
        exact ⟨t', by rw [hc'], by simpa using prereleaseLoop_wf cs [] t' rest' (by simp) hr⟩

theorem canon_zero : Canon [48] := by
  refine ⟨by simp, by decide, fun _ => rfl⟩

theorem parseTail_wf (major minor patch v : Bytes) (p : semver.Parsed)
    (h1 : Canon major) (h2 : Canon minor) (h3 : Canon patch)
    (h : semver.parseTail major minor patch v = some p) : WFParsed p := by
  unfold semver.parseTail at h
  simp only at h
  split at h
  · simp at h
  · rename_i prerelease v' hpre
    split at h
    · simp at h
    · rename_i build v'' hbld
      split at h
      · simp at h
      · simp only [Option.some.injEq] at h
        subst h
        refine ⟨h1, h2, h3, ?_⟩
        split at hpre
        · obtain ⟨b, hb, wb⟩ := parsePrerelease_wf _ _ _ hpre
          exact Or.inr ⟨b, hb, wb⟩
        · simp only [Option.some.injEq, Prod.mk.injEq] at hpre
          exact Or.inl hpre.1.symm

theorem parse_wf (v : Bytes) (p : semver.Parsed) (h : semver.parse v = some p) :
    WFParsed p := by
  unfold semver.parse at h
  split at h
  · simp at h
  · split at h
    · simp at h
    · split at h
      · simp at h
      · rename_i major v1 hmaj
        have c1 := parseInt_canon _ _ _ hmaj
        split at h
        · simp only [Option.some.injEq] at h
          subst h
          exact ⟨c1, canon_zero, canon_zero, Or.inl rfl⟩
        · split at h
          · simp at h
          · split at h
            · simp at h
            · rename_i minor v2 hmin
              have c2 := parseInt_canon _ _ _ hmin
              split at h
              · simp only [Option.some.injEq] at h
                subst h
                exact ⟨c1, c2, canon_zero, Or.inl rfl⟩
              · split at h
                · simp at h
                · split at h
                  · simp at h
                  · rename_i patch v3 hpat
                    have c3 := parseInt_canon _ _ _ hpat
                    exact parseTail_wf _ _ _ _ _ c1 c2 c3 h

/-! ## `semver.Compare` against the specification's precedence -/

theorem joinDots_splitOnDot (b : Bytes) : joinDots (splitOnDot b) = b := by
  induction b with
  | nil => rfl
  | cons c cs ih =>
    obtain ⟨h, t, ht⟩ := List.exists_cons_of_ne_nil (splitOnDot_ne_nil cs)
    rw [ht] at ih
    by_cases hc : c = 46
    · subst hc
      simp [splitOnDot, ht, joinDots, ih]
    · simp only [splitOnDot, hc, if_false, ht]
      cases t with
      | nil =>
        simp only [joinDots] at ih ⊢
        rw [ih]
      | cons y r =>
        simp only [joinDots] at ih ⊢
        rw [← ih]
        simp

theorem splitOnDot_injective (a b : Bytes) (h : splitOnDot a = splitOnDot b) : a = b := by
  rw [← joinDots_splitOnDot a, ← joinDots_splitOnDot b, h]

theorem preLt_irrefl (a : List PreId) : preLt a a = false := by
  induction a with
  | nil => rfl
  | cons x xs ih => simp [preLt, PreId.lt_irrefl, ih]

theorem prePrecLt_irrefl (a : List PreId) : prePrecLt a a = false := by
  cases a with
  | nil => rfl
  | cons x xs => simp [prePrecLt, preLt_irrefl]

theorem comparePrerelease_gt (x z : Bytes)
    (hx : x = [] ∨ ∃ b, x = 45 :: b ∧ WFPre b)
    (hz : z = [] ∨ ∃ b, z = 45 :: b ∧ WFPre b) :
    decide (semver.comparePrerelease x z > 0) = prePrecLt (preIds z) (preIds x) := by
  unfold semver.comparePrerelease
  by_cases hxz : x = z
  · subst hxz
    simp [prePrecLt_irrefl]
  · simp only [hxz, if_false]
    rcases hx with rfl | ⟨bx, rfl, wx⟩
    · rcases hz with rfl | ⟨bz, rfl, wz⟩
      · exact absurd rfl hxz
      · obtain ⟨h, t, ht⟩ := List.exists_cons_of_ne_nil (splitOnDot_ne_nil bz)
        simp [preIds, ht, prePrecLt]
    · rcases hz with rfl | ⟨bz, rfl, wz⟩
      · simp [preIds, prePrecLt]
      · have hne : splitOnDot bx ≠ splitOnDot bz := fun e =>
          hxz (by rw [splitOnDot_injective bx bz e])
        obtain ⟨l1, l2⟩ := loop_eq_preLt (bx.length + 1) bx bz 45 45 (le_refl _) wx wz hne
        simp only [reduceCtorEq, if_false, List.length_cons, l1, preIds]
        obtain ⟨h, t, ht⟩ := List.exists_cons_of_ne_nil (splitOnDot_ne_nil bx)
        obtain ⟨h', t', ht'⟩ := List.exists_cons_of_ne_nil (splitOnDot_ne_nil bz)
        rw [ht, ht'] at l2 ⊢
        simp only [List.map_cons, prePrecLt] at l2 ⊢
        have key : ∀ p q : Bool, p = !q →
            decide ((if p = true then (-1 : Int) else 1) > 0) = q := by
          intro p q e
          subst e
          cases q <;> simp
        exact key _ _ l2

theorem cmpNat_ne_zero (a b : Nat) : cmpNat a b ≠ 0 ↔ a ≠ b := by
  unfold cmpNat
  by_cases h : a = b
  · simp [h]
  · by_cases l : a < b <;> simp [h, l]

theorem cmpNat_gt (a b : Nat) : cmpNat a b > 0 ↔ b < a := by
  unfold cmpNat
  by_cases h : a = b
  · simp [h]
  · by_cases l : a < b
    · simp [h, l]; omega
    · simp [h, l]; omega

/-- `semver.Compare w v > 0` says that `v` precedes `w`. -/
theorem compare_gt_iff (v w : Bytes) (pv pw : semver.Parsed)
    (hv : semver.parse v = some pv) (hw : semver.parse w = some pw) :
    decide (semver.Compare w v > 0) = precLt (toVersion pv) (toVersion pw) := by
  obtain ⟨v1, v2, v3, v4⟩ := parse_wf v pv hv
  obtain ⟨w1, w2, w3, w4⟩ := parse_wf w pw hw
  unfold semver.Compare
  rw [hv, hw]
  simp only [compareInt_eq_cmpNat _ _ w1 v1, compareInt_eq_cmpNat _ _ w2 v2,
    compareInt_eq_cmpNat _ _ w3 v3, cmpNat_ne_zero, precLt, toVersion]
  by_cases e1 : decimal pw.major = decimal pv.major
  · by_cases e2 : decimal pw.minor = decimal pv.minor
    · by_cases e3 : decimal pw.patch = decimal pv.patch
      · simp only [e1, e2, e3, ne_eq, not_true_eq_false, if_false]
        exact comparePrerelease_gt _ _ w4 v4
      · simp only [e1, e2, e3, Ne.symm e3, ne_eq, not_true_eq_false, not_false_eq_true, if_false,
          if_true, cmpNat_gt]
    · simp only [e1, e2, Ne.symm e2, ne_eq, not_true_eq_false, not_false_eq_true, if_false,
        if_true, cmpNat_gt]
  · simp only [e1, Ne.symm e1, ne_eq, not_false_eq_true, if_true, cmpNat_gt]

/-! ## The precedence is a strict order -/

theorem PreId.lt_asymm (a b : PreId) (h : a.lt b = true) : b.lt a = false := by
  cases a <;> cases b <;> simp only [PreId.lt] at h ⊢
  · simp only [decide_eq_true_eq, decide_eq_false_iff_not] at h ⊢
    omega
  · exact absurd h (by simp)
  · exact strLt_asymm _ _ h

theorem preLt_asymm : ∀ (a b : List PreId), preLt a b = true → preLt b a = false
  | [], [], _ => rfl
  | [], _ :: _, _ => rfl
  | _ :: _, [], h => by simp [preLt] at h
  | x :: xs, y :: ys, h => by
    simp only [preLt, Bool.or_eq_true, Bool.and_eq_true, decide_eq_true_eq] at h
    simp only [preLt, Bool.or_eq_false_iff, Bool.and_eq_false_imp, decide_eq_true_eq]
    rcases h with h | ⟨rfl, h⟩
    · refine ⟨PreId.lt_asymm _ _ h, fun e => ?_⟩
      subst e
      rw [PreId.lt_irrefl] at h
      exact absurd h (by simp)
    · exact ⟨PreId.lt_irrefl _, fun _ => preLt_asymm xs ys h⟩

theorem prePrecLt_asymm (a b : List PreId) (h : prePrecLt a b = true) :
    prePrecLt b a = false := by
  cases a with
  | nil => simp [prePrecLt] at h
  | cons x xs =>
    cases b with
    | nil => rfl
    | cons y ys =>
      simp only [prePrecLt] at h ⊢
      exact preLt_asymm _ _ h

theorem precLt_irrefl (v : Version) : precLt v v = false := by
  simp [precLt, prePrecLt_irrefl]

theorem precLt_asymm (v w : Version) (h : precLt v w = true) : precLt w v = false := by
  unfold precLt at h ⊢
  by_cases e1 : v.major = w.major
  · by_cases e2 : v.minor = w.minor
    · by_cases e3 : v.patch = w.patch
      · simp only [e1, e2, e3, ne_eq, not_true_eq_false, if_false] at h ⊢
        exact prePrecLt_asymm _ _ h
      · simp only [e1, e2, e3, Ne.symm e3, ne_eq, not_true_eq_false, not_false_eq_true,
          if_false, if_true, decide_eq_true_eq, decide_eq_false_iff_not] at h ⊢
        omega
    · simp only [e1, e2, Ne.symm e2, ne_eq, not_true_eq_false, not_false_eq_true,
        if_false, if_true, decide_eq_true_eq, decide_eq_false_iff_not] at h ⊢
      omega
  · simp only [e1, Ne.symm e1, ne_eq, not_false_eq_true,
      if_true, decide_eq_true_eq, decide_eq_false_iff_not] at h ⊢
    omega

end SemVerSpec

/-! ## checker.go: isNewerVersion -/

/-- The result of `isNewerVersion` in terms of what the two normalized strings parse to. -/
theorem isNewerVersion_eq (current candidate : Bytes) :
    isNewerVersion current candidate =
      (match semver.parse (addV current), semver.parse (addV candidate) with
       | none, _ => .error (.invalidCurrent current)
       | some _, none => .error (.invalidNew candidate)
       | some pc, some pn =>
         .ok (SemVerSpec.precLt (SemVerSpec.toVersion pc) (SemVerSpec.toVersion pn))) := by
  rcases hc : semver.parse (addV current) with _ | pc
  · simp [isNewerVersion, semver.IsValid, hc]
  · rcases hn : semver.parse (addV candidate) with _ | pn
    · simp [isNewerVersion, semver.IsValid, hc, hn]
    · have key := SemVerSpec.compare_gt_iff _ _ pc pn hc hn
      simp only [isNewerVersion, semver.IsValid, hc, hn, Option.isSome_some, Bool.not_true,
        Bool.false_eq_true, if_false, key]

/-- C1: `isNewerVersion` puts a `v` in front of each non-empty string that lacks
it, fails exactly when one of the two normalized strings is not a valid semantic
version, and otherwise answers whether the candidate is strictly above the
current version in semantic-version precedence (major, minor, patch, then
pre-release); a version is never above itself. The three examples of the
specification evaluate as it says. -/
theorem isNewerVersion_spec (current candidate : Bytes) :
    (addV [] = [] ∧ ∀ c cs, addV (c :: cs) = if c = 118 then c :: cs else 118 :: c :: cs)
    ∧ ((∃ e, isNewerVersion current candidate = .error e)
        ↔ (semver.IsValid (addV current) = false ∨ semver.IsValid (addV candidate) = false))
    ∧ isNewerVersion current candidate =
        (match semver.parse (addV current), semver.parse (addV candidate) with
         | none, _ => .error (.invalidCurrent current)
         | some _, none => .error (.invalidNew candidate)
         | some pc, some pn =>
           .ok (SemVerSpec.precLt (SemVerSpec.toVersion pc) (SemVerSpec.toVersion pn)))
    ∧ (∀ v, SemVerSpec.precLt v v = false)
    ∧ isNewerVersion (str "1.2.3") (str "1.3.0") = .ok true
    ∧ isNewerVersion (str "2.0.0") (str "1.9.9") = .ok false
    ∧ isNewerVersion (str "1.0.0-beta") (str "1.0.0") = .ok true := by
  refine ⟨⟨rfl, fun c cs => ?_⟩, ?_, isNewerVersion_eq current candidate,
    SemVerSpec.precLt_irrefl, by decide, by decide, by decide⟩
  · by_cases h : c = 118 <;> simp [addV, h]
  · rw [isNewerVersion_eq]
    unfold semver.IsValid
    rcases hc : semver.parse (addV current) with _ | pc
    · simp
    · rcases hn : semver.parse (addV candidate) with _ | pn
      · simp
      · simp

/-- C2: on strings that are valid semantic versions after normalization,
`isNewerVersion a b` and `isNewerVersion b a` are never both true, and for
`a = b` both are false. -/
theorem isNewerVersion_antisymm (a b : Bytes)
    (ha : semver.IsValid (addV a) = true) (hb : semver.IsValid (addV b) = true) :
    ¬ (isNewerVersion a b = .ok true ∧ isNewerVersion b a = .ok true)
    ∧ (a = b → isNewerVersion a b = .ok false ∧ isNewerVersion b a = .ok false) := by
  unfold semver.IsValid at ha hb
  obtain ⟨pa, hpa⟩ := Option.isSome_iff_exists.mp ha
  obtain ⟨pb, hpb⟩ := Option.isSome_iff_exists.mp hb
  constructor
  · rw [isNewerVersion_eq, isNewerVersion_eq, hpa, hpb]
    simp only [Except.ok.injEq, not_and]
    intro h
    rw [SemVerSpec.precLt_asymm _ _ h]
    simp
  · intro e
    subst e
    rw [isNewerVersion_eq, hpa]
    simp [SemVerSpec.precLt_irrefl]

theorem isNewerVersion_antisymm_witness :
    semver.IsValid (addV (str "1.2.3")) = true ∧ semver.IsValid (addV (str "v1.3.0-rc.1")) = true
    ∧ ¬ (isNewerVersion (str "1.2.3") (str "v1.3.0-rc.1") = .ok true
          ∧ isNewerVersion (str "v1.3.0-rc.1") (str "1.2.3") = .ok true)
    ∧ (str "1.2.3" = str "v1.3.0-rc.1" →
        isNewerVersion (str "1.2.3") (str "v1.3.0-rc.1") = .ok false
          ∧ isNewerVersion (str "v1.3.0-rc.1") (str "1.2.3") = .ok false) :=
  ⟨by decide, by decide,
    isNewerVersion_antisymm (str "1.2.3") (str "v1.3.0-rc.1") (by decide) (by decide)⟩

/-! ## checker.go: CheckForUpdate -/

/-- The result of `CheckForUpdate` on a manifest fetched and parsed. -/
theorem CheckForUpdate_fetched (env : Env) (u : Updater) (body : Bytes) (m : Manifest)
    (hget : env.httpGet (u.config.SourceURL ++ str "darwin-" ++ env.goarch ++ str ".json")
      = .response 200 body true)
    (hjson : env.jsonUnmarshal body = some m) :
    u.CheckForUpdate env =
      ({ u with manifest := some m },
        if (match isNewerVersion u.config.CurrentVersion m.Version with
            | .ok hasUpdate => hasUpdate
            | .error _ => decide (m.Version ≠ u.config.CurrentVersion)) = true
        then .ok (true, m.Version) else .ok (false, [])) := by
  simp only [Updater.CheckForUpdate, hget, hjson, ne_eq, not_true_eq_false, if_false,
    Bool.not_true, Bool.false_eq_true]
  split <;> rfl

/-- C3: when the manifest is fetched with status 200 and parses to `m`, and the
installed version and `m.Version` are valid semantic versions, `CheckForUpdate`
returns `(true, m.Version, nil)` if `m.Version` is strictly above the installed
version in precedence and `(false, "", nil)` otherwise. -/
theorem CheckForUpdate_semver (env : Env) (u : Updater) (body : Bytes) (m : Manifest)
    (pc pn : semver.Parsed)
    (hget : env.httpGet (u.config.SourceURL ++ str "darwin-" ++ env.goarch ++ str ".json")
      = .response 200 body true)
    (hjson : env.jsonUnmarshal body = some m)
    (hc : semver.parse (addV u.config.CurrentVersion) = some pc)
    (hn : semver.parse (addV m.Version) = some pn) :
    (u.CheckForUpdate env).2 =
      if SemVerSpec.precLt (SemVerSpec.toVersion pc) (SemVerSpec.toVersion pn) = true
      then .ok (true, m.Version) else .ok (false, []) := by
  rw [CheckForUpdate_fetched env u body m hget hjson, isNewerVersion_eq, hc, hn]

theorem CheckForUpdate_semver_witness :
    (Updater.CheckForUpdate
        (sampleEnv (.response 200 [] true) (some ⟨str "1.1.0", []⟩) none)
        ⟨sampleConfig (str "1.0.0") [], none⟩).2 = .ok (true, str "1.1.0")
    ∧ (Updater.CheckForUpdate
        (sampleEnv (.response 200 [] true) (some ⟨str "1.0.0", []⟩) none)
        ⟨sampleConfig (str "1.0.0") [], none⟩).2 = .ok (false, []) :=
  ⟨(CheckForUpdate_semver
      (sampleEnv (.response 200 [] true) (some ⟨str "1.1.0", []⟩) none)
      ⟨sampleConfig (str "1.0.0") [], none⟩ [] ⟨str "1.1.0", []⟩
      ⟨str "1", str "0", str "0", [], [], []⟩ ⟨str "1", str "1", str "0", [], [], []⟩
      rfl rfl (by decide) (by decide)).trans (by decide),
   (CheckForUpdate_semver
      (sampleEnv (.response 200 [] true) (some ⟨str "1.0.0", []⟩) none)
      ⟨sampleConfig (str "1.0.0") [], none⟩ [] ⟨str "1.0.0", []⟩
      ⟨str "1", str "0", str "0", [], [], []⟩ ⟨str "1", str "0", str "0", [], [], []⟩
      rfl rfl (by decide) (by decide)).trans (by decide)⟩

/-- C4: when the manifest is fetched and parsed but the installed version or
`m.Version` is not a valid semantic version, `CheckForUpdate` returns no error:
it reports `(true, m.Version)` exactly when the two strings differ and
`(false, "")` when they are equal. -/
theorem CheckForUpdate_fallback (env : Env) (u : Updater) (body : Bytes) (m : Manifest)
    (hget : env.httpGet (u.config.SourceURL ++ str "darwin-" ++ env.goarch ++ str ".json")
      = .response 200 body true)
    (hjson : env.jsonUnmarshal body = some m)
    (hinv : semver.IsValid (addV u.config.CurrentVersion) = false
      ∨ semver.IsValid (addV m.Version) = false) :
    (u.CheckForUpdate env).2 =
      if m.Version ≠ u.config.CurrentVersion then .ok (true, m.Version) else .ok (false, []) := by
  rw [CheckForUpdate_fetched env u body m hget hjson, isNewerVersion_eq]
  unfold semver.IsValid at hinv
  rcases hc : semver.parse (addV u.config.CurrentVersion) with _ | pc
  · simp
  · rcases hn : semver.parse (addV m.Version) with _ | pn
    · simp
    · simp [hc, hn] at hinv

theorem CheckForUpdate_fallback_witness :
    (semver.IsValid (addV (str "build-7")) = false
      ∨ semver.IsValid (addV (str "build-8")) = false)
    ∧ (Updater.CheckForUpdate
        (sampleEnv (.response 200 [] true) (some ⟨str "build-8", []⟩) none)
        ⟨sampleConfig (str "build-7") [], none⟩).2 = .ok (true, str "build-8") :=
  ⟨by decide,
   (CheckForUpdate_fallback
      (sampleEnv (.response 200 [] true) (some ⟨str "build-8", []⟩) none)
      ⟨sampleConfig (str "build-7") [], none⟩ [] ⟨str "build-8", []⟩
      rfl rfl (by decide)).trans (by decide)⟩

/-! ## downloader.go: DownloadUpdate without a manifest -/

/-- C6: with no manifest on the session `DownloadUpdate` runs `CheckForUpdate`
first; an error of the check comes back wrapped, a check that reports no newer
version gives the no-update error, and in both cases the file system is the
one the call started with. -/
theorem DownloadUpdate_no_manifest (env : Env) (u : Updater) (fs : os.FS)
    (h : u.manifest = none) :
    (∀ err, (u.CheckForUpdate env).2 = .error err →
        u.DownloadUpdate env fs = ((u.CheckForUpdate env).1, fs, .error (.check err)))
    ∧ (∀ v, (u.CheckForUpdate env).2 = .ok (false, v) →
        u.DownloadUpdate env fs = ((u.CheckForUpdate env).1, fs, .error .noUpdate)) := by
  constructor
  · intro err he
    rcases hc : u.CheckForUpdate env with ⟨u', r⟩
    rw [hc] at he
    simp only at he
    subst he
    simp [Updater.DownloadUpdate, h, hc]
  · intro v he
    rcases hc : u.CheckForUpdate env with ⟨u', r⟩
    rw [hc] at he
    simp only at he
    subst he
    simp [Updater.DownloadUpdate, h, hc]

theorem DownloadUpdate_no_manifest_witness :
    Updater.DownloadUpdate (sampleEnv .failed none none)
        ⟨sampleConfig (str "1.0.0") [], none⟩ sampleFS
      = (⟨sampleConfig (str "1.0.0") [], none⟩, sampleFS, .error (.check .transport))
    ∧ Updater.DownloadUpdate
        (sampleEnv (.response 200 [] true) (some ⟨str "1.0.0", []⟩) none)
        ⟨sampleConfig (str "1.0.0") [], none⟩ sampleFS
      = (⟨sampleConfig (str "1.0.0") [], some ⟨str "1.0.0", []⟩⟩, sampleFS, .error .noUpdate) :=
  ⟨(DownloadUpdate_no_manifest (sampleEnv .failed none none)
      ⟨sampleConfig (str "1.0.0") [], none⟩ sampleFS rfl).1 .transport (by decide),
   (DownloadUpdate_no_manifest
      (sampleEnv (.response 200 [] true) (some ⟨str "1.0.0", []⟩) none)
      ⟨sampleConfig (str "1.0.0") [], none⟩ sampleFS rfl).2 [] (by decide)⟩

/-! ## applier.go: the preconditions of ApplyUpdate -/

/-- When `os.Stat` reports a not-exist error for the staging directory, for
the archive at `GetZipPath()` or for the installed bundle, `ApplyUpdate`
returns the error of `validateForApply` and leaves the file system and the
list of started processes as they were. -/
theorem ApplyUpdate_not_exist (env : Env) (u : Updater) (w : World)
    (h : os.Stat w.fs u.config.DownloadPath = .error .ENOENT
      ∨ os.Stat w.fs u.GetZipPath = .error .ENOENT
      ∨ os.Stat w.fs u.config.AppPath = .error .ENOENT) :
    ∃ err, u.validateForApply w.fs = .error err ∧ u.ApplyUpdate env w = (w, .error err) := by
  have hv : ∃ err, u.validateForApply w.fs = .error err := by
    unfold Updater.validateForApply
    by_cases h1 : statIsNotExist w.fs u.config.DownloadPath = true
    · exact ⟨.downloadPathMissing u.config.DownloadPath, by simp [h1]⟩
    · by_cases h2 : u.GetZipPath = []
      · exact ⟨.noDownload, by simp [h1, h2]⟩
      · by_cases h3 : statIsNotExist w.fs u.GetZipPath = true
        · exact ⟨.zipMissing u.GetZipPath, by simp [h1, h2, h3]⟩
        · by_cases h4 : statIsNotExist w.fs u.config.AppPath = true
          · exact ⟨.appMissing u.config.AppPath, by simp [h1, h2, h3, h4]⟩
          · exfalso
            rcases h with h | h | h
            · exact h1 (by simp [statIsNotExist, h, os.IsNotExist])
            · exact h3 (by simp [statIsNotExist, h, os.IsNotExist])
            · exact h4 (by simp [statIsNotExist, h, os.IsNotExist])
  obtain ⟨err, he⟩ := hv
  exact ⟨err, he, by simp [Updater.ApplyUpdate, he]⟩

theorem ApplyUpdate_not_exist_witness :
    os.Stat sampleFS (str "/Applications/My.app") = .error .ENOENT
    ∧ ∃ err, Updater.validateForApply
          ⟨sampleConfig (str "1.0.0") (str "/Applications/My.app"), none⟩ sampleFS = .error err
        ∧ Updater.ApplyUpdate archiveEnv
            ⟨sampleConfig (str "1.0.0") (str "/Applications/My.app"), none⟩ ⟨sampleFS, []⟩
          = (⟨sampleFS, []⟩, .error err) :=
  ⟨by decide,
   ApplyUpdate_not_exist archiveEnv
     ⟨sampleConfig (str "1.0.0") (str "/Applications/My.app"), none⟩ ⟨sampleFS, []⟩
     (Or.inr (Or.inr (by decide)))⟩

/-- C7: the code at the failing input. The staging directory `/dl` holds a
valid archive without entries, and the installed bundle is configured at
`/f/My.app`, where `/f` is a regular file: nothing exists at the application
path, but `os.Stat` fails there with `ENOTDIR`, which `os.IsNotExist` does not
take. `validateForApply` returns nil, and `ApplyUpdate` creates the extraction
directory `/dl/extracted` before it returns an error that is not the missing
application. -/
theorem ApplyUpdate_missing :
    sampleFS.lookup [str "f", str "My.app"] = none
    ∧ os.Stat sampleFS (str "/f/My.app") = .error .ENOTDIR
    ∧ Updater.validateForApply ⟨sampleConfig (str "1.0.0") (str "/f/My.app"), none⟩ sampleFS
        = .ok ()
    ∧ Updater.ApplyUpdate archiveEnv ⟨sampleConfig (str "1.0.0") (str "/f/My.app"), none⟩
          ⟨sampleFS, []⟩
        = (⟨sampleFS.set [str "dl", str "extracted"] .dir, []⟩,
            .error (.bundleNotFound (str "/dl/extracted")))
    ∧ os.Stat sampleFS (str "/dl/extracted") = .error .ENOENT
    ∧ os.Stat (sampleFS.set [str "dl", str "extracted"] .dir) (str "/dl/extracted")
        = .ok .dir := by
  decide

/-! ## path/filepath: results are never empty -/

namespace filepath

theorem cleanStep_ne_nil (rooted : Bool) (out : List Bytes) (c : Bytes)
    (h : ∀ x ∈ out, x ≠ []) : ∀ x ∈ cleanStep rooted out c, x ≠ [] := by
  unfold cleanStep
  split
  · exact h
  · rename_i hc
    split
    · rename_i hdd
      split
      · split
        · intro x hx
          rcases List.mem_append.mp hx with hx | hx
          · exact h x hx
          · simp only [List.mem_singleton] at hx
            subst hx
            simp [hdd]
        · intro x hx
          exact h x (List.mem_of_mem_dropLast hx)
      · split
        · exact h
        · intro x hx
          rcases List.mem_append.mp hx with hx | hx
          · exact h x hx
          · simp only [List.mem_singleton] at hx
            subst hx
            simp [hdd]
    · intro x hx
      rcases List.mem_append.mp hx with hx | hx
      · exact h x hx
      · simp only [List.mem_singleton] at hx
        subst hx
        exact fun e => hc (Or.inl e)

theorem foldl_cleanStep_ne_nil (rooted : Bool) (cs : List Bytes) (out : List Bytes)
    (h : ∀ x ∈ out, x ≠ []) : ∀ x ∈ cs.foldl (cleanStep rooted) out, x ≠ [] := by
  induction cs generalizing out with
  | nil => exact h
  | cons c cs ih => exact ih _ (cleanStep_ne_nil rooted out c h)

theorem joinSlash_ne_nil (l : List Bytes) (h0 : l ≠ []) (h : ∀ x ∈ l, x ≠ []) :
    joinSlash l ≠ [] := by
  match l, h0, h with
  | [x], _, h => simpa [joinSlash] using h x (by simp)
  | x :: y :: r, _, h =>
    simp only [joinSlash]
    intro e
    have := congrArg List.length e
    simp at this

theorem Clean_ne_nil (p : Bytes) : Clean p ≠ [] := by
  unfold Clean
  split
  · simp
  · split
    · simp
    · split
      · simp
      · rename_i hne
        exact joinSlash_ne_nil _ hne
          (foldl_cleanStep_ne_nil _ _ [] (by simp))

theorem Join_ne_nil (a b : Bytes) (hb : b ≠ []) : Join a b ≠ [] := by
  unfold Join
  split
  · exact Clean_ne_nil _
  · simp only [hb, ne_eq, not_false_eq_true, if_true]
    exact Clean_ne_nil _

end filepath

/-! ## applier.go: findAppBundle -/

/-- Whether `findAppBundle` takes an entry: a directory whose name ends in `.app`. -/
theorem findAppLoop_none (searchPath : Bytes) (entries : List os.DirEntry)
    (h : ∀ e ∈ entries, ¬ (e.isDir = true ∧ str ".app" <:+ e.name)) :
    findAppLoop searchPath entries = [] := by
  induction entries with
  | nil => rfl
  | cons e es ih =>
    have he := h e (by simp)
    have : (e.isDir && (str ".app").isSuffixOf e.name) = false := by
      rw [Bool.eq_false_iff]
      intro hh
      simp only [Bool.and_eq_true, List.isSuffixOf_iff_suffix] at hh
      exact he hh
    simp only [findAppLoop, this, Bool.false_eq_true, if_false]
    exact ih (fun x hx => h x (by simp [hx]))

theorem findAppLoop_first (searchPath : Bytes) (pre post : List os.DirEntry) (e : os.DirEntry)
    (hpre : ∀ x ∈ pre, ¬ (x.isDir = true ∧ str ".app" <:+ x.name))
    (hd : e.isDir = true) (hs : str ".app" <:+ e.name) :
    findAppLoop searchPath (pre ++ e :: post) = filepath.Join searchPath e.name := by
  induction pre with
  | nil =>
    have : (e.isDir && (str ".app").isSuffixOf e.name) = true := by
      simp [List.isSuffixOf_iff_suffix, hd, hs]
    simp [findAppLoop, this]
  | cons x xs ih =>
    have hx := hpre x (by simp)
    have : (x.isDir && (str ".app").isSuffixOf x.name) = false := by
      rw [Bool.eq_false_iff]
      intro hh
      simp only [Bool.and_eq_true, List.isSuffixOf_iff_suffix] at hh
      exact hx hh
    simp only [List.cons_append, findAppLoop, this, Bool.false_eq_true, if_false]
    exact ih (fun y hy => hpre y (by simp [hy]))

/-- C8: on a directory whose listing is `entries`, `findAppBundle` fails exactly
when no entry is a directory with a name ending in `.app`, and that failure is
the bundle-not-found error; otherwise it returns the search path joined with
the name of the first such entry of the listing, whatever follows it. -/
theorem findAppBundle_spec (fs : os.FS) (searchPath : Bytes) (entries : List os.DirEntry)
    (h : os.ReadDir fs searchPath = .ok entries) :
    ((∃ err, findAppBundle fs searchPath = .error err)
        ↔ ∀ e ∈ entries, ¬ (e.isDir = true ∧ str ".app" <:+ e.name))
    ∧ ((∀ e ∈ entries, ¬ (e.isDir = true ∧ str ".app" <:+ e.name)) →
        findAppBundle fs searchPath = .error (.bundleNotFound searchPath))
    ∧ (∀ pre e post, entries = pre ++ e :: post →
        (∀ x ∈ pre, ¬ (x.isDir = true ∧ str ".app" <:+ x.name)) →
        e.isDir = true → str ".app" <:+ e.name →
        findAppBundle fs searchPath = .ok (filepath.Join searchPath e.name)) := by
  have hnone : (∀ e ∈ entries, ¬ (e.isDir = true ∧ str ".app" <:+ e.name)) →
      findAppBundle fs searchPath = .error (.bundleNotFound searchPath) := by
    intro hall
    simp [findAppBundle, h, findAppLoop_none searchPath entries hall]
  have hsome : ∀ pre e post, entries = pre ++ e :: post →
      (∀ x ∈ pre, ¬ (x.isDir = true ∧ str ".app" <:+ x.name)) →
      e.isDir = true → str ".app" <:+ e.name →
      findAppBundle fs searchPath = .ok (filepath.Join searchPath e.name) := by
    intro pre e post he hpre hd hs
    have hn : e.name ≠ [] := by
      intro e0
      rw [e0] at hs
      have := hs.length_le
      simp [str, utf8Char] at this
    simp [findAppBundle, h, he, findAppLoop_first searchPath pre post e hpre hd hs,
      filepath.Join_ne_nil searchPath e.name hn]
  refine ⟨⟨?_, fun hall => ⟨_, hnone hall⟩⟩, hnone, hsome⟩
  rintro ⟨err, herr⟩ e he ⟨hd, hs⟩
  -- take the first entry that qualifies
  have hex : ∃ x ∈ entries, (x.isDir && decide (str ".app" <:+ x.name)) = true :=
    ⟨e, he, by simp [hd, hs]⟩
  obtain ⟨pre, x, post, hsplit, hx, hpre⟩ :
      ∃ pre x post, entries = pre ++ x :: post
        ∧ (x.isDir && decide (str ".app" <:+ x.name)) = true
        ∧ ∀ y ∈ pre, ¬ (y.isDir && decide (str ".app" <:+ y.name)) = true := by
    clear herr he hnone hsome h
    induction entries with
    | nil => simp at hex
    | cons a as ih =>
      by_cases ha : (a.isDir && decide (str ".app" <:+ a.name)) = true
      · exact ⟨[], a, as, rfl, ha, by simp⟩
      · obtain ⟨y, hy, hy2⟩ := hex
        have hy' : y ∈ as := by
          rcases List.mem_cons.mp hy with rfl | hy
          · exact absurd hy2 ha
          · exact hy
        obtain ⟨pre, x, post, e1, e2, e3⟩ := ih ⟨y, hy', hy2⟩
        refine ⟨a :: pre, x, post, by rw [e1]; rfl, e2, ?_⟩
        intro z hz
        rcases List.mem_cons.mp hz with rfl | hz
        · exact ha
        · exact e3 z hz
  simp only [Bool.and_eq_true, decide_eq_true_eq] at hx hpre
  rw [hsome pre x post hsplit hpre hx.1 hx.2] at herr
  cases herr

theorem findAppBundle_spec_witness :
    os.ReadDir ⟨[], [([str "x"], .dir), ([str "x", str "b.app"], .dir),
          ([str "x", str "a.app"], .file []), ([str "x", str "c.app"], .dir)]⟩ (str "/x")
        = .ok [⟨str "a.app", false⟩, ⟨str "b.app", true⟩, ⟨str "c.app", true⟩]
    ∧ findAppBundle ⟨[], [([str "x"], .dir), ([str "x", str "b.app"], .dir),
          ([str "x", str "a.app"], .file []), ([str "x", str "c.app"], .dir)]⟩ (str "/x")
        = .ok (str "/x/b.app") :=
  ⟨by decide,
   ((findAppBundle_spec _ (str "/x") _ (by decide)).2.2
      [⟨str "a.app", false⟩] ⟨str "b.app", true⟩ [⟨str "c.app", true⟩] rfl
      (by decide) rfl (by decide)).trans (by decide)⟩

/-! ## os: locations and what the calls change -/

namespace os

theorem find_filter_ne (nodes : List (Key × Node)) (k k' : Key) (h : k' ≠ k) :
    (nodes.filter (fun e => decide (e.1 ≠ k))).find? (fun e => decide (e.1 = k'))
      = nodes.find? (fun e => decide (e.1 = k')) := by
  induction nodes with
  | nil => rfl
  | cons e es ih =>
    rw [List.filter_cons]
    by_cases he : e.1 = k
    · have hd : decide (e.1 ≠ k) = false := by simp [he]
      have hk : decide (e.1 = k') = false := by
        simp only [decide_eq_false_iff_not]
        exact fun e' => h (e'.symm.trans he)
      rw [hd]
      simp only [Bool.false_eq_true, if_false]
      rw [List.find?_cons, hk]
      exact ih
    · have hd : decide (e.1 ≠ k) = true := by simp [he]
      rw [hd]
      simp only [if_true]
      rw [List.find?_cons, List.find?_cons]
      cases decide (e.1 = k')
      · exact ih
      · rfl

theorem find_filter_self (nodes : List (Key × Node)) (k : Key) :
    (nodes.filter (fun e => decide (e.1 ≠ k))).find? (fun e => decide (e.1 = k)) = none := by
  induction nodes with
  | nil => rfl
  | cons e es ih =>
    rw [List.filter_cons]
    by_cases he : e.1 = k
    · have hd : decide (e.1 ≠ k) = false := by simp [he]
      rw [hd]
      simp only [Bool.false_eq_true, if_false]
      exact ih
    · have hd : decide (e.1 ≠ k) = true := by simp [he]
      have hk : decide (e.1 = k) = false := by simp [he]
      rw [hd]
      simp only [if_true]
      rw [List.find?_cons, hk]
      exact ih

theorem lookup_set_self (fs : FS) (k : Key) (n : Node) (hk : k ≠ []) :
    (fs.set k n).lookup k = some n := by
  simp [FS.lookup, FS.set, hk]

theorem lookup_set_ne (fs : FS) (k k' : Key) (n : Node) (h : k' ≠ k) :
    (fs.set k n).lookup k' = fs.lookup k' := by
  unfold FS.lookup FS.set
  by_cases h0 : k' = []
  · simp [h0]
  · simp only [h0, if_false, List.find?_cons, decide_eq_true_eq, Ne.symm h, decide_False]
    rw [find_filter_ne _ _ _ h]

theorem lookup_erase_self (fs : FS) (k : Key) (hk : k ≠ []) :
    (fs.erase k).lookup k = none := by
  simp [FS.lookup, FS.erase, hk, find_filter_self]

theorem lookup_erase_ne (fs : FS) (k k' : Key) (h : k' ≠ k) :
    (fs.erase k).lookup k' = fs.lookup k' := by
  unfold FS.lookup FS.erase
  by_cases h0 : k' = []
  · simp [h0]
  · simp only [h0, if_false]
    rw [find_filter_ne _ _ _ h]


theorem checkDirs_congr (fs fs' : FS) (ks : List Key)
    (h : ∀ a ∈ ks, fs'.lookup a = fs.lookup a) : checkDirs fs' ks = checkDirs fs ks := by
  induction ks with
  | nil => rfl
  | cons k ks ih =>
    simp only [checkDirs, h k (by simp)]
    rw [ih (fun a ha => h a (by simp [ha]))]

theorem checkDirs_ok (fs : FS) (ks : List Key) :
    checkDirs fs ks = .ok () ↔ ∀ a ∈ ks, fs.lookup a = some .dir := by
  induction ks with
  | nil => simp [checkDirs]
  | cons k ks ih =>
    unfold checkDirs
    rcases hk : fs.lookup k with _ | n
    · simp [hk]
    · cases n with
      | file c => simp [hk]
      | dir => simpa [hk] using ih

theorem ancestors_cons (a : Bytes) (l : Key) :
    ancestors (a :: l) = [] :: (ancestors l).map (fun b => a :: b) := by
  unfold ancestors
  rw [List.inits_cons]
  have hne : l.inits ≠ [] := by
    cases l <;> simp
  obtain ⟨x, xs, hx⟩ := List.exists_cons_of_ne_nil hne
  rw [hx]
  simp [List.dropLast, List.map_dropLast]

/-- The ancestors are the proper prefixes. -/
theorem mem_ancestors_iff (k a : Key) : a ∈ ancestors k ↔ a <+: k ∧ a ≠ k := by
  induction k generalizing a with
  | nil =>
    have e : ancestors ([] : Key) = [] := rfl
    rw [e]
    simp only [List.not_mem_nil, false_iff]
    rintro ⟨h1, h2⟩
    exact h2 (List.prefix_nil.mp h1)
  | cons c l ih =>
    rw [ancestors_cons]
    constructor
    · intro h
      rcases List.mem_cons.mp h with rfl | h
      · exact ⟨List.nil_prefix, by simp⟩
      · obtain ⟨b, hb, rfl⟩ := List.mem_map.mp h
        obtain ⟨h1, h2⟩ := (ih b).mp hb
        exact ⟨by simpa [List.cons_prefix_cons] using h1, by simpa using h2⟩
    · rintro ⟨h1, h2⟩
      cases a with
      | nil => simp
      | cons x xs =>
        rw [List.cons_prefix_cons] at h1
        obtain ⟨rfl, h1⟩ := h1
        refine List.mem_cons_of_mem _ (List.mem_map.mpr ⟨xs, (ih xs).mpr ⟨h1, ?_⟩, rfl⟩)
        intro e
        exact h2 (by rw [e])

/-- Every ancestor is a proper prefix. -/
theorem mem_ancestors (k a : Key) (h : a ∈ ancestors k) : a <+: k ∧ a ≠ k :=
  (mem_ancestors_iff k a).mp h

/-- A resolution that succeeds ends where its components lead. -/
theorem walk_key (fs : FS) (cs : List Bytes) (s k : Key) (h : walk fs s cs = .ok k) :
    k = cs.foldl walkStep s := by
  induction cs generalizing s with
  | nil =>
    simp only [walk, Except.ok.injEq] at h
    simpa using h.symm
  | cons c cs ih =>
    unfold walk at h
    rcases hl : fs.lookup s with _ | n
    · simp [hl] at h
    · cases n with
      | file c => simp [hl] at h
      | dir =>
        simp only [hl] at h
        simpa using ih _ h

theorem walk_congr (fs fs' : FS) (cs : List Bytes) (s : Key)
    (h : ∀ a, fs'.lookup a = fs.lookup a) : walk fs' s cs = walk fs s cs := by
  induction cs generalizing s with
  | nil => rfl
  | cons c cs ih =>
    unfold walk
    rw [h s, ih]

/-- A resolution that succeeds still does when every directory stays one. -/
theorem walk_dirs (fs fs' : FS) (cs : List Bytes) (s k : Key)
    (h : ∀ a, fs.lookup a = some .dir → fs'.lookup a = some .dir)
    (hw : walk fs s cs = .ok k) : walk fs' s cs = .ok k := by
  induction cs generalizing s with
  | nil => exact hw
  | cons c cs ih =>
    unfold walk at hw ⊢
    rcases hl : fs.lookup s with _ | n
    · simp [hl] at hw
    · cases n with
      | file c => simp [hl] at hw
      | dir =>
        simp only [hl] at hw
        rw [h s hl]
        exact ih _ hw

theorem startOf_congr (fs fs' : FS) (p : Bytes) (h : fs'.cwd = fs.cwd) :
    startOf fs' p = startOf fs p := by
  simp [startOf, h]

/-- Names lead where they led when every location holds what it held. -/
theorem namei_congr (fs fs' : FS) (p : Bytes) (hcwd : fs'.cwd = fs.cwd)
    (h : ∀ a, fs'.lookup a = fs.lookup a) : namei fs' p = namei fs p := by
  unfold namei
  rw [startOf_congr fs fs' p hcwd, checkDirs_congr fs fs' _ (fun a _ => h a),
    walk_congr fs fs' _ _ h]

/-- A name that led somewhere still leads there when every directory stays one. -/
theorem namei_dirs (fs fs' : FS) (p : Bytes) (k : Key) (hcwd : fs'.cwd = fs.cwd)
    (h : ∀ a, fs.lookup a = some .dir → fs'.lookup a = some .dir)
    (hn : namei fs p = .ok k) : namei fs' p = .ok k := by
  unfold namei at hn ⊢
  rw [startOf_congr fs fs' p hcwd]
  by_cases hp : p = []
  · simp [hp] at hn
  · simp only [hp, if_false] at hn ⊢
    rcases hc : checkDirs fs (ancestors (startOf fs p)) with e | u
    · simp [hc] at hn
    · simp only [hc] at hn
      have hc' : checkDirs fs' (ancestors (startOf fs p)) = .ok () :=
        (checkDirs_ok fs' _).mpr (fun a ha => h a ((checkDirs_ok fs _).mp hc a ha))
      simp only [hc']
      exact walk_dirs fs fs' _ _ _ h hn

/-- Changing what is at `k`, not a directory, does not change how the names
that lead to `k` are resolved. -/
theorem namei_congr_at (fs fs' : FS) (p : Bytes) (k : Key) (hcwd : fs'.cwd = fs.cwd)
    (hl : ∀ a, a ≠ k → fs'.lookup a = fs.lookup a) (hnd : fs.lookup k ≠ some .dir)
    (h : namei fs p = .ok k) : namei fs' p = .ok k := by
  refine namei_dirs fs fs' p k hcwd (fun a ha => ?_) h
  have hne : a ≠ k := by
    intro e
    exact hnd (e ▸ ha)
  rw [hl a hne, ha]

/-- A name that leads somewhere leads where its components lead. -/
theorem namei_key (fs : FS) (p : Bytes) (k : Key) (h : namei fs p = .ok k) :
    p ≠ [] ∧ k = (components p).foldl walkStep (startOf fs p) := by
  unfold namei at h
  by_cases hp : p = []
  · simp [hp] at h
  · simp only [hp, if_false] at h
    rcases hc : checkDirs fs (ancestors (startOf fs p)) with e | u
    · simp [hc] at h
    · simp only [hc] at h
      exact ⟨hp, walk_key fs _ _ _ h⟩

/-- In two states with the same working directory a name leads to the same
location, when it leads somewhere in both. -/
theorem namei_unique (fs fs' : FS) (p : Bytes) (k k' : Key) (hcwd : fs'.cwd = fs.cwd)
    (h : namei fs p = .ok k) (h' : namei fs' p = .ok k') : k' = k := by
  rw [(namei_key fs p k h).2, (namei_key fs' p k' h').2, startOf_congr fs fs' p hcwd]

end os

/-! ## downloader.go: the downloaded file and its digest -/

/-- What a `downloadFile` that returns nil has done. -/
theorem downloadFile_ok (env : Env) (fs fs2 : os.FS) (url p : Bytes)
    (h : downloadFile env fs url p = (fs2, .ok ())) :
    ∃ k body, os.namei fs p = .ok k ∧ k ≠ [] ∧ os.dirOnly p = false
      ∧ fs.lookup k ≠ some .dir
      ∧ env.httpGet url = .response 200 body true
      ∧ fs2 = os.writeTo (fs.set k (.file [])) k body := by
  unfold downloadFile at h
  rcases hc : os.Create fs p with e | ⟨fs', k⟩
  · simp [hc] at h
  · simp only [hc] at h
    have hcr : os.namei fs p = .ok k ∧ k ≠ [] ∧ os.dirOnly p = false
        ∧ fs.lookup k ≠ some .dir ∧ fs' = fs.set k (.file []) := by
      unfold os.Create at hc
      rcases hn : os.namei fs p with e | k'
      · simp [hn] at hc
      · simp only [hn] at hc
        have hk : k' ≠ [] := by
          intro h0
          subst h0
          simp [os.FS.lookup] at hc
        rcases hl : fs.lookup k' with _ | n
        · rw [hl] at hc
          cases hd : os.dirOnly p
          · simp only [hd, Bool.false_eq_true, if_false, Except.ok.injEq, Prod.mk.injEq] at hc
            obtain ⟨rfl, rfl⟩ := hc
            exact ⟨rfl, hk, rfl, by simp [hl], rfl⟩
          · simp [hd] at hc
        · cases n with
          | dir =>
            rw [hl] at hc
            simp at hc
          | file c =>
            rw [hl] at hc
            cases hd : os.dirOnly p
            · simp only [hd, Bool.false_eq_true, if_false, Except.ok.injEq, Prod.mk.injEq] at hc
              obtain ⟨rfl, rfl⟩ := hc
              exact ⟨rfl, hk, rfl, by simp [hl], rfl⟩
            · simp [hd] at hc
    obtain ⟨hn, hk, hd, hnd, rfl⟩ := hcr
    rcases hg : env.httpGet url with _ | ⟨status, body, complete⟩
    · simp [hg] at h
    · refine ⟨k, body, hn, hk, hd, hnd, ?_⟩
      simp only [hg] at h
      by_cases hs : status = 200
      · subst hs
        cases complete
        · simp at h
        · simp only [ne_eq, not_true_eq_false, if_false, Bool.not_true, Bool.false_eq_true,
            Prod.mk.injEq, and_true] at h
          exact ⟨rfl, h.symm⟩
      · simp [hs] at h

/-- After a write to `k`, a name that led to `k` reads back what was written. -/
theorem ReadFile_after_write (fs : os.FS) (p : Bytes) (k : os.Key) (body : Bytes)
    (hn : os.namei fs p = .ok k) (hk : k ≠ []) (hnd : fs.lookup k ≠ some .dir) :
    os.namei (os.writeTo (fs.set k (.file [])) k body) p = .ok k
    ∧ (os.writeTo (fs.set k (.file [])) k body).lookup k = some (.file body) := by
  constructor
  · refine os.namei_congr_at fs _ p k rfl (fun a ha => ?_) hnd hn
    unfold os.writeTo
    rw [os.lookup_set_ne _ _ _ _ ha, os.lookup_set_ne _ _ _ _ ha]
  · unfold os.writeTo
    exact os.lookup_set_self _ _ _ hk

/-- With a manifest on the session, the staging directory in place and an
archive transfer that completes, `DownloadUpdate` succeeds exactly when the
lower-case hexadecimal SHA-256 digest of the bytes written equals
`manifest.Checksum`. On success the file is at `GetZipPath()`, `IsDownloaded()`
is true and its digest is the manifest digest. On a mismatch the call returns
the checksum-mismatch error; nothing exists at `GetZipPath()` afterwards when
the system lets the file be removed, and the rejected file is still there when
it does not. -/
theorem DownloadUpdate_digest (env : Env) (u : Updater) (fs fs1 fs2 : os.FS) (m : Manifest)
    (hm : u.manifest = some m)
    (hdir : u.ensureDownloadPath fs = (fs1, .ok ()))
    (hdl : downloadFile env fs1 (u.config.SourceURL ++ u.config.ZipFileName) u.GetZipPath
      = (fs2, .ok ())) :
    ∃ body, env.httpGet (u.config.SourceURL ++ u.config.ZipFileName) = .response 200 body true
      ∧ os.ReadFile fs2 u.GetZipPath = .ok body
      ∧ ((u.DownloadUpdate env fs).2.2 = .ok ()
          ↔ hex.EncodeToString (env.sha256 body) = m.Checksum)
      ∧ (hex.EncodeToString (env.sha256 body) = m.Checksum →
          u.DownloadUpdate env fs = (u, fs2, .ok ())
          ∧ u.IsDownloaded fs2 = true
          ∧ CalculateSHA256 env fs2 u.GetZipPath = .ok m.Checksum)
      ∧ (hex.EncodeToString (env.sha256 body) ≠ m.Checksum →
          ∃ fs3, u.DownloadUpdate env fs = (u, fs3, .error .mismatch)
            ∧ (env.removeRefused u.GetZipPath = false →
                os.Stat fs3 u.GetZipPath = .error .ENOENT ∧ u.IsDownloaded fs3 = false)
            ∧ (env.removeRefused u.GetZipPath = true →
                fs3 = fs2 ∧ u.IsDownloaded fs3 = true)) := by
  obtain ⟨k, body, hn, hk, hd, hnd, hget, rfl⟩ := downloadFile_ok env fs1 _ _ _ hdl
  obtain ⟨hn2, hl2⟩ := ReadFile_after_write fs1 u.GetZipPath k body hn hk hnd
  have hread : os.ReadFile (os.writeTo (fs1.set k (.file [])) k body) u.GetZipPath = .ok body := by
    simp [os.ReadFile, hn2, hl2, hd]
  have hzip : u.GetZipPath ≠ [] := (os.namei_key _ _ _ hn).1
  have hsha : CalculateSHA256 env (os.writeTo (fs1.set k (.file [])) k body) u.GetZipPath
      = .ok (hex.EncodeToString (env.sha256 body)) := by
    simp [CalculateSHA256, hread]
  have hstat : os.Stat (os.writeTo (fs1.set k (.file [])) k body) u.GetZipPath
      = .ok (.file body) := by
    simp [os.Stat, hn2, hl2, hd]
  have hdown : u.IsDownloaded (os.writeTo (fs1.set k (.file [])) k body) = true := by
    simp [Updater.IsDownloaded, hzip, hstat]
  have hrm : removeIgnoringError env (os.writeTo (fs1.set k (.file [])) k body) u.GetZipPath
      = if env.removeRefused u.GetZipPath = true
        then os.writeTo (fs1.set k (.file [])) k body
        else (os.writeTo (fs1.set k (.file [])) k body).erase k := by
    cases hr : env.removeRefused u.GetZipPath <;>
      simp [removeIgnoringError, os.Remove, hn2, hl2, hd, hr]
  have hrun : u.DownloadUpdate env fs =
      if hex.EncodeToString (env.sha256 body) = m.Checksum then
        (u, os.writeTo (fs1.set k (.file [])) k body, .ok ())
      else
        (u, removeIgnoringError env (os.writeTo (fs1.set k (.file [])) k body) u.GetZipPath,
          .error .mismatch) := by
    have hzp : filepath.Join u.config.DownloadPath u.config.ZipFileName = u.GetZipPath := rfl
    simp only [Updater.DownloadUpdate, hm, reduceCtorEq, if_false, hdir, hzp, hdl,
      VerifyChecksum, hsha]
    by_cases hc : hex.EncodeToString (env.sha256 body) = m.Checksum
    · simp [hc]
    · simp [hc]
  refine ⟨body, hget, hread, ?_, ?_, ?_⟩
  · rw [hrun]
    by_cases hc : hex.EncodeToString (env.sha256 body) = m.Checksum
    · simp [hc]
    · simp [hc]
  · intro hc
    exact ⟨by rw [hrun]; simp [hc], hdown, by rw [hsha, hc]⟩
  · intro hc
    refine ⟨removeIgnoringError env (os.writeTo (fs1.set k (.file [])) k body) u.GetZipPath,
      by rw [hrun]; simp [hc], ?_, ?_⟩
    · intro hr
      rw [hrm]
      simp only [hr, Bool.false_eq_true, if_false]
      have hn3 : os.namei ((os.writeTo (fs1.set k (.file [])) k body).erase k) u.GetZipPath
          = .ok k :=
        os.namei_congr_at (os.writeTo (fs1.set k (.file [])) k body)
          ((os.writeTo (fs1.set k (.file [])) k body).erase k) u.GetZipPath k rfl
          (fun a ha => os.lookup_erase_ne _ _ _ ha) (by simp [hl2]) hn2
      constructor
      · simp [os.Stat, hn3, os.lookup_erase_self _ _ hk]
      · simp [Updater.IsDownloaded, hzip, os.Stat, hn3, os.lookup_erase_self _ _ hk]
    · intro hr
      rw [hrm]
      simp only [hr, if_true]
      exact ⟨trivial, hdown⟩

theorem DownloadUpdate_digest_witness :
    (sampleSession.DownloadUpdate (sampleEnv (.response 200 [1, 2, 3] true) none none)
        sampleFS = (sampleSession, sampleDownloaded, .ok ())
      ∧ sampleSession.IsDownloaded sampleDownloaded = true
      ∧ CalculateSHA256 (sampleEnv (.response 200 [1, 2, 3] true) none none)
          sampleDownloaded sampleSession.GetZipPath = .ok (str "03"))
    ∧ ∃ fs3, Updater.DownloadUpdate (sampleEnv (.response 200 [1, 2, 3] true) none none)
          ⟨sampleSession.config, some ⟨str "1.1.0", str "ff"⟩⟩ sampleFS
        = (⟨sampleSession.config, some ⟨str "1.1.0", str "ff"⟩⟩, fs3, .error .mismatch)
      ∧ os.Stat fs3 (str "/dl/app.zip") = .error .ENOENT :=
  ⟨by
    obtain ⟨body, hget, _, _, hok, _⟩ :=
      DownloadUpdate_digest (sampleEnv (.response 200 [1, 2, 3] true) none none)
        sampleSession sampleFS sampleFS sampleDownloaded ⟨str "1.1.0", str "03"⟩
        rfl (by decide) (by decide)
    have hb : body = [1, 2, 3] := by
      have : HttpResult.response 200 [1, 2, 3] true = HttpResult.response 200 body true := hget
      simp only [HttpResult.response.injEq, true_and, and_true] at this
      exact this.symm
    subst hb
    exact hok (by decide),
   by
    obtain ⟨body, hget, _, _, _, hbad⟩ :=
      DownloadUpdate_digest (sampleEnv (.response 200 [1, 2, 3] true) none none)
        ⟨sampleSession.config, some ⟨str "1.1.0", str "ff"⟩⟩ sampleFS sampleFS sampleDownloaded
        ⟨str "1.1.0", str "ff"⟩ rfl (by decide) (by decide)
    have hb : body = [1, 2, 3] := by
      have : HttpResult.response 200 [1, 2, 3] true = HttpResult.response 200 body true := hget
      simp only [HttpResult.response.injEq, true_and, and_true] at this
      exact this.symm
    subst hb
    obtain ⟨fs3, h1, h2, _⟩ := hbad (by decide)
    exact ⟨fs3, h1, (h2 rfl).1⟩⟩

/-- C5: the code at the failing input. The session holds a manifest whose
digest is not that of the bytes served, the transfer into `/dl/app.zip`
completes, and the system refuses to remove that file. `DownloadUpdate` returns
the checksum-mismatch error with the rejected file still at `GetZipPath()`:
`os.Stat` finds it and `IsDownloaded()` is true. -/
theorem DownloadUpdate_checksum :
    Updater.GetZipPath ⟨sampleConfig (str "1.0.0") (str "/Applications/My.app"),
        some ⟨str "1.1.0", str "ff"⟩⟩ = str "/dl/app.zip"
    ∧ refusingEnv.removeRefused (str "/dl/app.zip") = true
    ∧ refusingEnv.httpGet (str "https://updates.example.com/app/app.zip")
        = .response 200 [1, 2, 3] true
    ∧ hex.EncodeToString (refusingEnv.sha256 [1, 2, 3]) = str "03"
    ∧ Updater.DownloadUpdate refusingEnv
          ⟨sampleConfig (str "1.0.0") (str "/Applications/My.app"),
            some ⟨str "1.1.0", str "ff"⟩⟩ sampleFS
        = (⟨sampleConfig (str "1.0.0") (str "/Applications/My.app"),
            some ⟨str "1.1.0", str "ff"⟩⟩, sampleDownloaded, .error .mismatch)
    ∧ os.Stat sampleDownloaded (str "/dl/app.zip") = .ok (.file [1, 2, 3])
    ∧ Updater.IsDownloaded ⟨sampleConfig (str "1.0.0") (str "/Applications/My.app"),
        some ⟨str "1.1.0", str "ff"⟩⟩ sampleDownloaded = true := by
  decide

/-! ## strings.ReplaceAll -/

namespace strings

theorem replaceAux_skip (old new : Bytes) : ∀ (k : Nat) (s : Bytes),
    replaceAux old new k s = replaceAux old new 0 (s.drop k)
  | 0, s => by simp
  | k + 1, [] => by simp [replaceAux]
  | k + 1, c :: cs => by
    simp only [replaceAux, List.drop_succ_cons]
    exact replaceAux_skip old new k cs

theorem ReplaceAll_nil (old new : Bytes) : ReplaceAll [] old new = [] := rfl

theorem ReplaceAll_cons (c : Nat) (cs old new : Bytes) :
    ReplaceAll (c :: cs) old new =
      if old.isPrefixOf (c :: cs) = true then new ++ ReplaceAll (cs.drop (old.length - 1)) old new
      else c :: ReplaceAll cs old new := by
  unfold ReplaceAll
  simp only [replaceAux]
  rw [replaceAux_skip old new (old.length - 1) cs]

/-- A string without an occurrence of `old` is left as it is. -/
theorem ReplaceAll_of_not_contains (s old new : Bytes) (h : Contains s old = false) :
    ReplaceAll s old new = s := by
  induction s with
  | nil => rfl
  | cons c cs ih =>
    simp only [Contains, Bool.or_eq_false_iff] at h
    rw [ReplaceAll_cons, h.1]
    simp [ih h.2]

/-- `old` itself becomes `new`. -/
theorem ReplaceAll_self (old new : Bytes) (h : old ≠ []) : ReplaceAll old old new = new := by
  obtain ⟨c, cs, rfl⟩ := List.exists_cons_of_ne_nil h
  rw [ReplaceAll_cons]
  have : (c :: cs).isPrefixOf (c :: cs) = true := by
    rw [List.isPrefixOf_iff_prefix]
  simp [this, ReplaceAll_nil]

theorem prefix_of_prefix_append_cons (old a b : Bytes) (q : Nat) (hq : q ∉ old)
    (h : old <+: a ++ q :: b) : old <+: a := by
  rcases List.prefix_or_prefix_of_prefix h (List.prefix_append a (q :: b)) with h1 | h1
  · exact h1
  · -- `a` is a prefix of `old`; were it proper, `q` would be in `old`
    obtain ⟨t, ht⟩ := h1
    obtain ⟨r, hr⟩ := h
    rw [← ht, List.append_assoc] at hr
    have hr' := List.append_cancel_left hr
    cases t with
    | nil => rw [← ht]; simp
    | cons x xs =>
      simp only [List.cons_append, List.cons.injEq] at hr'
      exfalso
      apply hq
      rw [← ht, ← hr'.1]
      simp

/-- No occurrence of `old` spans a byte that `old` does not contain: the
replacement works on the two sides of such a byte separately. -/
theorem ReplaceAll_append_cons (old new : Bytes) (q : Nat) (hq : q ∉ old) (h0 : old ≠ [])
    (b : Bytes) : ∀ (n : Nat) (a : Bytes), a.length = n →
    ReplaceAll (a ++ q :: b) old new = ReplaceAll a old new ++ q :: ReplaceAll b old new := by
  intro n
  induction n using Nat.strongRecOn with
  | _ n ih =>
    intro a hn
    cases a with
    | nil =>
      have : old.isPrefixOf (q :: b) = false := by
        rw [Bool.eq_false_iff]
        intro hp
        rw [List.isPrefixOf_iff_prefix] at hp
        obtain ⟨c, cs, rfl⟩ := List.exists_cons_of_ne_nil h0
        obtain ⟨r, hr⟩ := hp
        simp only [List.cons_append, List.cons.injEq] at hr
        exact hq (by simp [hr.1])
      simp [ReplaceAll_cons, this, ReplaceAll_nil]
    | cons c a' =>
      simp only [List.cons_append]
      rw [ReplaceAll_cons, ReplaceAll_cons c a']
      by_cases hp : old.isPrefixOf (c :: (a' ++ q :: b)) = true
      · have hp' : old <+: c :: a' := by
          rw [List.isPrefixOf_iff_prefix] at hp
          exact prefix_of_prefix_append_cons old (c :: a') b q hq hp
        have hp'' : old.isPrefixOf (c :: a') = true := by
          rw [List.isPrefixOf_iff_prefix]; exact hp'
        have hlen : old.length - 1 ≤ a'.length := by
          have := hp'.length_le
          simp only [List.length_cons] at this
          omega
        simp only [hp, hp'', if_true]
        rw [List.drop_append_of_le_length hlen]
        rw [ih (a'.drop (old.length - 1)).length (by
              simp only [List.length_drop, List.length_cons] at hn ⊢; omega) _ rfl]
        simp
      · have hp'' : ¬ old.isPrefixOf (c :: a') = true := by
          intro hc
          apply hp
          rw [List.isPrefixOf_iff_prefix] at hc ⊢
          exact hc.trans (by simp)
        simp only [hp, hp'', if_false]
        simp only [List.length_cons] at hn
        rw [ih a'.length (by omega) a' rfl]
        simp

theorem ReplaceAll_quote (old new a b : Bytes) (hq : 34 ∉ old) (h0 : old ≠ []) :
    ReplaceAll (a ++ 34 :: b) old new = ReplaceAll a old new ++ 34 :: ReplaceAll b old new :=
  ReplaceAll_append_cons old new 34 hq h0 b a.length a rfl

/-- A string without the first byte of `old` has no occurrence of `old`. -/
theorem not_contains_of_head (s old : Bytes) (c : Nat) (os : Bytes) (ho : old = c :: os)
    (h : c ∉ s) : Contains s old = false := by
  subst ho
  induction s with
  | nil => rfl
  | cons x xs ih =>
    simp only [List.mem_cons, not_or] at h
    have : (c :: os).isPrefixOf (x :: xs) = false := by
      rw [Bool.eq_false_iff]
      intro hp
      rw [List.isPrefixOf_iff_prefix] at hp
      obtain ⟨r, hr⟩ := hp
      simp only [List.cons_append, List.cons.injEq] at hr
      exact h.1 hr.1
    simp [Contains, this, ih h.2]

end strings

namespace fmt

theorem digitsAux_bytes (fuel n : Nat) (acc : Bytes) (h : ∀ c ∈ acc, c < 58) :
    ∀ c ∈ digitsAux fuel n acc, c < 58 := by
  induction fuel generalizing n acc with
  | zero => exact h
  | succ f ih =>
    unfold digitsAux
    split
    · intro c hc
      rcases List.mem_cons.mp hc with rfl | hc
      · omega
      · exact h c hc
    · apply ih
      intro c hc
      rcases List.mem_cons.mp hc with rfl | hc
      · omega
      · exact h c hc

theorem formatInt_bytes (n : Int) : ∀ c ∈ formatInt n, c < 58 := by
  unfold formatInt natDecimal
  split
  · intro c hc
    rcases List.mem_cons.mp hc with rfl | hc
    · decide
    · exact digitsAux_bytes _ _ [] (by simp) c hc
  · exact digitsAux_bytes _ _ [] (by simp)

/-- With fuel above `n`, the digits written denote `n`. -/
theorem decimal_digitsAux (fuel n : Nat) (acc : Bytes) (h : n < fuel) :
    SemVerSpec.decimal (digitsAux fuel n acc)
      = n * 10 ^ acc.length + SemVerSpec.decimal acc := by
  induction fuel generalizing n acc with
  | zero => omega
  | succ f ih =>
    unfold digitsAux
    split
    · rw [SemVerSpec.decimal_cons]
      simp
    · rename_i hn
      rw [ih (n / 10) _ (by omega), SemVerSpec.decimal_cons]
      simp only [List.length_cons, Nat.add_sub_cancel_left, pow_succ]
      have hdiv := Nat.div_add_mod n 10
      generalize 10 ^ acc.length = P
      calc n / 10 * (P * 10) + (n % 10 * P + SemVerSpec.decimal acc)
          = (10 * (n / 10) + n % 10) * P + SemVerSpec.decimal acc := by ring
        _ = n * P + SemVerSpec.decimal acc := by rw [hdiv]

/-- `natDecimal` writes the decimal form: reading it back gives the number. -/
theorem decimal_natDecimal (n : Nat) : SemVerSpec.decimal (natDecimal n) = n := by
  unfold natDecimal
  rw [decimal_digitsAux (n + 1) n [] (by omega)]
  simp [SemVerSpec.decimal]

end fmt

/-! ## applier.go: generateUpdateScript -/

/-- The template is its fixed text with the placeholders in the five places. -/
theorem template_eq_fill :
    updateScriptTemplate = fillTemplate (str "\x7b\x7bPID\x7d\x7d")
      (str "\x7b\x7bNEW_APP_PATH\x7d\x7d") (str "\x7b\x7bCURRENT_APP_PATH\x7d\x7d")
      (str "\x7b\x7bOLD_APP_BACKUP\x7d\x7d") (str "\x7b\x7bZIP_PATH\x7d\x7d") := by
  decide!

/-- No placeholder occurs in the fixed text, contains a double quote, is
empty, or occurs in another placeholder. -/
theorem placeholders_facts :
    (placeholders.all fun ph =>
      (List.range 6).all (fun i => !strings.Contains (fixedText i) ph)
        && !ph.contains 34 && !ph.isEmpty && ph.head? == some 123
        && placeholders.all (fun ph2 => ph2 == ph || !strings.Contains ph2 ph)) = true := by
  decide!

theorem placeholder_facts (ph : Bytes) (h : ph ∈ placeholders) :
    (∀ i, i < 6 → strings.Contains (fixedText i) ph = false)
    ∧ 34 ∉ ph ∧ ph ≠ [] ∧ (∃ os, ph = 123 :: os)
    ∧ (∀ ph2 ∈ placeholders, ph2 ≠ ph → strings.Contains ph2 ph = false) := by
  have key := List.all_eq_true.mp placeholders_facts ph h
  simp only [Bool.and_eq_true, List.all_eq_true, Bool.not_eq_true', List.mem_range,
    Bool.or_eq_true, beq_iff_eq] at key
  obtain ⟨⟨⟨⟨k1, k2⟩, k3⟩, k4⟩, k5⟩ := key
  refine ⟨k1, ?_, ?_, ?_, ?_⟩
  · intro hc
    have : ph.contains 34 = true := by simpa using hc
    rw [this] at k2
    exact absurd k2 (by simp)
  · intro e
    rw [e] at k3
    simp at k3
  · cases ph with
    | nil => simp at k4
    | cons c cs =>
      simp only [List.head?_cons, Option.some.injEq] at k4
      exact ⟨cs, by rw [k4]⟩
  · intro ph2 h2 hne
    rcases k5 ph2 h2 with e | e
    · exact absurd e hne
    · exact e

/-- One replacement acts on each of the five values and leaves the fixed text. -/
theorem ReplaceAll_fill (ph new : Bytes) (h : ph ∈ placeholders) (v1 v2 v3 v4 v5 : Bytes) :
    strings.ReplaceAll (fillTemplate v1 v2 v3 v4 v5) ph new =
      fillTemplate (strings.ReplaceAll v1 ph new) (strings.ReplaceAll v2 ph new)
        (strings.ReplaceAll v3 ph new) (strings.ReplaceAll v4 ph new)
        (strings.ReplaceAll v5 ph new) := by
  obtain ⟨hfix, hq, h0, _, _⟩ := placeholder_facts ph h
  unfold fillTemplate
  simp only [strings.ReplaceAll_quote _ _ _ _ hq h0]
  rw [strings.ReplaceAll_of_not_contains _ _ _ (hfix 0 (by decide)),
    strings.ReplaceAll_of_not_contains _ _ _ (hfix 1 (by decide)),
    strings.ReplaceAll_of_not_contains _ _ _ (hfix 2 (by decide)),
    strings.ReplaceAll_of_not_contains _ _ _ (hfix 3 (by decide)),
    strings.ReplaceAll_of_not_contains _ _ _ (hfix 4 (by decide)),
    strings.ReplaceAll_of_not_contains _ _ _ (hfix 5 (by decide))]

theorem formatInt_not_contains (n : Int) (ph : Bytes) (h : ph ∈ placeholders) :
    strings.Contains (fmt.formatInt n) ph = false := by
  obtain ⟨_, _, _, ⟨os, rfl⟩, _⟩ := placeholder_facts ph h
  apply strings.not_contains_of_head _ _ 123 os rfl
  intro hc
  have := fmt.formatInt_bytes n 123 hc
  omega

/-- C10, as amended: when no value contains a placeholder that is replaced
after it, `generateUpdateScript` returns the template with each of the five
placeholders replaced by its own value, verbatim, and the rest of the template
unchanged; the value in the place of `{{PID}}` is the decimal form of the pid. -/
theorem generateUpdateScript_fill (pid : Int) (newAppPath currentAppPath backupPath zipPath : Bytes)
    (hn3 : strings.Contains newAppPath (str "\x7b\x7bCURRENT_APP_PATH\x7d\x7d") = false)
    (hn4 : strings.Contains newAppPath (str "\x7b\x7bOLD_APP_BACKUP\x7d\x7d") = false)
    (hn5 : strings.Contains newAppPath (str "\x7b\x7bZIP_PATH\x7d\x7d") = false)
    (hc4 : strings.Contains currentAppPath (str "\x7b\x7bOLD_APP_BACKUP\x7d\x7d") = false)
    (hc5 : strings.Contains currentAppPath (str "\x7b\x7bZIP_PATH\x7d\x7d") = false)
    (hb5 : strings.Contains backupPath (str "\x7b\x7bZIP_PATH\x7d\x7d") = false) :
    updateScriptTemplate = fillTemplate (str "\x7b\x7bPID\x7d\x7d")
        (str "\x7b\x7bNEW_APP_PATH\x7d\x7d") (str "\x7b\x7bCURRENT_APP_PATH\x7d\x7d")
        (str "\x7b\x7bOLD_APP_BACKUP\x7d\x7d") (str "\x7b\x7bZIP_PATH\x7d\x7d")
    ∧ generateUpdateScript pid newAppPath currentAppPath backupPath zipPath
      = fillTemplate (fmt.formatInt pid) newAppPath currentAppPath backupPath zipPath
    ∧ (0 ≤ pid → SemVerSpec.decimal (fmt.formatInt pid) = pid.natAbs) := by
  refine ⟨template_eq_fill, ?_, fun h0 => by
    have : ¬ pid < 0 := by omega
    simp [fmt.formatInt, this, fmt.decimal_natDecimal]⟩
  have m1 : str "\x7b\x7bPID\x7d\x7d" ∈ placeholders := by simp [placeholders]
  have m2 : str "\x7b\x7bNEW_APP_PATH\x7d\x7d" ∈ placeholders := by simp [placeholders]
  have m3 : str "\x7b\x7bCURRENT_APP_PATH\x7d\x7d" ∈ placeholders := by simp [placeholders]
  have m4 : str "\x7b\x7bOLD_APP_BACKUP\x7d\x7d" ∈ placeholders := by simp [placeholders]
  have m5 : str "\x7b\x7bZIP_PATH\x7d\x7d" ∈ placeholders := by simp [placeholders]
  have keep : ∀ a b : Bytes, a ∈ placeholders → b ∈ placeholders → a ≠ b → ∀ new,
      strings.ReplaceAll a b new = a := fun a b ha hb hne new =>
    strings.ReplaceAll_of_not_contains _ _ _ ((placeholder_facts b hb).2.2.2.2 a ha hne)
  have self : ∀ a : Bytes, a ∈ placeholders → ∀ new, strings.ReplaceAll a a new = new :=
    fun a ha new => strings.ReplaceAll_self a new (placeholder_facts a ha).2.2.1
  have pidv : ∀ b : Bytes, b ∈ placeholders → ∀ new,
      strings.ReplaceAll (fmt.formatInt pid) b new = fmt.formatInt pid := fun b hb new =>
    strings.ReplaceAll_of_not_contains _ _ _ (formatInt_not_contains pid b hb)
  unfold generateUpdateScript
  simp only []
  rw [template_eq_fill, ReplaceAll_fill _ _ m1, ReplaceAll_fill _ _ m2, ReplaceAll_fill _ _ m3,
    ReplaceAll_fill _ _ m4, ReplaceAll_fill _ _ m5]
  rw [self _ m1, keep _ _ m2 m1 (by decide), keep _ _ m3 m1 (by decide),
    keep _ _ m4 m1 (by decide), keep _ _ m5 m1 (by decide)]
  rw [pidv _ m2, self _ m2, keep _ _ m3 m2 (by decide), keep _ _ m4 m2 (by decide),
    keep _ _ m5 m2 (by decide)]
  rw [pidv _ m3, strings.ReplaceAll_of_not_contains _ _ _ hn3, self _ m3,
    keep _ _ m4 m3 (by decide), keep _ _ m5 m3 (by decide)]
  rw [pidv _ m4, strings.ReplaceAll_of_not_contains _ _ _ hn4,
    strings.ReplaceAll_of_not_contains _ _ _ hc4, self _ m4, keep _ _ m5 m4 (by decide)]
  rw [pidv _ m5, strings.ReplaceAll_of_not_contains _ _ _ hn5,
    strings.ReplaceAll_of_not_contains _ _ _ hc5,
    strings.ReplaceAll_of_not_contains _ _ _ hb5, self _ m5]

theorem generateUpdateScript_fill_witness :
    generateUpdateScript 4242 (str "/dl/extracted/My.app") (str "/Applications/My.app")
        (str "/dl/backup-1700000000.app") (str "/dl/app.zip")
      = fillTemplate (str "4242") (str "/dl/extracted/My.app") (str "/Applications/My.app")
        (str "/dl/backup-1700000000.app") (str "/dl/app.zip") :=
  (generateUpdateScript_fill 4242 (str "/dl/extracted/My.app") (str "/Applications/My.app")
      (str "/dl/backup-1700000000.app") (str "/dl/app.zip")
      (by decide) (by decide) (by decide) (by decide) (by decide) (by decide)).2.1

/-- C10 as stated fails: a value that contains a later placeholder is altered
by the later replacement. With the new bundle path `{{ZIP_PATH}}` the script
has the archive path in its place. -/
theorem generateUpdateScript_counterexample :
    generateUpdateScript 7 (str "\x7b\x7bZIP_PATH\x7d\x7d") (str "/c") (str "/b") (str "/z")
      = fillTemplate (str "7") (str "/z") (str "/c") (str "/b") (str "/z")
    ∧ generateUpdateScript 7 (str "\x7b\x7bZIP_PATH\x7d\x7d") (str "/c") (str "/b") (str "/z")
      ≠ fillTemplate (fmt.formatInt 7) (str "\x7b\x7bZIP_PATH\x7d\x7d") (str "/c") (str "/b")
          (str "/z") := by
  decide!


/-! ## path/filepath: cleaned paths -/

namespace filepath

theorem elems_ne_nil (s : Bytes) : elems s ≠ [] := by
  cases s with
  | nil => simp [elems]
  | cons c cs =>
    unfold elems
    split
    · simp
    · split <;> simp

theorem elems_append_slash (a b : Bytes) : elems (a ++ 47 :: b) = elems a ++ elems b := by
  induction a with
  | nil => simp [elems]
  | cons c cs ih =>
    obtain ⟨h, t, ht⟩ := List.exists_cons_of_ne_nil (elems_ne_nil cs)
    by_cases hc : c = 47
    · subst hc
      simp [elems, ih]
    · rw [List.cons_append, elems, if_neg hc, ih, ht, elems, if_neg hc, ht]
      rfl

theorem mem_elems_no_slash (s c : Bytes) (h : c ∈ elems s) : 47 ∉ c := by
  induction s generalizing c with
  | nil =>
    simp only [elems, List.mem_singleton] at h
    subst h
    simp
  | cons x xs ih =>
    obtain ⟨hd, t, ht⟩ := List.exists_cons_of_ne_nil (elems_ne_nil xs)
    by_cases hx : x = 47
    · subst hx
      simp only [elems, if_true, List.mem_cons] at h
      rcases h with rfl | h
      · simp
      · exact ih c h
    · simp only [elems, hx, if_false, ht, List.mem_cons] at h
      rcases h with rfl | h
      · have := ih hd (by rw [ht]; simp)
        simp only [List.mem_cons, not_or]
        exact ⟨fun e => hx e.symm, this⟩
      · exact ih c (by rw [ht]; simp [h])

theorem elems_of_no_slash (c : Bytes) (h : 47 ∉ c) : elems c = [c] := by
  induction c with
  | nil => rfl
  | cons x xs ih =>
    simp only [List.mem_cons, not_or] at h
    have hx : x ≠ 47 := fun e => h.1 e.symm
    simp [elems, hx, ih h.2]

theorem elems_joinSlash (N : List Bytes) (h0 : N ≠ []) (h : ∀ c ∈ N, 47 ∉ c) :
    elems (joinSlash N) = N := by
  induction N with
  | nil => exact absurd rfl h0
  | cons x xs ih =>
    cases xs with
    | nil => simpa [joinSlash] using elems_of_no_slash x (h x (by simp))
    | cons y r =>
      simp only [joinSlash]
      rw [elems_append_slash, elems_of_no_slash x (h x (by simp)),
        ih (by simp) (fun c hc => h c (by simp [hc]))]
      rfl

theorem cleanStep_normal (rooted : Bool) (out : List Bytes) (c : Bytes) (h : NormalElem c) :
    cleanStep rooted out c = out ++ [c] := by
  obtain ⟨h1, h2, h3, _⟩ := h
  simp [cleanStep, h1, h2, h3]

theorem getLast?_replicate_append (n : Nat) (M : List Bytes) (x : Bytes)
    (h : (List.replicate n [46, 46] ++ M).getLast? = some x) (hx : x ≠ [46, 46])
    (hM : ∀ y ∈ M, NormalElem y) : M ≠ [] := by
  intro e
  subst e
  simp only [List.append_nil] at h
  have := List.mem_of_getLast?_eq_some h
  exact hx (List.eq_of_mem_replicate this)

theorem shape_cleanStep (rooted : Bool) (out : List Bytes) (c : Bytes) (hc : 47 ∉ c)
    (h : Shape rooted out) : Shape rooted (cleanStep rooted out c) := by
  obtain ⟨n, M, rfl, hM, hr⟩ := h
  unfold cleanStep
  split
  · exact ⟨n, M, rfl, hM, hr⟩
  · rename_i h1
    simp only [not_or] at h1
    split
    · rename_i h2
      subst h2
      split
      · rename_i l hl
        split
        · rename_i hll
          subst hll
          -- the last element is `..`: there are no names yet
          have hMnil : M = [] := by
            by_contra hne
            have hmem : M.getLast? = some [46, 46] := by
              rw [List.getLast?_append_of_ne_nil _ hne] at hl
              exact hl
            have := hM _ (List.mem_of_getLast?_eq_some hmem)
            exact this.2.2.1 rfl
          subst hMnil
          refine ⟨n + 1, [], ?_, by simp, ?_⟩
          · simp [List.replicate_succ']
          · intro hr'
            have := hr hr'
            subst this
            simp at hl
        · rename_i hll
          have hne := getLast?_replicate_append n M l hl hll hM
          refine ⟨n, M.dropLast, ?_, fun x hx => hM x (List.mem_of_mem_dropLast hx), hr⟩
          rw [List.dropLast_append_of_ne_nil _ hne]
      · rename_i hl
        split
        · exact ⟨n, M, rfl, hM, hr⟩
        · rename_i hroot
          have hnil : List.replicate n [46, 46] ++ M = [] := List.getLast?_eq_none_iff.mp hl
          simp only [List.append_eq_nil, List.replicate_eq_nil_iff] at hnil
          obtain ⟨rfl, rfl⟩ := hnil
          exact ⟨1, [], by simp, by simp, fun hr' => absurd hr' hroot⟩
    · rename_i h2
      refine ⟨n, M ++ [c], by simp, ?_, hr⟩
      intro x hx
      rcases List.mem_append.mp hx with hx | hx
      · exact hM x hx
      · simp only [List.mem_singleton] at hx
        subst hx
        exact ⟨h1.1, h1.2, h2, hc⟩

theorem shape_foldl (rooted : Bool) (cs out : List Bytes) (hcs : ∀ c ∈ cs, 47 ∉ c)
    (h : Shape rooted out) : Shape rooted (cs.foldl (cleanStep rooted) out) := by
  induction cs generalizing out with
  | nil => exact h
  | cons c cs ih =>
    exact ih _ (fun x hx => hcs x (by simp [hx]))
      (shape_cleanStep rooted out c (hcs c (by simp)) h)

theorem shape_nil (rooted : Bool) : Shape rooted [] := ⟨0, [], rfl, by simp, fun _ => rfl⟩

theorem shape_cleanElems (p : Bytes) : Shape (decide (p.head? = some 47)) (cleanElems p) :=
  shape_foldl _ _ _ (fun c hc => mem_elems_no_slash p c hc) (shape_nil _)

theorem foldl_cleanStep_normal (rooted : Bool) (M out : List Bytes)
    (hM : ∀ x ∈ M, NormalElem x) : M.foldl (cleanStep rooted) out = out ++ M := by
  induction M generalizing out with
  | nil => simp
  | cons c cs ih =>
    simp only [List.foldl_cons]
    rw [cleanStep_normal rooted out c (hM c (by simp)), ih _ (fun x hx => hM x (by simp [hx]))]
    simp

theorem foldl_cleanStep_dots (n k : Nat) :
    (List.replicate n [46, 46]).foldl (cleanStep false) (List.replicate k [46, 46])
      = List.replicate (k + n) [46, 46] := by
  induction n generalizing k with
  | zero => simp
  | succ n ih =>
    simp only [List.replicate_succ, List.foldl_cons]
    have : cleanStep false (List.replicate k [46, 46]) [46, 46]
        = List.replicate (k + 1) [46, 46] := by
      cases k with
      | zero => simp [cleanStep]
      | succ k =>
        have hl : (List.replicate (k + 1) [46, 46]).getLast? = some [46, 46] := by
          rw [List.replicate_succ']
          simp
        rw [List.replicate_succ' (k + 1)]
        simp [cleanStep, hl]
    rw [this, ih]
    congr 1
    omega

/-- Cleaning leaves the elements of a cleaned path as they are. -/
theorem foldl_cleanStep_shape (rooted : Bool) (N : List Bytes) (h : Shape rooted N) :
    N.foldl (cleanStep rooted) [] = N := by
  obtain ⟨n, M, rfl, hM, hr⟩ := h
  rw [List.foldl_append]
  cases rooted with
  | true =>
    have := hr rfl
    subst this
    simp [foldl_cleanStep_normal true M [] hM]
  | false =>
    have := foldl_cleanStep_dots n 0
    simp only [List.replicate_zero, Nat.zero_add] at this
    rw [this, foldl_cleanStep_normal false M _ hM]

theorem Clean_eq_render (p : Bytes) :
    Clean p = render (decide (p.head? = some 47)) (cleanElems p) := by
  unfold Clean render
  by_cases h0 : p = []
  · subst h0
    simp [cleanElems, elems, cleanStep]
  · by_cases hr : p.head? = some 47
    · simp [h0, hr]
    · simp [h0, hr]

theorem shape_no_slash (rooted : Bool) (N : List Bytes) (h : Shape rooted N) :
    ∀ c ∈ N, 47 ∉ c ∧ c ≠ [] := by
  obtain ⟨n, M, rfl, hM, _⟩ := h
  intro c hc
  rcases List.mem_append.mp hc with hc | hc
  · rw [List.eq_of_mem_replicate hc]
    decide
  · exact ⟨(hM c hc).2.2.2, (hM c hc).1⟩

theorem joinSlash_head (N : List Bytes) (h0 : N ≠ []) (h : ∀ c ∈ N, 47 ∉ c ∧ c ≠ []) :
    (joinSlash N).head? ≠ some 47 := by
  match N, h0, h with
  | [x], _, h =>
    obtain ⟨h1, h2⟩ := h x (by simp)
    obtain ⟨a, as, rfl⟩ := List.exists_cons_of_ne_nil h2
    simp only [joinSlash, List.head?_cons, ne_eq, Option.some.injEq]
    intro e
    exact h1 (by simp [e])
  | x :: y :: r, _, h =>
    obtain ⟨h1, h2⟩ := h x (by simp)
    obtain ⟨a, as, rfl⟩ := List.exists_cons_of_ne_nil h2
    simp only [joinSlash, List.cons_append, List.head?_cons, ne_eq, Option.some.injEq]
    intro e
    exact h1 (by simp [e])

/-- The text of a cleaned path is rooted exactly when the path is. -/
theorem render_rooted (rooted : Bool) (N : List Bytes) (h : Shape rooted N) :
    decide ((render rooted N).head? = some 47) = rooted := by
  cases rooted with
  | true => simp [render]
  | false =>
    unfold render
    by_cases hN : N = []
    · simp [hN]
    · simp only [Bool.false_eq_true, if_false, hN, decide_eq_false_iff_not]
      exact joinSlash_head N hN (shape_no_slash false N h)

/-- Cleaning the text of a cleaned path gives back its elements. -/
theorem cleanElems_render (rooted : Bool) (N : List Bytes) (h : Shape rooted N) :
    cleanElems (render rooted N) = N := by
  unfold cleanElems
  rw [render_rooted rooted N h]
  have hs := shape_no_slash rooted N h
  cases rooted with
  | true =>
    by_cases hN : N = []
    · subst hN
      simp [render, joinSlash, elems, cleanStep]
    · have : elems (render true N) = [] :: N := by
        simp only [render, if_true]
        have e1 : (47 :: joinSlash N) = [] ++ 47 :: joinSlash N := rfl
        rw [e1, elems_append_slash, elems_joinSlash N hN (fun c hc => (hs c hc).1)]
        rfl
      rw [this]
      simp only [List.foldl_cons]
      have : cleanStep true [] [] = [] := by simp [cleanStep]
      rw [this]
      exact foldl_cleanStep_shape true N h
  | false =>
    by_cases hN : N = []
    · subst hN
      simp [render, elems, cleanStep]
    · have : elems (render false N) = N := by
        simp only [render, Bool.false_eq_true, if_false, hN]
        exact elems_joinSlash N hN (fun c hc => (hs c hc).1)
      rw [this]
      exact foldl_cleanStep_shape false N h

/-- `Clean` is idempotent. -/
theorem Clean_Clean (p : Bytes) : Clean (Clean p) = Clean p := by
  rw [Clean_eq_render (Clean p)]
  rw [Clean_eq_render p, render_rooted _ _ (shape_cleanElems p),
    cleanElems_render _ _ (shape_cleanElems p)]

theorem elems_render (rooted : Bool) (N : List Bytes) (h : Shape rooted N) (hN : N ≠ []) :
    elems (render rooted N) = if rooted = true then [] :: N else N := by
  have hs := shape_no_slash rooted N h
  cases rooted with
  | true =>
    simp only [render, if_true]
    have e1 : (47 :: joinSlash N) = [] ++ 47 :: joinSlash N := rfl
    rw [e1, elems_append_slash, elems_joinSlash N hN (fun c hc => (hs c hc).1)]
    rfl
  | false =>
    simp only [render, Bool.false_eq_true, if_false, hN]
    exact elems_joinSlash N hN (fun c hc => (hs c hc).1)

theorem render_ne_nil (rooted : Bool) (N : List Bytes) (h : Shape rooted N) :
    render rooted N ≠ [] := by
  unfold render
  split
  · simp
  · split
    · simp
    · rename_i hN
      exact joinSlash_ne_nil N hN (fun x hx => (shape_no_slash rooted N h x hx).2)

/-- Cleaning the text of a cleaned path, from the elements. -/
theorem foldl_elems_render (rooted : Bool) (N : List Bytes) (h : Shape rooted N) :
    (elems (render rooted N)).foldl (cleanStep rooted) [] = N := by
  have := cleanElems_render rooted N h
  unfold cleanElems at this
  rw [render_rooted rooted N h] at this
  exact this

theorem head?_append_of_ne_nil (a b : Bytes) (h : a ≠ []) : (a ++ b).head? = a.head? := by
  cases a with
  | nil => exact absurd rfl h
  | cons x xs => rfl

/-- Joining a name to a cleaned path: the elements of the name are applied to
the elements of the path. -/
theorem Join_render (rooted : Bool) (N : List Bytes) (h : Shape rooted N) (name : Bytes) :
    Join (render rooted N) name = render rooted ((elems name).foldl (cleanStep rooted) N)
    ∧ Shape rooted ((elems name).foldl (cleanStep rooted) N) := by
  have hne := render_ne_nil rooted N h
  have hflag : decide ((render rooted N ++ 47 :: name).head? = some 47) = rooted := by
    rw [head?_append_of_ne_nil _ _ hne]
    exact render_rooted rooted N h
  refine ⟨?_, shape_foldl rooted _ _ (fun c hc => mem_elems_no_slash name c hc) h⟩
  unfold Join
  simp only [hne, ne_eq, not_false_eq_true, if_true]
  rw [Clean_eq_render, hflag]
  unfold cleanElems
  rw [hflag, elems_append_slash, List.foldl_append, foldl_elems_render rooted N h]

theorem joinSlash_snoc (N : List Bytes) (last : Bytes) (hN : N ≠ []) :
    joinSlash (N ++ [last]) = joinSlash N ++ 47 :: last := by
  induction N with
  | nil => exact absurd rfl hN
  | cons x xs ih =>
    cases xs with
    | nil => simp [joinSlash]
    | cons y r =>
      have := ih (by simp)
      simp only [List.cons_append] at this ⊢
      simp only [joinSlash]
      rw [this]
      simp

theorem render_snoc (rooted : Bool) (N : List Bytes) (last : Bytes) (hN : N ≠ []) :
    render rooted (N ++ [last]) = render rooted N ++ 47 :: last := by
  unfold render
  cases rooted with
  | true => simp [joinSlash_snoc N last hN]
  | false => simp [hN, joinSlash_snoc N last hN]

theorem dropWhile_reverse_snoc (A last : Bytes) (h : 47 ∉ last) :
    (((A ++ 47 :: last).reverse).dropWhile (fun c => c != 47)).reverse = A ++ [47] := by
  have e : (A ++ 47 :: last).reverse = last.reverse ++ 47 :: A.reverse := by simp
  rw [e, List.dropWhile_append_of_pos]
  · simp [List.dropWhile_cons]
  · intro x hx
    have hx' : x ∈ last := List.mem_reverse.mp hx
    simp only [bne_iff_ne, ne_eq]
    intro e2
    exact h (e2 ▸ hx')

/-- The directory of a cleaned path that ends in a name: the path without that name. -/
theorem Dir_render (rooted : Bool) (N : List Bytes) (last : Bytes) (h : Shape rooted N)
    (hN : N ≠ []) (hl : NormalElem last) :
    Dir (render rooted (N ++ [last])) = render rooted N := by
  have hne := render_ne_nil rooted N h
  have hflag : decide ((render rooted N ++ [47]).head? = some 47) = rooted := by
    rw [head?_append_of_ne_nil _ _ hne]
    exact render_rooted rooted N h
  unfold Dir
  rw [render_snoc rooted N last hN, dropWhile_reverse_snoc _ _ hl.2.2.2, Clean_eq_render, hflag]
  unfold cleanElems
  rw [hflag, elems_append_slash, List.foldl_append, foldl_elems_render rooted N h]
  simp [elems, cleanStep]

/-- A cleaned path that starts with another cleaned path and a separator has
the elements of that path followed by more. -/
theorem prefix_render (rooted : Bool) (Nd Nf : List Bytes) (hd : Shape rooted Nd)
    (hf : Shape rooted Nf) (hNd : Nd ≠ [])
    (h : render rooted Nd ++ [47] <+: render rooted Nf) :
    ∃ S, Nf = Nd ++ S ∧ S ≠ [] := by
  obtain ⟨rest, hrest⟩ := h
  have he : elems (render rooted Nf) = elems (render rooted Nd) ++ elems rest := by
    rw [← hrest, List.append_assoc]
    exact elems_append_slash _ _
  rw [elems_render rooted Nd hd hNd] at he
  have hNf : Nf ≠ [] := by
    intro e
    subst e
    have hl := congrArg List.length he
    obtain ⟨x, xs, hx⟩ := List.exists_cons_of_ne_nil hNd
    obtain ⟨y, ys, hy⟩ := List.exists_cons_of_ne_nil (elems_ne_nil rest)
    cases rooted with
    | true => simp [render, joinSlash, elems, hx, hy] at hl
    | false => simp [render, elems, hx, hy] at hl
  rw [elems_render rooted Nf hf hNf] at he
  refine ⟨elems rest, ?_, elems_ne_nil rest⟩
  cases rooted with
  | true => simpa using he
  | false => simpa using he

/-- In a cleaned path, what follows a name are names. -/
theorem shape_after_name (rooted : Bool) (X S : List Bytes) (c : Bytes) (hc : NormalElem c)
    (h : Shape rooted (X ++ [c] ++ S)) : ∀ y ∈ S, NormalElem y := by
  obtain ⟨n, M, hl, hM, _⟩ := h
  rcases List.append_eq_append_iff.mp hl with ⟨a, h1, h2⟩ | ⟨a, h1, h2⟩
  · -- the `..` run would reach past `c`
    intro y hy
    rw [h2] at hy
    have hmem : c ∈ List.replicate n [46, 46] := by
      rw [h1]
      simp
    exact absurd (List.eq_of_mem_replicate hmem) hc.2.2.1
  · intro y hy
    exact hM y (by rw [h2]; simp [hy])

theorem shape_prefix (rooted : Bool) (A B : List Bytes) (h : Shape rooted (A ++ B)) :
    Shape rooted A := by
  obtain ⟨n, M, hl, hM, hr⟩ := h
  rcases List.append_eq_append_iff.mp hl with ⟨a, h1, h2⟩ | ⟨a, h1, h2⟩
  · -- `A` lies inside the `..` run
    have hA : A = List.replicate A.length [46, 46] := by
      apply List.eq_replicate_iff.mpr
      refine ⟨rfl, fun x hx => ?_⟩
      have : x ∈ List.replicate n [46, 46] := by rw [h1]; simp [hx]
      exact List.eq_of_mem_replicate this
    refine ⟨A.length, [], by simpa using hA, by simp, fun hr' => ?_⟩
    have hn := hr hr'
    subst hn
    simp only [List.replicate_zero] at h1
    have : A = [] := (List.append_eq_nil.mp h1.symm).1
    simp [this]
  · exact ⟨n, a, h1, fun x hx => hM x (by rw [h2]; simp [hx]), hr⟩

end filepath

/-! ## os: what the calls leave alone -/

namespace os

theorem foldl_walkStep_normal (M : List Bytes) (k : Key)
    (hM : ∀ x ∈ M, filepath.NormalElem x) : M.foldl walkStep k = k ++ M := by
  induction M generalizing k with
  | nil => simp
  | cons c cs ih =>
    obtain ⟨h1, h2, h3, _⟩ := hM c (by simp)
    simp only [List.foldl_cons]
    rw [show walkStep k c = k ++ [c] by simp [walkStep, h1, h2, h3],
      ih _ (fun x hx => hM x (by simp [hx]))]
    simp

/-- Where the resolution of a cleaned path starts. -/
theorem startOf_render (fs : FS) (rooted : Bool) (N : List Bytes)
    (h : filepath.Shape rooted N) :
    startOf fs (filepath.render rooted N) = if rooted = true then [] else fs.cwd := by
  have hflag := filepath.render_rooted rooted N h
  unfold startOf
  cases rooted with
  | true =>
    have : (filepath.render true N).head? = some 47 := by simpa using hflag
    simp [this]
  | false =>
    have : ¬ (filepath.render false N).head? = some 47 := by simpa using hflag
    simp [this]

/-- The components of a cleaned path lead where its elements lead. -/
theorem foldl_components_render (rooted : Bool) (N : List Bytes)
    (h : filepath.Shape rooted N) (k : Key) :
    (components (filepath.render rooted N)).foldl walkStep k = N.foldl walkStep k := by
  unfold components
  by_cases hN : N = []
  · subst hN
    cases rooted <;> simp [filepath.render, filepath.joinSlash, filepath.elems, walkStep]
  · rw [filepath.elems_render rooted N h hN]
    have hf : N.filter (fun c => decide (c ≠ [])) = N := by
      apply List.filter_eq_self.mpr
      intro c hc
      simpa using (filepath.shape_no_slash rooted N h c hc).2
    cases rooted with
    | true =>
      simp only [if_true]
      rw [List.filter_cons_of_neg (by simp), hf]
    | false =>
      simp only [Bool.false_eq_true, if_false]
      rw [hf]

/-- The location of a cleaned path that leads somewhere. -/
theorem namei_render (fs : FS) (rooted : Bool) (N : List Bytes) (k : Key)
    (h : filepath.Shape rooted N) (hn : namei fs (filepath.render rooted N) = .ok k) :
    k = N.foldl walkStep (if rooted = true then [] else fs.cwd) := by
  rw [(namei_key fs _ k hn).2, foldl_components_render rooted N h, startOf_render fs rooted N h]

/-- A resolution passes through directories only: what lies above the
location it reaches is a directory, and so is the location itself when the
last component is `.` or `..`. -/
theorem walk_above (fs : FS) (cs : List Bytes) (s k : Key)
    (hs : ∀ a, a <+: s → a ≠ s → fs.lookup a = some .dir)
    (hw : walk fs s cs = .ok k) :
    (∀ a, a <+: k → a ≠ k → fs.lookup a = some .dir)
    ∧ ∀ c, cs.getLast? = some c → c = [46] ∨ c = [46, 46] → fs.lookup k = some .dir := by
  induction cs generalizing s with
  | nil =>
    simp only [walk, Except.ok.injEq] at hw
    subst hw
    exact ⟨hs, fun c hc => by simp at hc⟩
  | cons c cs ih =>
    unfold walk at hw
    rcases hl : fs.lookup s with _ | n
    · simp [hl] at hw
    · cases n with
      | file c => simp [hl] at hw
      | dir =>
        simp only [hl] at hw
        have hroot : fs.lookup [] = some .dir := by simp [FS.lookup]
        have hdrop : fs.lookup s.dropLast = some .dir := by
          by_cases h0 : s = []
          · subst h0
            simpa using hroot
          · refine hs _ (List.dropLast_prefix s) ?_
            intro e
            have := congrArg List.length e
            rw [List.length_dropLast] at this
            have hpos : 0 < s.length := List.length_pos.mpr h0
            omega
        have hs' : ∀ a, a <+: walkStep s c → a ≠ walkStep s c → fs.lookup a = some .dir := by
          intro a ha hne
          unfold walkStep at ha hne
          by_cases h1 : c = [] ∨ c = [46]
          · simp only [h1, if_true] at ha hne
            exact hs a ha hne
          · simp only [h1, if_false] at ha hne
            by_cases h2 : c = [46, 46]
            · simp only [h2, if_true] at ha hne
              refine hs a (ha.trans (List.dropLast_prefix s)) ?_
              intro e
              subst e
              exact hne (List.IsPrefix.eq_of_length_le ha
                (by rw [List.length_dropLast]; omega))
            · simp only [h2, if_false] at ha hne
              rcases List.prefix_concat_iff.mp (by simpa using ha) with e | hp
              · exact absurd (by simpa using e) hne
              · by_cases e : a = s
                · rw [e]; exact hl
                · exact hs a hp e
        obtain ⟨h1, h2⟩ := ih _ hs' hw
        refine ⟨h1, ?_⟩
        intro d hd hdot
        cases cs with
        | nil =>
          simp only [walk, Except.ok.injEq] at hw
          subst hw
          simp only [List.getLast?_singleton, Option.some.injEq] at hd
          subst hd
          rcases hdot with e | e
          · subst e
            simpa [walkStep] using hl
          · subst e
            simpa [walkStep] using hdrop
        | cons c2 cs2 =>
          exact h2 d (by simpa [List.getLast?_cons_cons] using hd) hdot

/-- A name that leads somewhere leads there through directories. -/
theorem namei_above (fs : FS) (p : Bytes) (k : Key) (h : namei fs p = .ok k) :
    (∀ a, a <+: k → a ≠ k → fs.lookup a = some .dir)
    ∧ ∀ c, (components p).getLast? = some c → c = [46] ∨ c = [46, 46] →
        fs.lookup k = some .dir := by
  unfold namei at h
  by_cases hp : p = []
  · simp [hp] at h
  · simp only [hp, if_false] at h
    rcases hc : checkDirs fs (ancestors (startOf fs p)) with e | u
    · simp [hc] at h
    · simp only [hc] at h
      refine walk_above fs _ _ k (fun a ha hne => ?_) h
      exact (checkDirs_ok fs _).mp hc a ((mem_ancestors_iff _ a).mpr ⟨ha, hne⟩)

theorem OnlyAt.refl (P : Key → Prop) (fs : FS) : OnlyAt P fs fs := ⟨rfl, fun _ _ => rfl⟩

theorem OnlyAt.trans {P : Key → Prop} {a b c : FS} (h1 : OnlyAt P a b) (h2 : OnlyAt P b c) :
    OnlyAt P a c :=
  ⟨h2.1.trans h1.1, fun k hk => (h2.2 k hk).trans (h1.2 k hk)⟩

theorem OnlyAt.mono {P Q : Key → Prop} {a b : FS} (h : OnlyAt P a b) (hPQ : ∀ k, P k → Q k) :
    OnlyAt Q a b :=
  ⟨h.1, fun k hk => h.2 k (fun hp => hk (hPQ k hp))⟩

theorem onlyAt_set (fs : FS) (k : Key) (n : Node) : OnlyAt (fun x => x = k) fs (fs.set k n) :=
  ⟨rfl, fun x hx => lookup_set_ne fs k x n hx⟩

/-- What an `os.Mkdir` that returns nil has done. -/
theorem Mkdir_ok (fs fs2 : FS) (p : Bytes) (h : Mkdir fs p = .ok fs2) :
    ∃ k, namei fs p = .ok k ∧ fs.lookup k = none ∧ fs2 = fs.set k .dir := by
  unfold Mkdir at h
  rcases hn : namei fs p with e | k
  · simp [hn] at h
  · simp only [hn] at h
    rcases hl : fs.lookup k with _ | n
    · simp only [hl, Except.ok.injEq] at h
      exact ⟨k, rfl, hl, h.symm⟩
    · simp [hl] at h

/-- The end of `os.MkdirAll` makes at most the directory its name leads to. -/
theorem onlyAt_mkdirLast (fs : FS) (p : Bytes) :
    OnlyAt (fun x => namei fs p = .ok x ∧ fs.lookup x = none) fs (mkdirLast fs p).1 := by
  unfold mkdirLast
  rcases hm : Mkdir fs p with e | fs2
  · simp only []
    split <;> exact OnlyAt.refl _ _
  · obtain ⟨k, hn, hl, rfl⟩ := Mkdir_ok fs fs2 p hm
    exact (onlyAt_set fs k .dir).mono (fun x hx => by subst hx; exact ⟨hn, hl⟩)

/-- The parent `os.MkdirAll` recurses into is shorter than the name. -/
theorem parentName_length (p : Bytes) (h : parentName p ≠ []) :
    (parentName p).length < p.length := by
  unfold parentName at h ⊢
  rw [List.length_reverse, List.length_drop]
  have h1 : ((p.reverse.dropWhile (fun c => decide (c = 47))).dropWhile
      (fun c => decide (c ≠ 47))).length ≤ p.length := by
    calc _ ≤ (p.reverse.dropWhile (fun c => decide (c = 47))).length :=
          (List.dropWhile_sublist _).length_le
      _ ≤ p.reverse.length := (List.dropWhile_sublist _).length_le
      _ = p.length := List.length_reverse p
  have h2 : 1 < ((p.reverse.dropWhile (fun c => decide (c = 47))).dropWhile
      (fun c => decide (c ≠ 47))).length := by
    by_contra hlt
    apply h
    rw [List.reverse_eq_nil_iff, List.drop_eq_nil_iff]
    omega
  omega

/-- A greater `depth` than the length of the name changes nothing: the bound
of `MkdirAll` never cuts the recursion short. -/
theorem mkdirAll_succ (n : Nat) : ∀ (fs : FS) (p : Bytes), p.length ≤ n →
    mkdirAll fs (n + 1) p = mkdirAll fs n p := by
  induction n with
  | zero =>
    intro fs p hp
    have h0 : p = [] := List.length_eq_zero.mp (Nat.le_zero.mp hp)
    subst h0
    have hpar : parentName [] = [] := rfl
    simp [mkdirAll, hpar]
  | succ m ih =>
    intro fs p hp
    rw [mkdirAll]
    conv => rhs; rw [mkdirAll]
    by_cases hpar : parentName p = []
    · simp only [hpar, if_true]
    · simp only [hpar, if_false]
      have hlen := parentName_length p hpar
      rw [ih fs (parentName p) (by omega)]

theorem mkdirAll_depth (fs : FS) (p : Bytes) (n : Nat) (h : p.length ≤ n) :
    mkdirAll fs n p = MkdirAll fs p := by
  unfold MkdirAll
  induction n with
  | zero =>
    have h0 : p.length = 0 := Nat.le_zero.mp h
    rw [h0]
  | succ m ih =>
    by_cases hm : p.length ≤ m
    · rw [mkdirAll_succ m fs p hm]
      exact ih hm
    · have : p.length = m + 1 := by omega
      rw [this]

theorem parentName_snoc (A c : Bytes) (hc : 47 ∉ c) (h0 : c ≠ []) :
    parentName (A ++ 47 :: c) = A := by
  unfold parentName
  have e : (A ++ 47 :: c).reverse = c.reverse ++ 47 :: A.reverse := by simp
  rw [e]
  obtain ⟨x, xs, hx⟩ := List.exists_cons_of_ne_nil (by simpa using h0 : c.reverse ≠ [])
  have hx47 : x ≠ 47 := by
    intro e2
    apply hc
    have : x ∈ c.reverse := by rw [hx]; simp
    exact e2 ▸ List.mem_reverse.mp this
  have h1 : (c.reverse ++ 47 :: A.reverse).dropWhile (fun c => decide (c = 47))
      = c.reverse ++ 47 :: A.reverse := by
    rw [hx]
    simp [List.dropWhile_cons, hx47]
  rw [h1, List.dropWhile_append_of_pos]
  · simp [List.dropWhile_cons]
  · intro y hy
    have hy' : y ∈ c := List.mem_reverse.mp hy
    simp only [ne_eq, decide_not, Bool.not_eq_true', decide_eq_false_iff_not]
    intro e2
    exact hc (e2 ▸ hy')

theorem parentName_name (c : Bytes) (hc : 47 ∉ c) : parentName c = [] := by
  unfold parentName
  have h1 : c.reverse.dropWhile (fun c => decide (c = 47)) = c.reverse := by
    cases hr : c.reverse with
    | nil => rfl
    | cons x xs =>
      have hx47 : x ≠ 47 := by
        intro e2
        apply hc
        have : x ∈ c.reverse := by rw [hr]; simp
        exact e2 ▸ List.mem_reverse.mp this
      simp [List.dropWhile_cons, hx47]
  rw [h1]
  have h2 : c.reverse.dropWhile (fun c => decide (c ≠ 47)) = [] := by
    apply List.dropWhile_eq_nil_iff.mpr
    intro y hy
    have hy' : y ∈ c := List.mem_reverse.mp hy
    simp only [ne_eq, decide_not, Bool.not_eq_true', decide_eq_false_iff_not]
    intro e2
    exact hc (e2 ▸ hy')
  rw [h2]
  rfl

/-- The parent of a cleaned path: the path without its last element. -/
theorem parentName_render (rooted : Bool) (N : List Bytes) (c : Bytes)
    (h : filepath.Shape rooted (N ++ [c])) :
    parentName (filepath.render rooted (N ++ [c]))
      = if N = [] then [] else filepath.render rooted N := by
  obtain ⟨hc, h0⟩ := filepath.shape_no_slash rooted _ h c (by simp)
  by_cases hN : N = []
  · subst hN
    simp only [List.nil_append, if_true]
    cases rooted with
    | true =>
      have e : filepath.render true [c] = [] ++ 47 :: c := by
        simp [filepath.render, filepath.joinSlash]
      rw [e]
      exact parentName_snoc [] c hc h0
    | false =>
      have e : filepath.render false [c] = c := by
        simp [filepath.render, filepath.joinSlash]
      rw [e]
      exact parentName_name c hc
  · simp only [hN, if_false]
    rw [filepath.render_snoc rooted N c hN]
    exact parentName_snoc _ c hc h0

/-- The components of a cleaned path with elements. -/
theorem components_render (rooted : Bool) (N : List Bytes) (h : filepath.Shape rooted N)
    (hN : N ≠ []) : components (filepath.render rooted N) = N := by
  unfold components
  rw [filepath.elems_render rooted N h hN]
  have hf : N.filter (fun c => decide (c ≠ [])) = N := by
    apply List.filter_eq_self.mpr
    intro c hc
    simpa using (filepath.shape_no_slash rooted N h c hc).2
  cases rooted with
  | true =>
    simp only [if_true]
    rw [List.filter_cons_of_neg (by simp), hf]
  | false =>
    simp only [Bool.false_eq_true, if_false]
    rw [hf]

/-- A cleaned path without names leads to a directory when it leads somewhere. -/
theorem namei_dots_dir (fs : FS) (rooted : Bool) (n : Nat) (k : Key)
    (hr : rooted = true → n = 0)
    (hn : namei fs (filepath.render rooted (List.replicate n [46, 46])) = .ok k) :
    fs.lookup k = some .dir := by
  have hs : filepath.Shape rooted (List.replicate n [46, 46]) :=
    ⟨n, [], by simp, by simp, hr⟩
  cases n with
  | zero =>
    cases rooted with
    | true =>
      have hk := namei_render fs true [] k (by simpa using hs) (by simpa using hn)
      simp only [List.foldl_nil, if_true] at hk
      subst hk
      simp [FS.lookup]
    | false =>
      refine (namei_above fs _ k hn).2 [46] ?_ (Or.inl rfl)
      simp [filepath.render, components, filepath.elems]
  | succ m =>
    refine (namei_above fs _ k hn).2 [46, 46] ?_ (Or.inr rfl)
    rw [components_render rooted _ hs (by simp [List.replicate_succ])]
    rw [List.replicate_succ']
    simp

/-- On a cleaned path the end of `os.MkdirAll` makes at most the directory the
path leads to, and nothing when the path has no names. -/
theorem onlyAt_mkdirLast_render (fs : FS) (rooted : Bool) (n : Nat) (M : List Bytes) (s : Key)
    (hM : ∀ x ∈ M, filepath.NormalElem x) (hr : rooted = true → n = 0)
    (hs : s = if rooted = true then [] else fs.cwd) :
    OnlyAt (fun k => k <+: (List.replicate n [46, 46]).foldl walkStep s ++ M
        ∧ ¬ k <+: (List.replicate n [46, 46]).foldl walkStep s) fs
      (mkdirLast fs (filepath.render rooted (List.replicate n [46, 46] ++ M))).1 := by
  refine (onlyAt_mkdirLast fs _).mono ?_
  rintro x ⟨hn, hl⟩
  have hsh : filepath.Shape rooted (List.replicate n [46, 46] ++ M) := ⟨n, M, rfl, hM, hr⟩
  have hx := namei_render fs rooted _ x hsh hn
  rw [← hs, List.foldl_append, foldl_walkStep_normal M _ hM] at hx
  by_cases h0 : M = []
  · subst h0
    have := namei_dots_dir fs rooted n x hr (by simpa using hn)
    rw [hl] at this
    simp at this
  · subst hx
    refine ⟨List.prefix_refl _, fun hp => ?_⟩
    have hlen := hp.length_le
    have hpos : 0 < M.length := List.length_pos.mpr h0
    simp only [List.length_append] at hlen
    omega

/-- On a cleaned path `os.MkdirAll` makes directories only on the way from
where its `..` elements lead to where the path leads. -/
theorem onlyAt_mkdirAll_render (rooted : Bool) (s : Key) (depth : Nat) :
    ∀ (fs : FS) (n : Nat) (M : List Bytes), (∀ x ∈ M, filepath.NormalElem x) →
      (rooted = true → n = 0) → (s = if rooted = true then [] else fs.cwd) →
      OnlyAt (fun k => k <+: (List.replicate n [46, 46]).foldl walkStep s ++ M
          ∧ ¬ k <+: (List.replicate n [46, 46]).foldl walkStep s) fs
        (mkdirAll fs depth (filepath.render rooted (List.replicate n [46, 46] ++ M))).1 := by
  induction depth with
  | zero =>
    intro fs n M hM hr hs
    unfold mkdirAll
    split
    · exact OnlyAt.refl _ _
    · exact OnlyAt.refl _ _
    · exact onlyAt_mkdirLast_render fs rooted n M s hM hr hs
  | succ depth ih =>
    intro fs n M hM hr hs
    have hlast := onlyAt_mkdirLast_render fs rooted n M s hM hr hs
    unfold mkdirAll
    split
    · exact OnlyAt.refl _ _
    · exact OnlyAt.refl _ _
    · split
      · exact hlast
      · rename_i hpar
        -- the parent is the cleaned path without its last element
        have key : ∃ n' M', (∀ x ∈ M', filepath.NormalElem x) ∧ (rooted = true → n' = 0)
            ∧ parentName (filepath.render rooted (List.replicate n [46, 46] ++ M))
                = filepath.render rooted (List.replicate n' [46, 46] ++ M')
            ∧ ∀ k, (k <+: (List.replicate n' [46, 46]).foldl walkStep s ++ M'
                ∧ ¬ k <+: (List.replicate n' [46, 46]).foldl walkStep s) →
              (k <+: (List.replicate n [46, 46]).foldl walkStep s ++ M
                ∧ ¬ k <+: (List.replicate n [46, 46]).foldl walkStep s) := by
          rcases List.eq_nil_or_concat M with hM0 | ⟨M0, c, hM0⟩
          · subst hM0
            cases n with
            | zero =>
              exfalso
              apply hpar
              cases rooted <;> decide
            | succ m =>
              have hsh : filepath.Shape rooted (List.replicate m [46, 46] ++ [[46, 46]]) :=
                ⟨m + 1, [], by simp [List.replicate_succ'], by simp, hr⟩
              have hp := parentName_render rooted (List.replicate m [46, 46]) [46, 46] hsh
              have hrm : rooted = true → m = 0 := fun h => by
                have := hr h
                omega
              refine ⟨m, [], by simp, hrm, ?_, ?_⟩
              · simp only [List.append_nil, List.replicate_succ']
                rw [hp]
                split
                · rename_i h0
                  exfalso
                  apply hpar
                  simp only [List.append_nil, List.replicate_succ']
                  rw [hp, if_pos h0]
                · rfl
              · rintro k ⟨h1, h2⟩
                exact absurd (by simpa using h1) h2
          · rw [List.concat_eq_append] at hM0
            subst hM0
            have hM0n : ∀ x ∈ M0, filepath.NormalElem x := fun x hx => hM x (by simp [hx])
            have hsh : filepath.Shape rooted ((List.replicate n [46, 46] ++ M0) ++ [c]) :=
              ⟨n, M0 ++ [c], by simp, by simpa using hM, hr⟩
            have hp := parentName_render rooted (List.replicate n [46, 46] ++ M0) c hsh
            refine ⟨n, M0, hM0n, hr, ?_, ?_⟩
            · rw [← List.append_assoc, hp]
              split
              · rename_i h0
                exfalso
                apply hpar
                rw [← List.append_assoc, hp, if_pos h0]
              · rfl
            · rintro k ⟨h1, h2⟩
              refine ⟨?_, h2⟩
              rw [← List.append_assoc]
              exact h1.trans (List.prefix_append _ _)
        obtain ⟨n', M', hM', hr', hpeq, hmono⟩ := key
        have hrec := (ih fs n' M' hM' hr' hs).mono hmono
        rw [← hpeq] at hrec
        rcases hx : mkdirAll fs depth
            (parentName (filepath.render rooted (List.replicate n [46, 46] ++ M)))
          with ⟨fs2, res⟩
        rw [hx] at hrec
        cases res with
        | error err => exact hrec
        | ok u =>
          simp only []
          exact hrec.trans
            (onlyAt_mkdirLast_render fs2 rooted n M s hM hr (by rw [hrec.1]; exact hs))

/-- On a cleaned path `os.MkdirAll` changes only locations at or above the
one the path leads to. -/
theorem onlyAt_MkdirAll (fs : FS) (rooted : Bool) (N : List Bytes)
    (h : filepath.Shape rooted N) :
    OnlyAt (fun x => x <+: N.foldl walkStep (if rooted = true then [] else fs.cwd)) fs
      (MkdirAll fs (filepath.render rooted N)).1 := by
  obtain ⟨n, M, rfl, hM, hr⟩ := h
  unfold MkdirAll
  refine (onlyAt_mkdirAll_render rooted _ _ fs n M hM hr rfl).mono ?_
  rintro k ⟨h1, _⟩
  rw [List.foldl_append, foldl_walkStep_normal M _ hM]
  exact h1

theorem find_filter_keep (nodes : List (Key × Node)) (p : Key × Node → Bool) (k : Key)
    (h : ∀ e, e.1 = k → p e = true) :
    (nodes.filter p).find? (fun e => decide (e.1 = k))
      = nodes.find? (fun e => decide (e.1 = k)) := by
  induction nodes with
  | nil => rfl
  | cons e es ih =>
    rw [List.filter_cons]
    by_cases he : e.1 = k
    · rw [h e he]
      simp only [if_true]
      rw [List.find?_cons, List.find?_cons]
      simp [he]
    · have hk : decide (e.1 = k) = false := by simp [he]
      cases hp : p e
      · simp only [Bool.false_eq_true, if_false]
        rw [List.find?_cons, hk]
        exact ih
      · simp only [if_true]
        rw [List.find?_cons, List.find?_cons, hk]
        exact ih

/-- `os.RemoveAll` changes only locations at or below the one its name leads to. -/
theorem onlyAt_RemoveAll (fs : FS) (p : Bytes) :
    OnlyAt (fun x => ∃ k, namei fs p = .ok k ∧ k <+: x) fs (removeAllIgnoringError fs p) := by
  unfold removeAllIgnoringError RemoveAll
  by_cases hp : p = []
  · simp only [hp, if_true]
    exact OnlyAt.refl _ _
  · simp only [hp, if_false]
    cases hd : endsWithDot p
    · simp only [Bool.false_eq_true, if_false]
      rcases hn : namei fs p with e | k
      · cases e <;> exact OnlyAt.refl _ _
      · simp only []
        refine ⟨rfl, fun x hx => ?_⟩
        unfold FS.lookup
        by_cases h0 : x = []
        · simp [h0]
        · simp only [h0, if_false]
          rw [find_filter_keep]
          intro e he
          have : ¬ k <+: x := fun hk => hx ⟨k, rfl, hk⟩
          simp [he, this]
    · simp only [if_true]
      exact OnlyAt.refl _ _

/-- A location at or below `kA` is not on the way to anything below `kE` when
neither of `kA` and `kE` is above the other. -/
theorem not_toward (kA kE k : Key) (h1 : ¬ kA <+: kE) (h2 : ¬ kE <+: kA) (hk : kA <+: k) :
    ¬ Toward kE k := by
  rintro ⟨F, hE, hF⟩
  rcases List.prefix_or_prefix_of_prefix (hk.trans hF) hE with h | h
  · exact h1 h
  · exact h2 h

/-- What an `os.Create` that returns a handle has done. -/
theorem Create_ok (fs fs2 : FS) (p : Bytes) (k : Key) (h : Create fs p = .ok (fs2, k)) :
    namei fs p = .ok k ∧ fs2 = fs.set k (.file []) := by
  unfold Create at h
  rcases hn : namei fs p with e | k'
  · simp [hn] at h
  · simp only [hn] at h
    rcases hl : fs.lookup k' with _ | n
    · rw [hl] at h
      cases hd : dirOnly p
      · simp only [hd, Bool.false_eq_true, if_false, Except.ok.injEq, Prod.mk.injEq] at h
        obtain ⟨rfl, rfl⟩ := h
        exact ⟨rfl, rfl⟩
      · simp [hd] at h
    · cases n with
      | dir =>
        rw [hl] at h
        simp at h
      | file c =>
        rw [hl] at h
        cases hd : dirOnly p
        · simp only [hd, Bool.false_eq_true, if_false, Except.ok.injEq, Prod.mk.injEq] at h
          obtain ⟨rfl, rfl⟩ := h
          exact ⟨rfl, rfl⟩
        · simp [hd] at h

end os

/-! ## zip.go: UnzipFile stays below its destination -/

theorem Clean_render (rooted : Bool) (N : List Bytes) (h : filepath.Shape rooted N) :
    filepath.Clean (filepath.render rooted N) = filepath.render rooted N := by
  rw [filepath.Clean_eq_render, filepath.render_rooted rooted N h,
    filepath.cleanElems_render rooted N h]

/-- A path that `extractZipFile` accepts: the destination followed by names. -/
theorem accepted_path (rooted : Bool) (X : List Bytes) (c name : Bytes)
    (hc : filepath.NormalElem c) (hs : filepath.Shape rooted (X ++ [c]))
    (hchk : (filepath.Clean (filepath.render rooted (X ++ [c])) ++ [47]).isPrefixOf
      (filepath.Join (filepath.render rooted (X ++ [c])) name) = true) :
    ∃ S last, (∀ y ∈ S, filepath.NormalElem y) ∧ filepath.NormalElem last
      ∧ filepath.Shape rooted (X ++ [c] ++ S)
      ∧ filepath.Join (filepath.render rooted (X ++ [c])) name
          = filepath.render rooted (X ++ [c] ++ S ++ [last]) := by
  obtain ⟨hj, hsf⟩ := filepath.Join_render rooted (X ++ [c]) hs name
  rw [Clean_render rooted _ hs, List.isPrefixOf_iff_prefix, hj] at hchk
  obtain ⟨S, hS, hSne⟩ := filepath.prefix_render rooted _ _ hs hsf (by simp) hchk
  rw [hS] at hsf hj
  have hnorm := filepath.shape_after_name rooted X S c hc hsf
  obtain ⟨S', last, rfl⟩ : ∃ S' last, S = S' ++ [last] := by
    rcases List.eq_nil_or_concat S with h | ⟨S', last, h⟩
    · exact absurd h hSne
    · exact ⟨S', last, by simpa using h⟩
  refine ⟨S', last, fun y hy => hnorm y (by simp [hy]), hnorm last (by simp), ?_, ?_⟩
  · rw [← List.append_assoc] at hsf
    exact filepath.shape_prefix rooted _ _ hsf
  · rw [hj]
    simp [List.append_assoc]

theorem onlyAt_extractZipFile (fs : os.FS) (file : ZipEntry) (rooted : Bool) (X : List Bytes)
    (c : Bytes) (kE : os.Key) (hc : filepath.NormalElem c)
    (hs : filepath.Shape rooted (X ++ [c]))
    (hkE : kE = (X ++ [c]).foldl os.walkStep (if rooted = true then [] else fs.cwd)) :
    os.OnlyAt (os.Toward kE) fs
      (extractZipFile fs file (filepath.render rooted (X ++ [c]))).1 := by
  unfold extractZipFile
  simp only []
  by_cases hchk : (filepath.Clean (filepath.render rooted (X ++ [c])) ++ [47]).isPrefixOf
      (filepath.Join (filepath.render rooted (X ++ [c])) file.name) = true
  · simp only [hchk, Bool.not_true, Bool.false_eq_true, if_false]
    obtain ⟨S, last, hS, hlast, hsS, hj⟩ := accepted_path rooted X c file.name hc hs hchk
    have hSl : ∀ y ∈ S ++ [last], filepath.NormalElem y := by
      intro x hx
      rcases List.mem_append.mp hx with hx | hx
      · exact hS x hx
      · simp only [List.mem_singleton] at hx
        subst hx
        exact hlast
    have hsF : filepath.Shape rooted (X ++ [c] ++ S ++ [last]) := by
      obtain ⟨n, M, hM1, hM2, hM3⟩ := hsS
      exact ⟨n, M ++ [last], by rw [hM1]; simp, fun x hx => by
        rcases List.mem_append.mp hx with hx | hx
        · exact hM2 x hx
        · simp only [List.mem_singleton] at hx
          subst hx
          exact hlast, hM3⟩
    -- the locations of the path and of its directory
    have hF : ∀ fs2 : os.FS, fs2.cwd = fs.cwd →
        (X ++ [c] ++ S ++ [last]).foldl os.walkStep (if rooted = true then [] else fs2.cwd)
          = kE ++ (S ++ [last]) := by
      intro fs2 hcwd
      rw [hcwd, List.append_assoc (X ++ [c]), List.foldl_append, ← hkE,
        os.foldl_walkStep_normal (S ++ [last]) _ hSl]
    have hD : (X ++ [c] ++ S).foldl os.walkStep (if rooted = true then [] else fs.cwd)
        = kE ++ S := by
      rw [List.foldl_append, ← hkE, os.foldl_walkStep_normal S _ hS]
    have toF : ∀ x : os.Key, x <+: kE ++ (S ++ [last]) → os.Toward kE x :=
      fun x hx => ⟨_, List.prefix_append _ _, hx⟩
    rw [hj, filepath.Dir_render rooted _ last hsS (by simp) hlast]
    by_cases hdir : file.isDir = true
    · -- a directory entry
      simp only [hdir, if_true]
      have h1 := os.onlyAt_MkdirAll fs rooted _ hsF
      rw [hF fs rfl] at h1
      have h1 := h1.mono toF
      rcases hmk : os.MkdirAll fs (filepath.render rooted (X ++ [c] ++ S ++ [last]))
        with ⟨fs2, r⟩
      rw [hmk] at h1
      cases r <;> exact h1
    · -- a file entry
      simp only [hdir, Bool.false_eq_true, if_false]
      have h1 := os.onlyAt_MkdirAll fs rooted _ hsS
      rw [hD] at h1
      have h1 := h1.mono
        (fun x hx => toF x (hx.trans (by
          rw [← List.append_assoc]
          exact List.prefix_append _ _)))
      rcases hmk : os.MkdirAll fs (filepath.render rooted (X ++ [c] ++ S)) with ⟨fs2, r⟩
      rw [hmk] at h1
      cases r with
      | error err => exact h1
      | ok u =>
        simp only []
        rcases hcr : os.Create fs2 (filepath.render rooted (X ++ [c] ++ S ++ [last]))
          with err | ⟨fs3, k⟩
        · exact h1
        · obtain ⟨hr, rfl⟩ := os.Create_ok _ _ _ _ hcr
          have hk := os.namei_render fs2 rooted _ k hsF hr
          rw [hF fs2 h1.1] at hk
          have h2 : os.OnlyAt (os.Toward kE) fs2
              (os.writeTo (fs2.set k (.file [])) k file.data) := by
            unfold os.writeTo
            refine ((os.onlyAt_set fs2 k _).trans (os.onlyAt_set _ k _)).mono ?_
            intro x hx
            subst hx
            rw [hk]
            exact toF _ (List.prefix_refl _)
          simp only []
          split
          · exact h1.trans h2
          · exact h1.trans h2
  · simp only [hchk, Bool.not_false, if_true]
    exact os.OnlyAt.refl _ _

theorem onlyAt_extractAll (files : List ZipEntry) (fs : os.FS) (rooted : Bool)
    (X : List Bytes) (c : Bytes) (kE : os.Key) (hc : filepath.NormalElem c)
    (hs : filepath.Shape rooted (X ++ [c]))
    (hkE : kE = (X ++ [c]).foldl os.walkStep (if rooted = true then [] else fs.cwd)) :
    os.OnlyAt (os.Toward kE) fs
      (extractAll fs (filepath.render rooted (X ++ [c])) files).1 := by
  induction files generalizing fs with
  | nil => exact os.OnlyAt.refl _ _
  | cons file rest ih =>
    unfold extractAll
    have h1 := onlyAt_extractZipFile fs file rooted X c kE hc hs hkE
    rcases hx : extractZipFile fs file (filepath.render rooted (X ++ [c])) with ⟨fs2, r⟩
    rw [hx] at h1
    cases r with
    | error err => exact h1
    | ok u => exact h1.trans (ih fs2 (by rw [h1.1]; exact hkE))

theorem onlyAt_UnzipFile (env : Env) (fs : os.FS) (zipPath : Bytes) (rooted : Bool)
    (X : List Bytes) (c : Bytes) (kE : os.Key) (hc : filepath.NormalElem c)
    (hs : filepath.Shape rooted (X ++ [c]))
    (hkE : kE = (X ++ [c]).foldl os.walkStep (if rooted = true then [] else fs.cwd)) :
    os.OnlyAt (os.Toward kE) fs
      (UnzipFile env fs zipPath (filepath.render rooted (X ++ [c]))).1 := by
  unfold UnzipFile
  rcases os.ReadFile fs zipPath with err | content
  · exact os.OnlyAt.refl _ _
  · simp only []
    rcases env.zipReader content with _ | files
    · exact os.OnlyAt.refl _ _
    · simp only []
      have h1 := os.onlyAt_MkdirAll fs rooted _ hs
      rw [← hkE] at h1
      have h1 := h1.mono (fun x hx => (⟨kE, List.prefix_refl _, hx⟩ : os.Toward kE x))
      rcases hmk : os.MkdirAll fs (filepath.render rooted (X ++ [c])) with ⟨fs2, r⟩
      rw [hmk] at h1
      cases r with
      | error err => exact h1
      | ok u =>
        exact h1.trans (onlyAt_extractAll files fs2 rooted X c kE hc hs (by rw [h1.1]; exact hkE))

/-- The extraction directory is a cleaned path that ends in the name `extracted`. -/
theorem extractPath_render (downloadPath : Bytes) :
    ∃ rooted X, filepath.Shape rooted (X ++ [str "extracted"])
      ∧ filepath.Join downloadPath (str "extracted")
          = filepath.render rooted (X ++ [str "extracted"]) := by
  have hn : filepath.NormalElem (str "extracted") := by
    refine ⟨by decide, by decide, by decide, by decide⟩
  have he : filepath.elems (str "extracted") = [str "extracted"] :=
    filepath.elems_of_no_slash _ hn.2.2.2
  unfold filepath.Join
  by_cases h0 : downloadPath = []
  · have hx : str "extracted" ≠ [] := hn.1
    simp only [h0, ne_eq, not_true_eq_false, if_false, hx, not_false_eq_true, if_true]
    refine ⟨false, [], ?_, ?_⟩
    · exact ⟨0, [str "extracted"], rfl, by simpa using hn, fun h => absurd h (by simp)⟩
    · rw [filepath.Clean_eq_render]
      have hflag : decide ((str "extracted").head? = some 47) = false := by decide
      rw [hflag]
      unfold filepath.cleanElems
      rw [hflag, he]
      simp [filepath.cleanStep_normal _ _ _ hn]
  · simp only [h0, ne_eq, not_false_eq_true, if_true]
    have hshape := filepath.shape_cleanElems (downloadPath ++ 47 :: str "extracted")
    have hce : filepath.cleanElems (downloadPath ++ 47 :: str "extracted")
        = (filepath.elems downloadPath).foldl
            (filepath.cleanStep
              (decide ((downloadPath ++ 47 :: str "extracted").head? = some 47))) []
          ++ [str "extracted"] := by
      unfold filepath.cleanElems
      rw [filepath.elems_append_slash, List.foldl_append, he]
      simp [filepath.cleanStep_normal _ _ _ hn]
    rw [hce] at hshape
    exact ⟨_, _, hshape, by rw [filepath.Clean_eq_render, hce]⟩

/-! ## applier.go: no bundle in the archive -/

/-- C9, as amended: when the preconditions hold, the archive extracts and the
extraction directory has no `.app` directory among its entries, `ApplyUpdate`
fails with the bundle-not-found error; and when neither of the installed
bundle path and the extraction directory lies at or below the other, every
location at or below the installed bundle path holds after the call what it
held before. -/
theorem ApplyUpdate_no_bundle (env : Env) (u : Updater) (w : World) (fs2 : os.FS)
    (entries : List os.DirEntry)
    (hval : u.validateForApply w.fs = .ok ())
    (hzip : UnzipFile env
        (removeAllIgnoringError w.fs (filepath.Join u.config.DownloadPath (str "extracted")))
        u.GetZipPath (filepath.Join u.config.DownloadPath (str "extracted")) = (fs2, .ok ()))
    (hlist : os.ReadDir fs2 (filepath.Join u.config.DownloadPath (str "extracted"))
      = .ok entries)
    (hnone : ∀ e ∈ entries, ¬ (e.isDir = true ∧ str ".app" <:+ e.name)) :
    u.ApplyUpdate env w
        = (⟨fs2, w.started⟩,
            .error (.bundleNotFound (filepath.Join u.config.DownloadPath (str "extracted"))))
    ∧ ∀ kA kE, os.namei w.fs u.config.AppPath = .ok kA →
        os.namei w.fs (filepath.Join u.config.DownloadPath (str "extracted")) = .ok kE →
        ¬ kA <+: kE → ¬ kE <+: kA →
        ∀ k, kA <+: k → fs2.lookup k = w.fs.lookup k := by
  constructor
  · simp [Updater.ApplyUpdate, hval, hzip, findAppBundle, hlist,
      findAppLoop_none _ entries hnone]
  · intro kA kE _ hE hAE hEA
    obtain ⟨rooted, X, hs, hj⟩ := extractPath_render u.config.DownloadPath
    have hn : filepath.NormalElem (str "extracted") := by
      refine ⟨by decide, by decide, by decide, by decide⟩
    rw [hj] at hzip hE
    have hkE : kE = (X ++ [str "extracted"]).foldl os.walkStep
        (if rooted = true then [] else w.fs.cwd) :=
      os.namei_render w.fs rooted _ kE hs hE
    have h1 : os.OnlyAt (os.Toward kE) w.fs
        (removeAllIgnoringError w.fs (filepath.render rooted (X ++ [str "extracted"]))) := by
      refine (os.onlyAt_RemoveAll w.fs _).mono ?_
      rintro x ⟨k, hk, hx⟩
      rw [hE] at hk
      simp only [Except.ok.injEq] at hk
      subst hk
      exact ⟨x, hx, List.prefix_refl _⟩
    have h2 := onlyAt_UnzipFile env
      (removeAllIgnoringError w.fs (filepath.render rooted (X ++ [str "extracted"])))
      u.GetZipPath rooted X (str "extracted") kE hn hs (by rw [h1.1]; exact hkE)
    rw [hzip] at h2
    intro k hk
    exact (h1.trans h2).2 k (os.not_toward kA kE k hAE hEA hk)

theorem ApplyUpdate_no_bundle_witness :
    Updater.ApplyUpdate archiveEnv sampleSession ⟨sampleInstalled, []⟩
        = (⟨(UnzipFile archiveEnv
              (removeAllIgnoringError sampleInstalled
                (filepath.Join sampleSession.config.DownloadPath (str "extracted")))
              sampleSession.GetZipPath
              (filepath.Join sampleSession.config.DownloadPath (str "extracted"))).1, []⟩,
            .error (.bundleNotFound
              (filepath.Join sampleSession.config.DownloadPath (str "extracted"))))
    ∧ ∀ k, [str "Applications", str "My.app"] <+: k →
        (UnzipFile archiveEnv
            (removeAllIgnoringError sampleInstalled
              (filepath.Join sampleSession.config.DownloadPath (str "extracted")))
            sampleSession.GetZipPath
            (filepath.Join sampleSession.config.DownloadPath (str "extracted"))).1.lookup k
          = sampleInstalled.lookup k :=
  ⟨(ApplyUpdate_no_bundle archiveEnv sampleSession ⟨sampleInstalled, []⟩ _
      [⟨str "readme.txt", false⟩] (by decide) (by decide) (by decide) (by decide)).1,
   (ApplyUpdate_no_bundle archiveEnv sampleSession ⟨sampleInstalled, []⟩ _
      [⟨str "readme.txt", false⟩] (by decide) (by decide) (by decide) (by decide)).2
      [str "Applications", str "My.app"] [str "dl", str "extracted"]
      (by decide) (by decide) (by decide) (by decide)⟩

/-- C9 as stated fails: with the installed bundle at `/dl/extracted/Old.app`
the preconditions hold, the archive extracts without any `.app` directory and
`ApplyUpdate` fails with the bundle-not-found error, but the bundle, which was
there before the call, is gone after it. -/
theorem ApplyUpdate_no_bundle_counterexample :
    Updater.validateForApply ⟨sampleConfig (str "1.0.0") (str "/dl/extracted/Old.app"), none⟩
        sampleInside = .ok ()
    ∧ os.ReadFile sampleInside (str "/dl/app.zip") = .ok readmeArchive
    ∧ os.ReadDir
        (Updater.ApplyUpdate archiveEnv
          ⟨sampleConfig (str "1.0.0") (str "/dl/extracted/Old.app"), none⟩
          ⟨sampleInside, []⟩).1.fs (str "/dl/extracted") = .ok [⟨str "readme.txt", false⟩]
    ∧ (Updater.ApplyUpdate archiveEnv
          ⟨sampleConfig (str "1.0.0") (str "/dl/extracted/Old.app"), none⟩
          ⟨sampleInside, []⟩).2 = .error (.bundleNotFound (str "/dl/extracted"))
    ∧ os.Stat sampleInside (str "/dl/extracted/Old.app") = .ok .dir
    ∧ os.Stat sampleInside (str "/dl/extracted/Old.app/run") = .ok (.file [1])
    ∧ os.Stat (Updater.ApplyUpdate archiveEnv
          ⟨sampleConfig (str "1.0.0") (str "/dl/extracted/Old.app"), none⟩
          ⟨sampleInside, []⟩).1.fs
        (str "/dl/extracted/Old.app") = .error .ENOENT := by
  decide


/-! ## updater.go: New -/

theorem Clean_rooted (p : Bytes) (h : p.head? = some 47) : (filepath.Clean p).head? = some 47 := by
  have h0 : p ≠ [] := by
    intro e
    rw [e] at h
    simp at h
  simp [filepath.Clean, h0, h]

/-- Joining onto an absolute path gives an absolute path. -/
theorem Join_rooted (a b : Bytes) (h : a.head? = some 47) :
    (filepath.Join a b).head? = some 47 := by
  have h0 : a ≠ [] := by
    intro e
    rw [e] at h
    simp at h
  unfold filepath.Join
  simp only [h0, ne_eq, not_false_eq_true, if_true]
  apply Clean_rooted
  rw [filepath.head?_append_of_ne_nil _ _ h0]
  exact h

/-- C12, as amended: `New` replaces a leading `~/` of the download path by the
home directory when `os.UserHomeDir` succeeds, and the result is then absolute
if the home directory is; in every other case the download path is held as
given. -/
theorem New_DownloadPath (env : Env) (config : Config) :
    (New env config).config.DownloadPath =
        (if str "~/" <+: config.DownloadPath then
          match env.userHomeDir with
          | some home => filepath.Join home (config.DownloadPath.drop 2)
          | none => config.DownloadPath
        else config.DownloadPath)
    ∧ (∀ home, str "~/" <+: config.DownloadPath → env.userHomeDir = some home →
        home.head? = some 47 → (New env config).config.DownloadPath.head? = some 47) := by
  have key : (New env config).config.DownloadPath =
      (if str "~/" <+: config.DownloadPath then
        match env.userHomeDir with
        | some home => filepath.Join home (config.DownloadPath.drop 2)
        | none => config.DownloadPath
      else config.DownloadPath) := by
    unfold New
    by_cases hp : str "~/" <+: config.DownloadPath
    · have hp' : (str "~/").isPrefixOf config.DownloadPath = true := by
        rw [List.isPrefixOf_iff_prefix]; exact hp
      rcases hh : env.userHomeDir with _ | home
      · simp only [hp', if_true, hh, hp]
        split <;> rfl
      · simp only [hp', if_true, hh, hp]
        split <;> rfl
    · have hp' : (str "~/").isPrefixOf config.DownloadPath = false := by
        rw [Bool.eq_false_iff, ne_eq, List.isPrefixOf_iff_prefix]; exact hp
      simp only [hp', Bool.false_eq_true, if_false, hp]
      split <;> rfl
  refine ⟨key, ?_⟩
  intro home hp hh hr
  rw [key]
  simp only [hp, if_true, hh]
  exact Join_rooted home _ hr

/-- C12 as stated fails: a relative download path without `~/` is held as it
is, and `~/` stays when the home directory is not known. -/
theorem New_DownloadPath_counterexample :
    (New (sampleEnv .failed none none)
        { sampleConfig [] [] with DownloadPath := str "updates" }).config.DownloadPath
      = str "updates"
    ∧ (str "updates").head? ≠ some 47
    ∧ (New { sampleEnv .failed none none with userHomeDir := none }
        { sampleConfig [] [] with DownloadPath := str "~/updates" }).config.DownloadPath
      = str "~/updates" := by
  decide

theorem New_DownloadPath_witness :
    (New (sampleEnv .failed none none)
        { sampleConfig [] [] with DownloadPath := str "~/Library/Caches/app/" }).config.DownloadPath
      = str "/Users/ana/Library/Caches/app"
    ∧ (New (sampleEnv .failed none none)
        { sampleConfig [] [] with DownloadPath := str "~/Library/Caches/app/" }
        ).config.DownloadPath.head? = some 47 :=
  ⟨(New_DownloadPath (sampleEnv .failed none none)
      { sampleConfig [] [] with DownloadPath := str "~/Library/Caches/app/" }).1.trans
      (by decide),
   (New_DownloadPath (sampleEnv .failed none none)
      { sampleConfig [] [] with DownloadPath := str "~/Library/Caches/app/" }).2
      (str "/Users/ana") (by decide) rfl (by decide)⟩

theorem CheckForUpdate_congr (env env2 : Env) (u : Updater)
    (h1 : env2.goarch = env.goarch) (h3 : env2.jsonUnmarshal = env.jsonUnmarshal)
    (h2 : env2.httpGet (u.config.SourceURL ++ str "darwin-" ++ env.goarch ++ str ".json")
      = env.httpGet (u.config.SourceURL ++ str "darwin-" ++ env.goarch ++ str ".json")) :
    u.CheckForUpdate env2 = u.CheckForUpdate env := by
  unfold Updater.CheckForUpdate
  simp only [h1, h2, h3]

theorem CheckForUpdate_config (env : Env) (u : Updater) :
    (u.CheckForUpdate env).1.config = u.config := by
  unfold Updater.CheckForUpdate
  simp only []
  split
  · rfl
  · split
    · rfl
    · split
      · rfl
      · split
        · rfl
        · split <;> rfl

theorem downloadFile_congr (env env2 : Env) (fs : os.FS) (url p : Bytes)
    (h : env2.httpGet url = env.httpGet url) :
    downloadFile env2 fs url p = downloadFile env fs url p := by
  unfold downloadFile
  simp only [h]

theorem DownloadUpdate_congr (env env2 : Env) (u : Updater) (fs : os.FS)
    (h1 : env2.goarch = env.goarch) (h3 : env2.jsonUnmarshal = env.jsonUnmarshal)
    (h4 : env2.sha256 = env.sha256) (h6 : env2.removeRefused = env.removeRefused)
    (h2 : env2.httpGet (u.config.SourceURL ++ str "darwin-" ++ env.goarch ++ str ".json")
      = env.httpGet (u.config.SourceURL ++ str "darwin-" ++ env.goarch ++ str ".json"))
    (h5 : env2.httpGet (u.config.SourceURL ++ u.config.ZipFileName)
      = env.httpGet (u.config.SourceURL ++ u.config.ZipFileName)) :
    u.DownloadUpdate env2 fs = u.DownloadUpdate env fs := by
  have hcfg := CheckForUpdate_config env u
  unfold Updater.DownloadUpdate
  rw [CheckForUpdate_congr env env2 u h1 h3 h2]
  by_cases hm : u.manifest = none
  · simp only [hm, if_true]
    rcases hc : u.CheckForUpdate env with ⟨u2, r⟩
    rw [hc] at hcfg
    simp only at hcfg
    cases r with
    | error e => rfl
    | ok v =>
      obtain ⟨hasUpdate, nv⟩ := v
      cases hasUpdate
      · rfl
      · simp only [Bool.not_true, Bool.false_eq_true, if_false, hcfg,
          Updater.ensureDownloadPath]
        rcases os.MkdirAll fs u.config.DownloadPath with ⟨fs1, r1⟩
        cases r1 with
        | error e => rfl
        | ok _ =>
          simp only [downloadFile_congr env env2 _ _ _ h5, VerifyChecksum, CalculateSHA256, h4,
            removeIgnoringError, h6]
  · simp only [hm, if_false, Updater.ensureDownloadPath]
    rcases os.MkdirAll fs u.config.DownloadPath with ⟨fs1, r1⟩
    cases r1 with
    | error e => rfl
    | ok _ =>
      simp only [downloadFile_congr env env2 _ _ _ h5, VerifyChecksum, CalculateSHA256, h4,
            removeIgnoringError, h6]

theorem DownloadUpdate_config (env : Env) (u : Updater) (fs : os.FS) :
    (u.DownloadUpdate env fs).1.config = u.config := by
  have hcfg := CheckForUpdate_config env u
  unfold Updater.DownloadUpdate
  by_cases hm : u.manifest = none
  · simp only [hm, if_true]
    rcases hc : u.CheckForUpdate env with ⟨u2, r⟩
    rw [hc] at hcfg
    simp only at hcfg
    cases r with
    | error e => exact hcfg
    | ok v =>
      obtain ⟨hasUpdate, nv⟩ := v
      cases hasUpdate
      · exact hcfg
      · simp only [Bool.not_true, Bool.false_eq_true, if_false]
        split
        · exact hcfg
        · split
          · exact hcfg
          · split
            · exact hcfg
            · split
              · exact hcfg
              · split <;> exact hcfg
  · simp only [hm, if_false]
    split
    · rfl
    · split
      · rfl
      · split
        · rfl
        · split
          · rfl
          · split <;> rfl

/-- C13: the base URL held by `New` ends in `/`: the given one when it already
does, the given one followed by one `/` otherwise. `CheckForUpdate` and
`DownloadUpdate` return the session with the configuration they were given;
the only request `CheckForUpdate` makes is for the base URL followed by
`darwin-<arch>.json`, and the only other request `DownloadUpdate` makes is for
the base URL followed by `ZipFileName`. -/
theorem New_SourceURL (env : Env) (config : Config) (u : Updater) (fs : os.FS) :
    (New env config).config.SourceURL =
        (if str "/" <:+ config.SourceURL then config.SourceURL
         else config.SourceURL ++ str "/")
    ∧ str "/" <:+ (New env config).config.SourceURL
    ∧ (u.CheckForUpdate env).1.config = u.config
    ∧ (u.DownloadUpdate env fs).1.config = u.config
    ∧ u.CheckForUpdate env =
        u.CheckForUpdate { env with httpGet := fun url =>
          if url = u.config.SourceURL ++ str "darwin-" ++ env.goarch ++ str ".json"
          then (env.httpGet url) else HttpResult.failed }
    ∧ u.DownloadUpdate env fs =
        u.DownloadUpdate { env with httpGet := fun url =>
          if url = u.config.SourceURL ++ str "darwin-" ++ env.goarch ++ str ".json"
              ∨ url = u.config.SourceURL ++ u.config.ZipFileName
          then (env.httpGet url) else HttpResult.failed } fs := by
  have key : (New env config).config.SourceURL =
      (if str "/" <:+ config.SourceURL then config.SourceURL
       else config.SourceURL ++ str "/") := by
    by_cases hs : str "/" <:+ config.SourceURL
    · have hs2 : (str "/").isSuffixOf config.SourceURL = true := by
        rw [List.isSuffixOf_iff_suffix]; exact hs
      cases hp : (str "~/").isPrefixOf config.DownloadPath <;>
        rcases hh : env.userHomeDir with _ | home <;> simp [New, hp, hh, hs2, hs]
    · have hs2 : (str "/").isSuffixOf config.SourceURL = false := by
        rw [Bool.eq_false_iff, ne_eq, List.isSuffixOf_iff_suffix]; exact hs
      cases hp : (str "~/").isPrefixOf config.DownloadPath <;>
        rcases hh : env.userHomeDir with _ | home <;> simp [New, hp, hh, hs2, hs]
  refine ⟨key, ?_, CheckForUpdate_config env u, DownloadUpdate_config env u fs, ?_, ?_⟩
  · rw [key]
    split
    · assumption
    · exact List.suffix_append _ _
  · apply Eq.symm
    apply CheckForUpdate_congr
    · rfl
    · rfl
    · simp
  · apply Eq.symm
    apply DownloadUpdate_congr
    · rfl
    · rfl
    · rfl
    · rfl
    · simp
    · simp

/-! ## checker.go: the manifest kept on the session -/

/-- C14: after a `CheckForUpdate` whose fetch answers 200 with a body that
parses to `m`, the session holds `m` as its manifest, whatever it held before
and whatever the comparison of versions says; its configuration is the one it
had, and `GetManifest` returns `m`. -/
theorem CheckForUpdate_manifest (env : Env) (u : Updater) (body : Bytes) (m : Manifest)
    (hget : env.httpGet (u.config.SourceURL ++ str "darwin-" ++ env.goarch ++ str ".json")
      = .response 200 body true)
    (hjson : env.jsonUnmarshal body = some m) :
    (u.CheckForUpdate env).1 = { u with manifest := some m }
    ∧ (u.CheckForUpdate env).1.manifest = some m
    ∧ (u.CheckForUpdate env).1.config = u.config
    ∧ (u.CheckForUpdate env).1.GetManifest = some m := by
  rw [CheckForUpdate_fetched env u body m hget hjson]
  exact ⟨rfl, rfl, rfl, rfl⟩

theorem CheckForUpdate_manifest_witness :
    (sampleSession.CheckForUpdate
        (sampleEnv (.response 200 [] true) (some ⟨str "1.0.0", str "ab"⟩) none)).2
      = .ok (false, [])
    ∧ (sampleSession.CheckForUpdate
        (sampleEnv (.response 200 [] true) (some ⟨str "1.0.0", str "ab"⟩) none)).1.GetManifest
      = some ⟨str "1.0.0", str "ab"⟩
    ∧ (sampleSession.CheckForUpdate
        (sampleEnv (.response 200 [] true) (some ⟨str "1.0.0", str "ab"⟩) none)).1.config
      = sampleSession.config :=
  ⟨by decide,
   (CheckForUpdate_manifest
      (sampleEnv (.response 200 [] true) (some ⟨str "1.0.0", str "ab"⟩) none)
      sampleSession [] ⟨str "1.0.0", str "ab"⟩ rfl rfl).2.2.2,
   (CheckForUpdate_manifest
      (sampleEnv (.response 200 [] true) (some ⟨str "1.0.0", str "ab"⟩) none)
      sampleSession [] ⟨str "1.0.0", str "ab"⟩ rfl rfl).2.2.1⟩

/-! ## script.go: the swap procedure and its rollback -/

namespace os

theorem prefix_append_drop (a k : Key) (h : a <+: k) : a ++ k.drop a.length = k := by
  obtain ⟨t, rfl⟩ := h
  simp

theorem not_prefix_append (ks kd r : Key) (h1 : ¬ ks <+: kd) (h2 : ¬ kd <+: ks) :
    ¬ kd <+: ks ++ r := by
  intro h
  rcases List.prefix_or_prefix_of_prefix h (List.prefix_append ks r) with h | h
  · exact h2 h
  · exact h1 h

/-- What is found at `k` after a move between incomparable locations. -/
theorem find_move (nodes : List (Key × Node)) (ks kd k : Key)
    (h1 : ¬ ks <+: kd) (h2 : ¬ kd <+: ks) :
    (((nodes.filter (fun e => !decide (kd <+: e.1))).map (rekey ks kd)).find?
        (fun e => decide (e.1 = k))).map (fun e => e.2)
      = if kd <+: k then
          (nodes.find? (fun e => decide (e.1 = ks ++ k.drop kd.length))).map (fun e => e.2)
        else if ks <+: k then none
        else (nodes.find? (fun e => decide (e.1 = k))).map (fun e => e.2) := by
  induction nodes with
  | nil => simp
  | cons e es ih =>
    by_cases hkd : kd <+: e.1
    · have hf : (!decide (kd <+: e.1)) = false := by simp [hkd]
      rw [List.filter_cons, hf]
      simp only [Bool.false_eq_true, if_false]
      rw [ih]
      have hne : ∀ r, decide (e.1 = ks ++ r) = false := by
        intro r
        simp only [decide_eq_false_iff_not]
        intro he
        exact not_prefix_append ks kd r h1 h2 (he ▸ hkd)
      by_cases hk : kd <+: k
      · simp only [hk, if_true, List.find?_cons, hne]
      · by_cases hk2 : ks <+: k
        · simp only [hk, hk2, if_true, if_false]
        · have hnk : decide (e.1 = k) = false := by
            simp only [decide_eq_false_iff_not]
            intro he
            exact hk (he ▸ hkd)
          simp only [hk, hk2, if_false, List.find?_cons, hnk]
    · have hf : (!decide (kd <+: e.1)) = true := by simp [hkd]
      rw [List.filter_cons, hf]
      simp only [if_true, List.map_cons, List.find?_cons]
      by_cases hks : ks <+: e.1
      · have hr : rekey ks kd e = (kd ++ e.1.drop ks.length, e.2) := by simp [rekey, hks]
        rw [hr]
        by_cases hk : kd <+: k
        · simp only [hk, if_true]
          by_cases he : e.1 = ks ++ k.drop kd.length
          · have h3 : kd ++ e.1.drop ks.length = k := by
              rw [he]
              simp only [List.drop_left]
              exact prefix_append_drop kd k hk
            have d1 : decide (kd ++ e.1.drop ks.length = k) = true := by simp [h3]
            have d2 : decide (e.1 = ks ++ k.drop kd.length) = true := decide_eq_true he
            simp only [d1, d2, Option.map]
          · have h3 : ¬ kd ++ e.1.drop ks.length = k := by
              intro h3
              apply he
              rw [← h3]
              simp only [List.drop_left]
              exact (prefix_append_drop ks e.1 hks).symm
            simp only [h3, he, decide_False]
            simpa [hk] using ih
        · have h3 : ¬ kd ++ e.1.drop ks.length = k := by
            intro h3
            exact hk (h3 ▸ List.prefix_append _ _)
          simp only [h3, decide_False]
          rw [ih]
          by_cases hk2 : ks <+: k
          · simp only [hk, hk2, if_true, if_false]
          · have hnk : decide (e.1 = k) = false := by
              simp only [decide_eq_false_iff_not]
              intro he
              exact hk2 (he ▸ hks)
            simp only [hk, hk2, if_false, hnk]
      · have hr : rekey ks kd e = e := by simp [rekey, hks]
        rw [hr]
        by_cases hk : kd <+: k
        · have hne : decide (e.1 = k) = false := by
            simp only [decide_eq_false_iff_not]
            intro he
            exact hkd (he ▸ hk)
          have hne2 : decide (e.1 = ks ++ k.drop kd.length) = false := by
            simp only [decide_eq_false_iff_not]
            intro he
            exact hks (he ▸ List.prefix_append _ _)
          simp only [hk, if_true, hne, hne2]
          simpa [hk] using ih
        · by_cases hk2 : ks <+: k
          · have hne : decide (e.1 = k) = false := by
              simp only [decide_eq_false_iff_not]
              intro he
              exact hks (he ▸ hk2)
            simp only [hk, hk2, if_true, if_false, hne]
            simp only [hk, hk2, if_true, if_false] at ih
            exact ih
          · simp only [hk, hk2, if_false]
            simp only [hk, hk2, if_false] at ih
            rcases hd : decide (e.1 = k)
            · exact ih
            · rfl

/-- The node at a location after a move between incomparable locations. -/
theorem lookup_move (fs : FS) (ks kd k : Key) (h1 : ¬ ks <+: kd) (h2 : ¬ kd <+: ks) :
    (fs.move ks kd).lookup k
      = if kd <+: k then fs.lookup (ks ++ k.drop kd.length)
        else if ks <+: k then none
        else fs.lookup k := by
  have hks : ks ≠ [] := fun h => h1 (h ▸ List.nil_prefix)
  have hkd : kd ≠ [] := fun h => h2 (h ▸ List.nil_prefix)
  unfold FS.lookup FS.move
  by_cases hk : k = []
  · subst hk
    simp [hks, hkd]
  · simp only [hk, if_false]
    rw [find_move _ _ _ _ h1 h2]
    by_cases hp : kd <+: k
    · have : ks ++ k.drop kd.length ≠ [] := by simp [hks]
      simp [hp, this]
    · simp [hp]

theorem move_cwd (fs : FS) (ks kd : Key) : (fs.move ks kd).cwd = fs.cwd := rfl

/-- Moving a tree to a free location and back leaves every location as it was. -/
theorem lookup_move_back (fs : FS) (ks kd k : Key) (h1 : ¬ ks <+: kd) (h2 : ¬ kd <+: ks)
    (hfree : ∀ a, kd <+: a → fs.lookup a = none) :
    ((fs.move ks kd).move kd ks).lookup k = fs.lookup k := by
  rw [lookup_move _ kd ks k h2 h1]
  by_cases hs : ks <+: k
  · simp only [hs, if_true]
    rw [lookup_move fs ks kd _ h1 h2]
    simp only [List.prefix_append, if_true, List.drop_left]
    rw [prefix_append_drop ks k hs]
  · simp only [hs, if_false]
    by_cases hd : kd <+: k
    · simp only [hd, if_true]
      exact (hfree k hd).symm
    · simp only [hd, if_false]
      rw [lookup_move fs ks kd _ h1 h2]
      simp [hs, hd]

/-- What a `rename(2)` that succeeds has done. -/
theorem Rename_ok (fs fs2 : FS) (src dst : Bytes) (h : Rename fs src dst = .ok fs2) :
    ∃ ks kd, namei fs src = .ok ks ∧ namei fs dst = .ok kd ∧ fs.lookup ks ≠ none
      ∧ (ks = kd ∨ fs2 = fs.move ks kd) := by
  unfold Rename at h
  rcases hs : namei fs src with e | ks
  · simp [hs] at h
  · simp only [hs] at h
    rcases hl : fs.lookup ks with _ | node
    · simp [hl] at h
    · simp only [hl] at h
      rcases hd : namei fs dst with e | kd
      · simp [hd] at h
      · simp only [hd] at h
        refine ⟨ks, kd, rfl, rfl, by simp [hl], ?_⟩
        by_cases he : ks = kd
        · exact Or.inl he
        · right
          by_cases hdot : (lastDot src || lastDot dst) = true
          · simp [hdot] at h
          · by_cases h0 : ks = []
            · simp [hdot, h0] at h
            · by_cases hp : ks <+: kd
              · simp [hdot, h0, he, hp] at h
              · simp only [hdot, h0, he, hp, if_false, Bool.false_eq_true] at h
                rcases hk : fs.lookup kd with _ | nd
                · simp only [hk, Except.ok.injEq] at h
                  exact h.symm
                · cases nd with
                  | file c2 =>
                    cases node with
                    | file c1 =>
                      simp only [hk, Except.ok.injEq] at h
                      exact h.symm
                    | dir => simp [hk] at h
                  | dir =>
                    cases node with
                    | file c1 => simp [hk] at h
                    | dir =>
                      simp only [hk] at h
                      split at h
                      · simp at h
                      · simp only [Except.ok.injEq] at h
                        exact h.symm

end os

namespace script

theorem isDir_of_lookup (fs : os.FS) (p : Bytes) (k : os.Key) (n : Option os.Node)
    (h : os.namei fs p = .ok k) (hl : fs.lookup k = n) :
    isDir fs p = decide (n = some .dir) := by
  subst hl
  unfold isDir os.Stat
  rw [h]
  rcases hn : fs.lookup k with _ | n
  · simp [hn]
  · cases n with
    | dir => simp [hn]
    | file c => cases hd : os.dirOnly p <;> simp [hn, hd]

/-- A name that `[ -d ]` accepts leads to a directory. -/
theorem isDir_true (fs : os.FS) (p : Bytes) (h : isDir fs p = true) :
    ∃ k, os.namei fs p = .ok k ∧ fs.lookup k = some .dir := by
  unfold isDir os.Stat at h
  rcases hn : os.namei fs p with e | k
  · simp [hn] at h
  · simp only [hn] at h
    rcases hl : fs.lookup k with _ | n
    · simp [hl] at h
    · cases n with
      | dir => exact ⟨k, rfl, hl⟩
      | file c => cases hd : os.dirOnly p <;> simp [hl, hd] at h

/-- A `mv` onto a name that is not a directory, when it succeeds, is the move
between the locations of the two names. -/
theorem mv_ok (fs fs2 : os.FS) (src dst : Bytes) (ks kd : os.Key)
    (hs : os.namei fs src = .ok ks) (hd : os.namei fs dst = .ok kd) (hne : ks ≠ kd)
    (hnd : isDir fs dst = false) (h : mv fs src dst = .ok fs2) :
    fs2 = fs.move ks kd := by
  unfold mv at h
  simp only [hnd, Bool.false_eq_true, if_false] at h
  obtain ⟨ks', kd', hs', hd', _, hr⟩ := os.Rename_ok fs fs2 src dst h
  rw [hs] at hs'
  rw [hd] at hd'
  simp only [Except.ok.injEq] at hs' hd'
  subst hs' hd'
  rcases hr with hr | hr
  · exact absurd hr hne
  · exact hr

theorem rollback_no_backup (r : Run) (p : Paths) (fs : os.FS)
    (h : isDir fs p.oldAppBackup = false) : rollback r p fs = (fs, 1) := by
  unfold rollback
  rw [h]
  split <;> rfl

/-- Commands that leave the files alone, up to the first that does not end
with status zero. -/
theorem runSteps_neutral (r : Run) (p : Paths) (steps rest : List (os.FS → Outcome))
    (fs : os.FS) (hrb : rollback r p fs = (fs, 1))
    (hn : ∀ s ∈ steps, s fs = .next fs ∨ s fs = .fail fs ∨ s fs = .exit fs 1) :
    ((∀ s ∈ steps, s fs = .next fs) ∧ runSteps r p (steps ++ rest) fs = runSteps r p rest fs)
    ∨ ((∃ s ∈ steps, s fs ≠ .next fs) ∧ runSteps r p (steps ++ rest) fs = (fs, 1)) := by
  induction steps with
  | nil => left; simp
  | cons s ss ih =>
    rcases hn s (by simp) with h | h | h
    · rcases ih (fun t ht => hn t (by simp [ht])) with ⟨ha, hr⟩ | ⟨he, hr⟩
      · left
        refine ⟨?_, ?_⟩
        · intro t ht
          rcases List.mem_cons.mp ht with rfl | ht
          · exact h
          · exact ha t ht
        · simp only [List.cons_append, runSteps, h]
          exact hr
      · right
        obtain ⟨t, ht, hne⟩ := he
        refine ⟨⟨t, by simp [ht], hne⟩, ?_⟩
        simp only [List.cons_append, runSteps, h]
        exact hr
    · right
      refine ⟨⟨s, by simp, by simp [h]⟩, ?_⟩
      simp only [List.cons_append, runSteps, h]
      exact hrb
    · right
      refine ⟨⟨s, by simp, by simp [h]⟩, ?_⟩
      simp only [List.cons_append, runSteps, h]

theorem waitLoop_cases (r : Run) (fs : os.FS) (n i : Nat) :
    (waitLoop r fs i n = .next fs ∧ ∀ j, j < n → r.fails (.sleepPoll (i + j)) = false)
    ∨ (waitLoop r fs i n = .fail fs ∧ ∃ j, j < n ∧ r.fails (.sleepPoll (i + j)) = true) := by
  induction n generalizing i with
  | zero => left; simp [waitLoop]
  | succ n ih =>
    unfold waitLoop
    rcases hf : r.fails (.sleepPoll i) with _ | _
    · simp only [Bool.false_eq_true, if_false]
      rcases ih (i + 1) with ⟨h, ha⟩ | ⟨h, j, hj, hb⟩
      · left
        refine ⟨h, ?_⟩
        intro j hj
        rcases j with _ | j
        · simpa using hf
        · have := ha j (by omega)
          rw [show i + (j + 1) = i + 1 + j by omega]
          exact this
      · right
        refine ⟨h, j + 1, by omega, ?_⟩
        rw [show i + (j + 1) = i + 1 + j by omega]
        exact hb
    · right
      simp only [if_true]
      exact ⟨trivial, 0, by omega, by simpa using hf⟩

/-- The commands before the swap leave the files alone. -/
theorem beforeSwap_neutral (r : Run) (p : Paths) (fs : os.FS) :
    ∀ s ∈ beforeSwap r p, s fs = .next fs ∨ s fs = .fail fs ∨ s fs = .exit fs 1 := by
  intro s hs
  simp only [beforeSwap, List.mem_cons, List.mem_singleton, List.not_mem_nil, or_false] at hs
  have hlog : ∀ n, logLine r n fs = .next fs ∨ logLine r n fs = .fail fs
      ∨ logLine r n fs = .exit fs 1 := by
    intro n
    unfold logLine
    split
    · right; right; rfl
    · left; rfl
  rcases hs with rfl | rfl | rfl | rfl | rfl | rfl | rfl | rfl | rfl | rfl | rfl | rfl | rfl
  · exact hlog 1
  · exact hlog 2
  · exact hlog 3
  · exact hlog 4
  · exact hlog 5
  · rcases waitLoop_cases r fs r.polls 0 with ⟨h, _⟩ | ⟨h, _⟩
    · left; exact h
    · right; left; exact h
  · exact hlog 6
  · unfold plain
    split
    · right; left; rfl
    · left; rfl
  · exact hlog 7
  · left; rfl
  · exact hlog 8
  · unfold checkNew
    split
    · right; right; rfl
    · left; rfl
  · exact hlog 10

/-- When every command before the swap ends with status zero. -/
theorem beforeSwap_next (r : Run) (p : Paths) (fs : os.FS)
    (h : ∀ s ∈ beforeSwap r p, s fs = .next fs) :
    (∀ n ∈ [1, 2, 3, 4, 5, 6, 7, 8, 10], r.fails (.log n) = false)
    ∧ (∀ i, i < r.polls → r.fails (.sleepPoll i) = false)
    ∧ r.fails .sleepSettle = false ∧ isDir fs p.newAppPath = true := by
  have hlog : ∀ n, logLine r n ∈ beforeSwap r p → r.fails (.log n) = false := by
    intro n hn
    have := h _ hn
    unfold logLine at this
    rcases hf : r.fails (.log n) with _ | _
    · rfl
    · simp [hf] at this
  refine ⟨?_, ?_, ?_, ?_⟩
  · intro n hn
    apply hlog
    simp only [List.mem_cons, List.mem_singleton, List.not_mem_nil, or_false] at hn
    rcases hn with rfl | rfl | rfl | rfl | rfl | rfl | rfl | rfl | rfl <;> simp [beforeSwap]
  · have := h (fun fs => waitLoop r fs 0 r.polls) (by simp [beforeSwap])
    rcases waitLoop_cases r fs r.polls 0 with ⟨_, ha⟩ | ⟨hb, _⟩
    · intro i hi
      simpa using ha i hi
    · have h2 : waitLoop r fs 0 r.polls = .next fs := this
      rw [hb] at h2
      simp at h2
  · have := h (plain r .sleepSettle) (by simp [beforeSwap])
    unfold plain at this
    rcases hf : r.fails .sleepSettle with _ | _
    · rfl
    · simp [hf] at this
  · have := h (checkNew p) (by simp [beforeSwap])
    unfold checkNew at this
    rcases hf : isDir fs p.newAppPath with _ | _
    · simp [hf] at this
    · rfl

/-- The commands before the swap all end with status zero when none of them
is made to fail and the new bundle is there. -/
theorem beforeSwap_all_next (r : Run) (p : Paths) (fs : os.FS)
    (hlog : ∀ n ∈ [1, 2, 3, 4, 5, 6, 7, 8, 10], r.fails (.log n) = false)
    (hpoll : ∀ i, i < r.polls → r.fails (.sleepPoll i) = false)
    (hsettle : r.fails .sleepSettle = false) (hnew : isDir fs p.newAppPath = true) :
    ∀ s ∈ beforeSwap r p, s fs = .next fs := by
  intro s hs
  simp only [beforeSwap, List.mem_cons, List.mem_singleton, List.not_mem_nil, or_false] at hs
  have hl : ∀ n ∈ [1, 2, 3, 4, 5, 6, 7, 8, 10], logLine r n fs = .next fs := by
    intro n hn
    simp [logLine, hlog n hn]
  rcases hs with rfl | rfl | rfl | rfl | rfl | rfl | rfl | rfl | rfl | rfl | rfl | rfl | rfl
  · exact hl 1 (by simp)
  · exact hl 2 (by simp)
  · exact hl 3 (by simp)
  · exact hl 4 (by simp)
  · exact hl 5 (by simp)
  · rcases waitLoop_cases r fs r.polls 0 with ⟨h, _⟩ | ⟨_, j, hj, hb⟩
    · exact h
    · rw [Nat.zero_add, hpoll j hj] at hb
      simp at hb
  · exact hl 6 (by simp)
  · simp [plain, hsettle]
  · exact hl 7 (by simp)
  · rfl
  · exact hl 8 (by simp)
  · simp [checkNew, hnew]
  · exact hl 10 (by simp)

/-- C11 (amended). With the installed bundle a directory, nothing at the
backup path and neither location inside the other: a failure before the
rename of the installed bundle ends the swap procedure with status 1 and the
files unchanged; and when the rename to the backup path was done and the
`mv` of the new bundle to the installed path then fails, the rollback handler,
its own `log` and `mv` succeeding, ends the procedure with status 1 with
every location of the file system as it was before the procedure. -/
theorem swapProcedure_rollback (r : Run) (p : Paths) (fs : os.FS) (kC kB : os.Key)
    (hC : os.namei fs p.currentAppPath = .ok kC) (hCd : fs.lookup kC = some .dir)
    (hB : os.namei fs p.oldAppBackup = .ok kB) (hfree : ∀ a, kB <+: a → fs.lookup a = none)
    (h1 : ¬ kC <+: kB) (h2 : ¬ kB <+: kC) :
    (((∃ n ∈ [1, 2, 3, 4, 5, 6, 7, 8, 10, 11], r.fails (.log n) = true)
        ∨ (∃ i, i < r.polls ∧ r.fails (.sleepPoll i) = true)
        ∨ r.fails .sleepSettle = true ∨ isDir fs p.newAppPath = false
        ∨ r.fails .mvBackup = true) →
      swapProcedure r p fs = (fs, 1))
    ∧ ((∀ n ∈ [1, 2, 3, 4, 5, 6, 7, 8, 10, 11, 12], r.fails (.log n) = false) →
      (∀ i, i < r.polls → r.fails (.sleepPoll i) = false) →
      r.fails .sleepSettle = false → isDir fs p.newAppPath = true →
      r.fails .mvBackup = false →
      (r.fails .mvInstall = true
        ∨ ∃ e, mv (fs.move kC kB) p.newAppPath p.currentAppPath = .error e) →
      r.fails .rollbackLog = false → r.fails .rollbackMv = false →
      (∃ fs2, mv (fs.move kC kB) p.oldAppBackup p.currentAppPath = .ok fs2) →
      ∃ fs2, swapProcedure r p fs = (fs2, 1) ∧ fs2.cwd = fs.cwd
        ∧ ∀ k, fs2.lookup k = fs.lookup k) := by
  have hB0 : fs.lookup kB = none := hfree kB (List.prefix_refl _)
  have hbak : isDir fs p.oldAppBackup = false := by
    rw [isDir_of_lookup fs _ kB none hB hB0]
    simp
  have hcur : isDir fs p.currentAppPath = true := by
    rw [isDir_of_lookup fs _ kC _ hC hCd]
    simp
  have hrb := rollback_no_backup r p fs hbak
  have hrun : swapProcedure r p fs
      = runSteps r p (beforeSwap r p
          ++ (backupStep r p :: logLine r 12 :: installStep r p :: afterSwap r p)) fs := by
    simp [swapProcedure, mainBody]
  rw [hrun]
  have hsplit := runSteps_neutral r p (beforeSwap r p)
    (backupStep r p :: logLine r 12 :: installStep r p :: afterSwap r p) fs hrb
    (beforeSwap_neutral r p fs)
  refine ⟨?_, ?_⟩
  · intro hfail
    rcases hsplit with ⟨ha, hr⟩ | ⟨_, hr⟩
    · obtain ⟨hlog, hpoll, hsettle, hnew⟩ := beforeSwap_next r p fs ha
      rw [hr]
      have h11 : r.fails (.log 11) = true ∨ r.fails .mvBackup = true := by
        rcases hfail with ⟨n, hn, hf⟩ | ⟨i, hi, hf⟩ | hf | hf | hf
        · simp only [List.mem_cons, List.mem_singleton, List.not_mem_nil, or_false] at hn
          rcases hn with rfl | rfl | rfl | rfl | rfl | rfl | rfl | rfl | rfl | rfl
          · rw [hlog 1 (by simp)] at hf; simp at hf
          · rw [hlog 2 (by simp)] at hf; simp at hf
          · rw [hlog 3 (by simp)] at hf; simp at hf
          · rw [hlog 4 (by simp)] at hf; simp at hf
          · rw [hlog 5 (by simp)] at hf; simp at hf
          · rw [hlog 6 (by simp)] at hf; simp at hf
          · rw [hlog 7 (by simp)] at hf; simp at hf
          · rw [hlog 8 (by simp)] at hf; simp at hf
          · rw [hlog 10 (by simp)] at hf; simp at hf
          · exact Or.inl hf
        · rw [hpoll i hi] at hf; simp at hf
        · rw [hsettle] at hf; simp at hf
        · rw [hnew] at hf; simp at hf
        · exact Or.inr hf
      rcases hl : r.fails (.log 11) with _ | _
      · have hm : r.fails .mvBackup = true := by
          rcases h11 with h | h
          · rw [hl] at h; simp at h
          · exact h
        simp [runSteps, backupStep, hcur, logLine, hl, fileCmd, hm, hrb]
      · simp [runSteps, backupStep, hcur, logLine, hl]
    · exact hr
  · intro hlog hpoll hsettle hnew hmvb hinst hrl hrm hback
    have hall := beforeSwap_all_next r p fs
      (fun n hn => hlog n (by
        simp only [List.mem_cons, List.mem_singleton, List.not_mem_nil, or_false] at hn ⊢
        rcases hn with rfl | rfl | rfl | rfl | rfl | rfl | rfl | rfl | rfl <;> simp))
      hpoll hsettle hnew
    rcases hsplit with ⟨_, hr⟩ | ⟨⟨s, hs, hne⟩, _⟩
    · rw [hr]
      rcases hmv1 : mv fs p.currentAppPath p.oldAppBackup with e | fs1
      · -- the first rename fails by itself: nothing has changed
        refine ⟨fs, ?_, rfl, fun _ => rfl⟩
        simp [runSteps, backupStep, hcur, logLine, hlog 11 (by simp), fileCmd, hmvb, hmv1, hrb]
      · have hne : kC ≠ kB := fun e => h1 (e ▸ List.prefix_refl _)
        have hfs1 := mv_ok fs fs1 _ _ kC kB hC hB hne hbak hmv1
        subst hfs1
        have hlB : (fs.move kC kB).lookup kB = some .dir := by
          rw [os.lookup_move fs kC kB kB h1 h2]
          simpa using hCd
        have hlC : (fs.move kC kB).lookup kC = none := by
          rw [os.lookup_move fs kC kB kC h1 h2]
          simp [h2]
        -- after the first rename the installed path is not a directory
        have hcur1 : isDir (fs.move kC kB) p.currentAppPath = false := by
          cases hd : isDir (fs.move kC kB) p.currentAppPath
          · rfl
          · obtain ⟨k, hk, hkd⟩ := isDir_true _ _ hd
            have := os.namei_unique fs (fs.move kC kB) _ kC k (os.move_cwd fs kC kB) hC hk
            subst this
            rw [hlC] at hkd
            simp at hkd
        -- the `mv` of the handler, which succeeds, is the move back
        obtain ⟨fs2, hb⟩ := hback
        have hren : os.Rename (fs.move kC kB) p.oldAppBackup p.currentAppPath = .ok fs2 := by
          unfold mv at hb
          simpa [hcur1] using hb
        obtain ⟨ks, kd, hs1, hd1, _, _⟩ := os.Rename_ok _ _ _ _ hren
        have hks := os.namei_unique fs (fs.move kC kB) _ kB ks (os.move_cwd fs kC kB) hB hs1
        have hkd := os.namei_unique fs (fs.move kC kB) _ kC kd (os.move_cwd fs kC kB) hC hd1
        rw [hks] at hs1
        rw [hkd] at hd1
        have hfs2 := mv_ok (fs.move kC kB) fs2 _ _ kB kC hs1 hd1 (Ne.symm hne) hcur1 hb
        have hbak1 : isDir (fs.move kC kB) p.oldAppBackup = true := by
          rw [isDir_of_lookup _ _ kB _ hs1 hlB]
          simp
        have hroll : rollback r p (fs.move kC kB) = ((fs.move kC kB).move kB kC, 1) := by
          simp [rollback, hrl, hrm, hbak1, hb, hfs2]
        have hinstall : installStep r p (fs.move kC kB) = .fail (fs.move kC kB) := by
          unfold installStep fileCmd
          rcases hinst with h | ⟨e, h⟩
          · simp [h]
          · rw [h]
            split <;> rfl
        refine ⟨(fs.move kC kB).move kB kC, ?_, rfl, ?_⟩
        · simp [runSteps, backupStep, hcur, logLine, hlog 11 (by simp), hlog 12 (by simp),
            fileCmd, hmvb, hmv1, hinstall, hroll]
        · intro k
          exact os.lookup_move_back fs kC kB k h1 h2 hfree
    · exact absurd (hall s hs) hne

/-- Why the `mv` of the handler is asked to succeed: when the name of the
installed bundle leads through the bundle, `/Applications/My.app/../My.app`,
the first rename is done, after it that name leads nowhere, the second rename
fails by itself and so does the `mv` of the handler. The procedure ends with
status 1, the previous bundle at the backup path and nothing at the installed
path. -/
theorem swapProcedure_through_bundle :
    isDir sampleSwapFS throughPaths.currentAppPath = true
    ∧ (swapProcedure (quietRun 0) throughPaths sampleSwapFS).2 = 1
    ∧ os.Stat (swapProcedure (quietRun 0) throughPaths sampleSwapFS).1
        (str "/Applications/My.app") = .error .ENOENT
    ∧ os.Stat (swapProcedure (quietRun 0) throughPaths sampleSwapFS).1
        (str "/dl/backup-1700000000.app/run") = .ok (.file [1]) := by
  decide

/-- Nothing is at or below a location that no entry lies at or below. -/
theorem free_of_nodes (fs : os.FS) (k : os.Key) (hk : k ≠ [])
    (h : fs.nodes.all (fun e => !decide (k <+: e.1)) = true) :
    ∀ a, k <+: a → fs.lookup a = none := by
  intro a ha
  have ha0 : a ≠ [] := by
    intro h0
    subst h0
    exact hk (List.prefix_nil.mp ha)
  unfold os.FS.lookup
  simp only [ha0, if_false, Option.map_eq_none', List.find?_eq_none, decide_eq_true_eq]
  intro e he heq
  have := List.all_eq_true.mp h e he
  rw [heq] at this
  simp [ha] at this

theorem swapProcedure_rollback_witness :
    swapProcedure (sampleRun (.sleepPoll 1) 3) samplePaths sampleSwapFS = (sampleSwapFS, 1)
    ∧ ∃ fs2, swapProcedure (sampleRun .mvInstall 3) samplePaths sampleSwapFS = (fs2, 1)
      ∧ fs2.cwd = sampleSwapFS.cwd ∧ ∀ k, fs2.lookup k = sampleSwapFS.lookup k :=
  ⟨(swapProcedure_rollback (sampleRun (.sleepPoll 1) 3) samplePaths sampleSwapFS
      [str "Applications", str "My.app"] [str "dl", str "backup-1700000000.app"]
      (by decide) (by decide) (by decide)
      (free_of_nodes sampleSwapFS _ (by decide) (by decide)) (by decide) (by decide)).1
      (Or.inr (Or.inl ⟨1, by decide, by decide⟩)),
   (swapProcedure_rollback (sampleRun .mvInstall 3) samplePaths sampleSwapFS
      [str "Applications", str "My.app"] [str "dl", str "backup-1700000000.app"]
      (by decide) (by decide) (by decide)
      (free_of_nodes sampleSwapFS _ (by decide) (by decide)) (by decide) (by decide)).2
      (fun n _ => by simp [sampleRun]) (fun i _ => by simp [sampleRun])
      (by decide) (by decide) (by decide) (Or.inl (by decide)) (by decide) (by decide)
      ⟨_, rfl⟩⟩

/-- C11, as stated, fails: the installed bundle is renamed to the backup path,
the new bundle is installed, the backup is deleted, and `open` then fails. The
rollback handler finds no backup: the procedure ends with status 1 with the
new bundle, not the previous one, at the installed-bundle path. -/
theorem swapProcedure_counterexample :
    isDir sampleSwapFS samplePaths.currentAppPath = true
    ∧ os.Stat sampleSwapFS (str "/Applications/My.app/run") = .ok (.file [1])
    ∧ (swapProcedure (sampleRun .openApp 0) samplePaths sampleSwapFS).2 = 1
    ∧ os.Stat (swapProcedure (sampleRun .openApp 0) samplePaths sampleSwapFS).1
        (str "/Applications/My.app/run") = .ok (.file [2])
    ∧ os.Stat (swapProcedure (sampleRun .openApp 0) samplePaths sampleSwapFS).1
        samplePaths.oldAppBackup = .error .ENOENT := by
  decide

end script

end Joobpay
